import Mathlib

/-!
Verification of the hierarchical document store of `terminal-notes`
(`src/lib/fileSystem.ts`).

The store is a flat key-value persistence layer (IndexedDB object store
with `keyPath: 'path'`) holding `FileSystemItem` records, together with
path-aware CRUD and subtree operations.  We embed it shallowly:

* JavaScript strings are modelled as `List Char` (`Str`); the string
  operations used by the source (`startsWith`, `substring`,
  `lastIndexOf('/')`, `split('/').pop()`, string concatenation and the
  `|| fallback` idiom on possibly-empty strings) are given faithful
  counterparts below.
* The IndexedDB object store is a list of records; because `path` is the
  key path, a `put` replaces the record with the same `path` (or appends
  a new one) and `delete` removes it.  Key enumeration order is not
  modelled; no property proved here depends on it.
* `Date.now()` is modelled by an explicit `now : Nat` argument supplied
  to every mutating operation (one logical timestamp per operation).
* Thrown `Error`s are modelled by the error taxonomy of the spec
  (`NotFound`, `AlreadyExists`, `InvalidTarget`, `Forbidden`), matching
  the message of each `throw` site.
-/

/-- JavaScript strings, modelled as their character sequences. -/
abbrev Str := List Char

/-- Shorthand turning a Lean string literal into a `Str`. -/
def str (x : String) : Str := x.data

/-- The path separator character. -/
def slashChar : Char := '/'

/-- The root path `"/"`. -/
def rootPath : Str := [slashChar]

/-- The `type` field of a record: `'file' | 'folder'`. -/
inductive ItemType where
  | file : ItemType
  | folder : ItemType
deriving DecidableEq, Repr

/-- A record of the `files` object store (`FileSystemItem` in the source). -/
structure FileSystemItem where
  path : Str
  name : Str
  type : ItemType
  content : Str
  parentPath : Str
  createdAt : Nat
  updatedAt : Nat
deriving DecidableEq, Repr

/-- The persisted state of the `files` object store. -/
abbrev Store := List FileSystemItem

/-- `database.get('files', path)`: direct key lookup. -/
def getItem (s : Store) (p : Str) : Option FileSystemItem :=
  s.find? (fun it => it.path = p)

/-- `database.put('files', item)`: replace the record stored under the
same key, or insert a fresh one (the object store's `keyPath` is `path`,
and keys are unique). -/
def putItem (s : Store) (it : FileSystemItem) : Store :=
  match s with
  | [] => [it]
  | o :: rest => if o.path = it.path then it :: rest else o :: putItem rest it

/-- `database.delete('files', path)`: remove the record with that key. -/
def deleteKey (s : Store) (p : Str) : Store :=
  s.filter (fun it => ¬ it.path = p)

/-- `database.getAll('files')`. -/
def getAllItems (s : Store) : Store := s

/-- The error taxonomy of the spec, one constructor per `throw` site. -/
inductive FsError where
  | notFound : FsError
  | alreadyExists : FsError
  | invalidTarget : FsError
  | forbidden : FsError
deriving DecidableEq, Repr

/-- `path === '/' ? '/' + name : path + '/' + name` (the `fullPath`
computation of `createFolder` / `createFile`). -/
def joinPath (p n : Str) : Str :=
  if p = rootPath then rootPath ++ n else p ++ [slashChar] ++ n

/-- `f.substring(0, f.lastIndexOf('/'))`: everything strictly before the
last `'/'`; the empty string when there is no `'/'` (JavaScript's
`substring(0, -1)` is `substring(0, 0)`). -/
def upToLastSlash (f : Str) : Str :=
  (((f.reverse.dropWhile (fun c => ¬ c = slashChar)).drop 1)).reverse

/-- `f.split('/').pop()`: the (possibly empty) segment after the last
`'/'`, or all of `f` when it has no `'/'`. -/
def lastSegment (f : Str) : Str :=
  (f.reverse.takeWhile (fun c => ¬ c = slashChar)).reverse

/-- The `x || '/'` idiom applied to a possibly-empty string. -/
def orRoot (x : Str) : Str :=
  if x = [] then rootPath else x

/-- The `x || y` idiom applied to a possibly-empty string. -/
def orElse (x y : Str) : Str :=
  if x = [] then y else x

/-- The root record written by `initDB` at time `t`. -/
def rootItem (t : Nat) : FileSystemItem :=
  { path := rootPath, name := rootPath, type := .folder, content := [],
    parentPath := [], createdAt := t, updatedAt := t }

/-- The store after `initDB` first runs on an empty database: just the
root folder. -/
def initStore (t : Nat) : Store := [rootItem t]

/-- `createFolder(path, name)` at time `now`. -/
def createFolder (s : Store) (p n : Str) (now : Nat) :
    Except FsError (FileSystemItem × Store) :=
  let fullPath := joinPath p n
  match getItem s fullPath with
  | some _ => .error .alreadyExists
  | none =>
    let item : FileSystemItem :=
      { path := fullPath, name := n, type := .folder, content := [],
        parentPath := p, createdAt := now, updatedAt := now }
    .ok (item, putItem s item)

/-- `createFile(path, name, content)` at time `now`. -/
def createFile (s : Store) (p n content : Str) (now : Nat) :
    Except FsError (FileSystemItem × Store) :=
  let fullPath := joinPath p n
  match getItem s fullPath with
  | some _ => .error .alreadyExists
  | none =>
    let item : FileSystemItem :=
      { path := fullPath, name := n, type := .file, content := content,
        parentPath := p, createdAt := now, updatedAt := now }
    .ok (item, putItem s item)

/-- `updateFile(path, content)` at time `now`. -/
def updateFile (s : Store) (p content : Str) (now : Nat) :
    Except FsError (FileSystemItem × Store) :=
  match getItem s p with
  | none => .error .notFound
  | some item =>
    if item.type = .file then
      let updated : FileSystemItem :=
        { item with content := content, updatedAt := now }
      .ok (updated, putItem s updated)
    else
      .error .invalidTarget

/-- Three-way lexicographic comparison of `Nat` sequences. -/
def cmpN : List Nat → List Nat → Ordering
  | [], [] => .eq
  | [], _ :: _ => .lt
  | _ :: _, [] => .gt
  | a :: as, b :: bs =>
    if a < b then .lt else if b < a then .gt else cmpN as bs

/-- Primary collation weight of a character: ASCII letters compare
case-insensitively at the primary level. -/
def primaryWeight (c : Char) : Nat :=
  if 'A' ≤ c ∧ c ≤ 'Z' then c.toNat + 32 else c.toNat

/-- Case (tertiary) weight of a character: lowercase sorts before
uppercase when the primary weights agree. -/
def caseWeight (c : Char) : Nat :=
  if 'A' ≤ c ∧ c ≤ 'Z' then 1 else 0

/-- `a.localeCompare(b)` under the default locale.  The host collation is
a builtin outside this repository; it is modelled here by the CLDR root
collation restricted to ASCII: strings are compared case-insensitively
at the primary level, and when the primary weights agree the case
weights break the tie, lowercase before uppercase.  It is case
sensitive, but it is not the code-unit (case-sensitive lexicographic)
order. -/
def localeCompare (a b : Str) : Ordering :=
  match cmpN (a.map primaryWeight) (b.map primaryWeight) with
  | .eq => cmpN (a.map caseWeight) (b.map caseWeight)
  | o => o

/-- The sort comparator of `listDirectory`, as the boolean
`comparator(a, b) <= 0`: folders precede files, ties within a kind go to
`localeCompare` on names. -/
def itemLe (a b : FileSystemItem) : Bool :=
  if a.type = b.type then (localeCompare a.name b.name).isLE
  else a.type = .folder

/-- Insert `a` into a list sorted by `le`, before the first element it
compares at-or-below. -/
def insertSorted (le : FileSystemItem → FileSystemItem → Bool)
    (a : FileSystemItem) : List FileSystemItem → List FileSystemItem
  | [] => [a]
  | b :: l => if le a b then a :: b :: l else b :: insertSorted le a l

/-- Sort with comparator `le` (insertion sort).  `Array.prototype.sort`
with a consistent comparator produces a list sorted the same way; no
property proved here depends on the order of comparator ties. -/
def sortByLe (le : FileSystemItem → FileSystemItem → Bool) :
    List FileSystemItem → List FileSystemItem
  | [] => []
  | a :: l => insertSorted le a (sortByLe le l)

/-- `listDirectory(path)`: all records whose `parentPath` index key
equals `path`, sorted with the comparator above. -/
def listDirectory (s : Store) (p : Str) : List FileSystemItem :=
  sortByLe itemLe (s.filter (fun it => it.parentPath = p))

/-- One recursion level of `deleteItem` over a precomputed children
list: delete each child in order with `next`, stopping at the first
error (a thrown exception aborts the loop but keeps the mutations made
so far). -/
def deleteChildren (next : Str → Store → Option (Store × Option FsError)) :
    List FileSystemItem → Store → Option (Store × Option FsError)
  | [], s => some (s, none)
  | c :: cs, s =>
    match next c.path s with
    | none => none
    | some (s1, some e) => some (s1, some e)
    | some (s1, none) => deleteChildren next cs s1

/-- One level of `deleteItem`: look the record up, guard the root, run
`next` on every child when it is a folder, then remove the record's own
key. -/
def deleteLevel (next : Str → Store → Option (Store × Option FsError))
    (p : Str) (s : Store) : Option (Store × Option FsError) :=
  match getItem s p with
  | none => some (s, some .notFound)
  | some item =>
    if p = rootPath then some (s, some .forbidden)
    else
      let go :=
        if item.type = .folder then
          deleteChildren next (listDirectory s p) s
        else
          some (s, none)
      match go with
      | none => none
      | some (s1, some e) => some (s1, some e)
      | some (s1, none) => some (deleteKey s1 p, none)

/-- `deleteItem(path)` with an explicit recursion budget.  The result is
`none` when the budget runs out (the source recursion would still be
running), and otherwise the mutated store so far together with the error
that aborted the operation, if any. -/
def deleteItemFuel : Nat → Str → Store → Option (Store × Option FsError)
  | 0 => fun _ _ => none
  | fuel + 1 => deleteLevel (deleteItemFuel fuel)

/-- `deleteItem(path)`.  A budget of one more than the store size covers
every terminating run of the source recursion (each recursion level
consumes a distinct record of the store). -/
def deleteItem (s : Store) (p : Str) : Option (Store × Option FsError) :=
  deleteItemFuel (s.length + 1) p s

/-- The *final destination path* resolution shared by `moveItem` and
`copyItem`: moving into an existing folder keeps the source's name;
otherwise the destination path itself is the final path. -/
def finalDestOf (s : Store) (source : FileSystemItem) (destPath : Str) :
    Str :=
  match getItem s destPath with
  | some d => if d.type = .folder then joinPath destPath source.name else destPath
  | none => destPath

/-- The self-nesting ("circular") check of `moveItem` / `copyItem`:
the source is a folder and the final path equals the source path or is
nested under it. -/
def circularCheck (source : FileSystemItem) (sourcePath finalDestPath : Str) :
    Bool :=
  source.type = .folder ∧
    (finalDestPath = sourcePath ∨ (sourcePath ++ [slashChar]) <+: finalDestPath)

/-- The re-keying loop of `moveItem` over the precomputed descendant
list: write each descendant under its new key, then remove its old key. -/
def moveChildren (finalDestPath sourcePath : Str) (now : Nat) :
    List FileSystemItem → Store → Store
  | [], s => s
  | c :: cs, s =>
    let suffix := c.path.drop sourcePath.length
    let newChildPath := finalDestPath ++ suffix
    let newChildParent := orRoot (upToLastSlash newChildPath)
    moveChildren finalDestPath sourcePath now cs
      (deleteKey
        (putItem s
          { c with path := newChildPath, parentPath := newChildParent,
                   updatedAt := now })
        c.path)

/-- `moveItem(sourcePath, destPath)` at time `now`. -/
def moveItem (s : Store) (sourcePath destPath : Str) (now : Nat) :
    Except FsError Store :=
  match getItem s sourcePath with
  | none => .error .notFound
  | some source =>
    if sourcePath = rootPath then .error .forbidden
    else
      match getItem s destPath with
      | some d =>
        if d.type = .folder then
          moveResolved s source sourcePath (joinPath destPath source.name) now
        else
          .error .alreadyExists
      | none => moveResolved s source sourcePath destPath now
where
  /-- The tail of `moveItem` once the final destination path is known:
  the circular check, the write of the source under its new key, the
  descendant re-keying loop for folders, and the removal of the old
  source key. -/
  moveResolved (s : Store) (source : FileSystemItem)
      (sourcePath finalDestPath : Str) (now : Nat) : Except FsError Store :=
    if circularCheck source sourcePath finalDestPath then .error .invalidTarget
    else
      let parentPath := orRoot (upToLastSlash finalDestPath)
      let name := orElse (lastSegment finalDestPath) source.name
      let s1 := putItem s
        { source with path := finalDestPath, parentPath := parentPath,
                      name := name, updatedAt := now }
      let s2 :=
        if source.type = .folder then
          let children := (getAllItems s1).filter
            (fun it => (sourcePath ++ [slashChar]) <+: it.path)
          moveChildren finalDestPath sourcePath now children s1
        else s1
      .ok (deleteKey s2 sourcePath)

/-- The duplication loop of `copyItem` over the precomputed descendant
list: write a copy of each descendant under its new key with fresh
timestamps, keeping the source records. -/
def copyChildren (finalDestPath sourcePath : Str) (now : Nat) :
    List FileSystemItem → Store → Store
  | [], s => s
  | c :: cs, s =>
    let suffix := c.path.drop sourcePath.length
    let newChildPath := finalDestPath ++ suffix
    let newChildParent := orRoot (upToLastSlash newChildPath)
    copyChildren finalDestPath sourcePath now cs
      (putItem s
        { c with path := newChildPath, parentPath := newChildParent,
                 createdAt := now, updatedAt := now })

/-- `copyItem(sourcePath, destPath)` at time `now`. -/
def copyItem (s : Store) (sourcePath destPath : Str) (now : Nat) :
    Except FsError Store :=
  match getItem s sourcePath with
  | none => .error .notFound
  | some source =>
    if sourcePath = rootPath then .error .forbidden
    else
      match getItem s destPath with
      | some d =>
        if d.type = .folder then
          copyResolved s source sourcePath (joinPath destPath source.name) now
        else
          .error .alreadyExists
      | none => copyResolved s source sourcePath destPath now
where
  /-- The tail of `copyItem` once the final destination path is known. -/
  copyResolved (s : Store) (source : FileSystemItem)
      (sourcePath finalDestPath : Str) (now : Nat) : Except FsError Store :=
    if circularCheck source sourcePath finalDestPath then .error .invalidTarget
    else
      let parentPath := orRoot (upToLastSlash finalDestPath)
      let name := orElse (lastSegment finalDestPath) source.name
      let s1 := putItem s
        { source with path := finalDestPath, parentPath := parentPath,
                      name := name, createdAt := now, updatedAt := now }
      if source.type = .folder then
        let children := (getAllItems s1).filter
          (fun it => (sourcePath ++ [slashChar]) <+: it.path)
        .ok (copyChildren finalDestPath sourcePath now children s1)
      else
        .ok s1

/-- `path.split('/').filter(Boolean)`: the nonempty `'/'`-separated
segments of a path, i.e. its maximal runs of non-separator characters. -/
def splitSegments : Str → List Str
  | [] => []
  | c :: rest =>
    if c = slashChar then splitSegments rest
    else
      match rest with
      | [] => [[c]]
      | d :: _ =>
        if d = slashChar then [c] :: splitSegments rest
        else
          match splitSegments rest with
          | [] => [[c]]
          | seg :: segs => (c :: seg) :: segs

/-- The segment-processing loop shared by `resolvePath` and
`normalizePath`: `'..'` pops the accumulated segments, `'.'` is a no-op,
anything else is pushed. -/
def processSegments (acc : List Str) : List Str → List Str
  | [] => acc
  | part :: rest =>
    if part = str ".." then processSegments acc.dropLast rest
    else if part = str "." then processSegments acc rest
    else processSegments (acc ++ [part]) rest

/-- `'/' + parts.join('/')`.  The source writes
`'/' + parts.join('/') || '/'`, but the left operand always starts with
`'/'` and so is never falsy; the `|| '/'` is dead. -/
def joinAbsolute (parts : List Str) : Str :=
  [slashChar] ++ (List.intercalate [slashChar] parts)

/-- `normalizePath(path)`. -/
def normalizePath (p : Str) : Str :=
  joinAbsolute (processSegments [] (splitSegments p))

/-- `resolvePath(currentPath, targetPath)`. -/
def resolvePath (currentPath targetPath : Str) : Str :=
  if [slashChar] <+: targetPath then normalizePath targetPath
  else
    let parts := if currentPath = rootPath then [] else splitSegments currentPath
    joinAbsolute (processSegments parts (splitSegments targetPath))

/-- Results of the fallible operations are comparable. -/
instance {e a : Type} [DecidableEq e] [DecidableEq a] :
    DecidableEq (Except e a) := fun x y =>
  match x, y with
  | .error u, .error v =>
    if h : u = v then isTrue (by rw [h]) else
      isFalse (fun hc => h (by cases hc; rfl))
  | .error _, .ok _ => isFalse (fun hc => Except.noConfusion hc)
  | .ok _, .error _ => isFalse (fun hc => Except.noConfusion hc)
  | .ok u, .ok v =>
    if h : u = v then isTrue (by rw [h]) else
      isFalse (fun hc => h (by cases hc; rfl))

/-- Membership of `q` in the subtree rooted at `p`, measured on path
strings: `q` is `p` itself or lies strictly below it. -/
def inSubtreeB (p q : Str) : Bool :=
  q = p ∨ (p ++ [slashChar]) <+: q

/-- The path/name/parent coherence equation of the spec:
`path == (parentPath == "/" ? "/" + name : parentPath + "/" + name)`. -/
@[reducible] def pathCoherent (it : FileSystemItem) : Prop :=
  it.path = joinPath it.parentPath it.name

/-- Structural well-formedness of a single record: it is the root
record, or its name is a nonempty slash-free segment and its path is the
join of its parent path and name. -/
@[reducible] def wfItem (it : FileSystemItem) : Prop :=
  it.path = rootPath ∨
    (¬ it.name = [] ∧ ¬ slashChar ∈ it.name ∧ pathCoherent it)

/-- Keys of the object store are unique. -/
@[reducible] def pathsNodup (s : Store) : Prop :=
  (s.map (fun it => it.path)).Nodup

/-- Structural well-formedness of a store: unique keys, well-formed
records, and a root folder record with the sentinel parent `""`. -/
@[reducible] def Wf (s : Store) : Prop :=
  pathsNodup s ∧ (∀ it ∈ s, wfItem it) ∧
    (∃ r ∈ s, r.path = rootPath ∧ r.type = ItemType.folder ∧ r.parentPath = [])

/-- Every non-root record's parent exists and is a folder (the spec's
"For every non-root node, a node with `path == parentPath` exists and
has `kind == Directory`"). -/
@[reducible] def ParentClosed (s : Store) : Prop :=
  ∀ it ∈ s, ¬ it.path = rootPath →
    ∃ pr ∈ s, pr.path = it.parentPath ∧ pr.type = ItemType.folder

/-- A normalized absolute path: `'/'` followed by `'/'`-joined nonempty
slash-free segments (the output format of the path resolver). -/
def NormalizedAbs (p : Str) : Prop :=
  ∃ segs : List Str,
    (∀ g ∈ segs, ¬ g = [] ∧ ¬ slashChar ∈ g) ∧ p = joinAbsolute segs

/-- The states reachable from the initialized store by the public store
operations (with arbitrary arguments). -/
inductive Reachable : Store → Prop where
  | init (t : Nat) : Reachable (initStore t)
  | createFolderStep {s : Store} {p n : Str} {now : Nat}
      {it : FileSystemItem} {s2 : Store} :
      Reachable s → createFolder s p n now = .ok (it, s2) → Reachable s2
  | createFileStep {s : Store} {p n c : Str} {now : Nat}
      {it : FileSystemItem} {s2 : Store} :
      Reachable s → createFile s p n c now = .ok (it, s2) → Reachable s2
  | updateFileStep {s : Store} {p c : Str} {now : Nat}
      {it : FileSystemItem} {s2 : Store} :
      Reachable s → updateFile s p c now = .ok (it, s2) → Reachable s2
  | deleteStep {s : Store} {p : Str} {s2 : Store} {e : Option FsError} :
      Reachable s → deleteItem s p = some (s2, e) → Reachable s2
  | moveStep {s : Store} {a b : Str} {now : Nat} {s2 : Store} :
      Reachable s → moveItem s a b now = .ok s2 → Reachable s2
  | copyStep {s : Store} {a b : Str} {now : Nat} {s2 : Store} :
      Reachable s → copyItem s a b now = .ok s2 → Reachable s2

/-- The states reachable from the initialized store by the public store
operations when callers pass well-formed arguments: create names are
nonempty and slash-free, and move/copy destinations are normalized
absolute paths (as the terminal layer guarantees via `resolvePath`). -/
inductive ReachableN : Store → Prop where
  | init (t : Nat) : ReachableN (initStore t)
  | createFolderStep {s : Store} {p n : Str} {now : Nat}
      {it : FileSystemItem} {s2 : Store} :
      ReachableN s → ¬ n = [] → ¬ slashChar ∈ n →
      createFolder s p n now = .ok (it, s2) → ReachableN s2
  | createFileStep {s : Store} {p n c : Str} {now : Nat}
      {it : FileSystemItem} {s2 : Store} :
      ReachableN s → ¬ n = [] → ¬ slashChar ∈ n →
      createFile s p n c now = .ok (it, s2) → ReachableN s2
  | updateFileStep {s : Store} {p c : Str} {now : Nat}
      {it : FileSystemItem} {s2 : Store} :
      ReachableN s → updateFile s p c now = .ok (it, s2) → ReachableN s2
  | deleteStep {s : Store} {p : Str} {s2 : Store} {e : Option FsError} :
      ReachableN s → deleteItem s p = some (s2, e) → ReachableN s2
  | moveStep {s : Store} {a b : Str} {now : Nat} {s2 : Store} :
      ReachableN s → NormalizedAbs b → moveItem s a b now = .ok s2 →
      ReachableN s2
  | copyStep {s : Store} {a b : Str} {now : Nat} {s2 : Store} :
      ReachableN s → NormalizedAbs b → copyItem s a b now = .ok s2 →
      ReachableN s2

/-- Case-sensitive lexicographic (code-unit) comparison of names, the
order named by the specification. -/
def codeUnitLe (a b : Str) : Bool :=
  (cmpN (a.map Char.toNat) (b.map Char.toNat)).isLE

/-- The listing order stated by the specification: folders before files,
ties within a kind by case-sensitive lexicographic name order. -/
@[reducible] def specListingOrder (a b : FileSystemItem) : Prop :=
  (a.type = ItemType.folder ∧ b.type = ItemType.file) ∨
    (a.type = b.type ∧ codeUnitLe a.name b.name = true)

/-- The listing order actually implemented: folders before files, ties
within a kind by the `localeCompare` collation on names. -/
@[reducible] def codeListingOrder (a b : FileSystemItem) : Prop :=
  (a.type = ItemType.folder ∧ b.type = ItemType.file) ∨
    (a.type = b.type ∧ (localeCompare a.name b.name).isLE = true)

/-- A file `/B` created under the root. -/
def fileUpperB : FileSystemItem :=
  ⟨str "/B", str "B", .file, [], str "/", 1, 1⟩

/-- A file `/a` created under the root. -/
def fileLowerA : FileSystemItem :=
  ⟨str "/a", str "a", .file, [], str "/", 2, 2⟩

/-- Root plus the two files `/B` and `/a`. -/
def twoFilesStore : Store := [rootItem 0, fileUpperB, fileLowerA]

/-- The folder `/docs`. -/
def docsFolder : FileSystemItem :=
  ⟨str "/docs", str "docs", .folder, [], str "/", 1, 1⟩

/-- The file `/docs/a.md` with content `"hi"`. -/
def docsNote : FileSystemItem :=
  ⟨str "/docs/a.md", str "a.md", .file, str "hi", str "/docs", 2, 2⟩

/-- Root plus `/docs`. -/
def docsStore : Store := [rootItem 0, docsFolder]

/-- Root plus `/docs` and `/docs/a.md`. -/
def docsNoteStore : Store := [rootItem 0, docsFolder, docsNote]

/-- `/docs` after being moved to `/archive` at time 3. -/
def archiveFolder : FileSystemItem :=
  ⟨str "/archive", str "archive", .folder, [], str "/", 1, 3⟩

/-- `/docs/a.md` after the move of `/docs` to `/archive` at time 3. -/
def archiveNote : FileSystemItem :=
  ⟨str "/archive/a.md", str "a.md", .file, str "hi", str "/archive", 2, 3⟩

/-- The store after `move("/docs", "/archive")` on `docsNoteStore`. -/
def archiveStore : Store := [rootItem 0, archiveFolder, archiveNote]

/-- The folder `/a/b`, created while its parent `/a` does not exist. -/
def orphanChild : FileSystemItem :=
  ⟨str "/a/b", str "b", .folder, [], str "/a", 1, 1⟩

/-- The folder `/a/b/b` under the orphan `/a/b`. -/
def orphanGrand : FileSystemItem :=
  ⟨str "/a/b/b", str "b", .folder, [], str "/a/b", 2, 2⟩

/-- A store holding the orphan chain `/a/b`, `/a/b/b` (no `/a`). -/
def orphanStore : Store := [rootItem 0, orphanChild, orphanGrand]

/-- `/a/b` after being moved to the missing ancestor path `/a`. -/
def orphanMoved : FileSystemItem :=
  ⟨str "/a", str "a", .folder, [], str "/", 1, 3⟩

/-- The store after `move("/a/b", "/a")` on `orphanStore`: the
re-keyed descendant has vanished. -/
def orphanMovedStore : Store := [rootItem 0, orphanMoved]

/-- The folder `/a`. -/
def aFolder : FileSystemItem :=
  ⟨str "/a", str "a", .folder, [], str "/", 1, 1⟩

/-- A file created with the slash-containing name `"x/y"` under `/a`. -/
def slashedFile : FileSystemItem :=
  ⟨str "/a/x/y", str "x/y", .file, [], str "/a", 2, 2⟩

/-- Root, `/a`, and the slash-named file `/a/x/y`. -/
def slashedStore : Store := [rootItem 0, aFolder, slashedFile]

/-- `/a` after being moved to `/b` at time 3. -/
def bFolderMoved : FileSystemItem :=
  ⟨str "/b", str "b", .folder, [], str "/", 1, 3⟩

/-- The slash-named file after the move of `/a` to `/b`: its recomputed
parent is `/b/x`, not the prefix-replaced `/b`. -/
def slashedMoved : FileSystemItem :=
  ⟨str "/b/x/y", str "x/y", .file, [], str "/b/x", 2, 3⟩

/-- The store after `move("/a", "/b")` on `slashedStore`. -/
def slashedMovedStore : Store := [rootItem 0, bFolderMoved, slashedMoved]

/-- The folder `/docs/a/b`, created while `/docs/a` does not exist. -/
def delOrphan : FileSystemItem :=
  ⟨str "/docs/a/b", str "b", .folder, [], str "/docs/a", 2, 2⟩

/-- Root, `/docs`, and the orphan `/docs/a/b`. -/
def delOrphanStore : Store := [rootItem 0, docsFolder, delOrphan]

/-- A file created with the slash-containing name `"a/b"` under the
root: its path `/a/b` sits under `/a` but its parent key is `/`. -/
def slashNamedFile : FileSystemItem :=
  ⟨str "/a/b", str "a/b", .file, [], str "/", 2, 2⟩

/-- Root, `/a`, and the slash-named file `/a/b`. -/
def delSlashStore : Store := [rootItem 0, aFolder, slashNamedFile]

/-- The folder `/docs/sub`. -/
def subFolder : FileSystemItem :=
  ⟨str "/docs/sub", str "sub", .folder, [], str "/docs", 3, 3⟩

/-- The file `/docs/sub/b.md`. -/
def subNote : FileSystemItem :=
  ⟨str "/docs/sub/b.md", str "b.md", .file, str "yo", str "/docs/sub", 4, 4⟩

/-- Root plus the two-level subtree under `/docs`. -/
def deepStore : Store :=
  [rootItem 0, docsFolder, docsNote, subFolder, subNote]

/-- The file `/a/x` with content `"hi"`. -/
def xFile : FileSystemItem :=
  ⟨str "/a/x", str "x", .file, str "hi", str "/a", 2, 2⟩

/-- Root, `/a`, and `/a/x`. -/
def selfParentStore : Store := [rootItem 0, aFolder, xFile]

/-- `/a/x` after `copy("/a/x", "/a")`: overwritten in place with fresh
timestamps. -/
def xFileCopied : FileSystemItem :=
  ⟨str "/a/x", str "x", .file, str "hi", str "/a", 9, 9⟩

/-- The store after `copy("/a/x", "/a")` on `selfParentStore`. -/
def selfCopyStore : Store := [rootItem 0, aFolder, xFileCopied]

/-- The store after `move("/a/x", "/a")` on `selfParentStore`: the file
is gone. -/
def selfMoveStore : Store := [rootItem 0, aFolder]

/-- The folder `/backup` produced by `copy("/docs", "/backup")` at 7. -/
def backupFolder : FileSystemItem :=
  ⟨str "/backup", str "backup", .folder, [], str "/", 7, 7⟩

/-- The file `/backup/a.md` produced by `copy("/docs", "/backup")`. -/
def backupNote : FileSystemItem :=
  ⟨str "/backup/a.md", str "a.md", .file, str "hi", str "/backup", 7, 7⟩

/-- The store after `copy("/docs", "/backup")` on `docsNoteStore`. -/
def backupStore : Store :=
  [rootItem 0, docsFolder, docsNote, backupFolder, backupNote]

/-- The folder `/dst`. -/
def dstFolder : FileSystemItem :=
  ⟨str "/dst", str "dst", .folder, [], str "/", 1, 1⟩

/-- The file `/dst/a` with content `"old"`. -/
def dstOld : FileSystemItem :=
  ⟨str "/dst/a", str "a", .file, str "old", str "/dst", 2, 2⟩

/-- The file `/a` with content `"new"`. -/
def srcNew : FileSystemItem :=
  ⟨str "/a", str "a", .file, str "new", str "/", 3, 3⟩

/-- Root, `/dst`, `/dst/a` (content `"old"`), and `/a` (content
`"new"`). -/
def overwriteStore : Store := [rootItem 0, dstFolder, dstOld, srcNew]

/-- `/dst/a` after `move("/a", "/dst")`: the old record was silently
replaced. -/
def movedNew : FileSystemItem :=
  ⟨str "/dst/a", str "a", .file, str "new", str "/dst", 3, 4⟩

/-- The store after `move("/a", "/dst")` on `overwriteStore`. -/
def overwriteMoveResult : Store := [rootItem 0, dstFolder, movedNew]

/-- `/dst/a` after `copy("/a", "/dst")`. -/
def copiedNew : FileSystemItem :=
  ⟨str "/dst/a", str "a", .file, str "new", str "/dst", 4, 4⟩

/-- The store after `copy("/a", "/dst")` on `overwriteStore`. -/
def overwriteCopyResult : Store :=
  [rootItem 0, dstFolder, copiedNew, srcNew]

/-- `/docs` after `move("/docs", "x")`: its path `x` is not absolute and
breaks the path/parent equation. -/
def xFolderMoved : FileSystemItem :=
  ⟨str "x", str "x", .folder, [], str "/", 1, 2⟩

/-- The store after `move("/docs", "x")` on `docsStore`. -/
def xMovedStore : Store := [rootItem 0, xFolderMoved]

theorem getItem_eq_some {s : Store} {p : Str} {a : FileSystemItem}
    (h : getItem s p = some a) : a ∈ s ∧ a.path = p := by
  refine ⟨List.mem_of_find?_eq_some h, ?_⟩
  have hfind := List.find?_some h
  simpa using hfind

theorem getItem_putItem (s : Store) (it : FileSystemItem) (q : Str) :
    getItem (putItem s it) q = if q = it.path then some it else getItem s q := by
  induction s with
  | nil =>
    by_cases hq : q = it.path
    · simp [putItem, getItem, hq]
    · have h1 : ¬ it.path = q := fun hc => hq hc.symm
      simp [putItem, getItem, hq, h1]
  | cons o rest ih =>
    by_cases ho : o.path = it.path
    · simp only [putItem, if_pos ho]
      by_cases hq : q = it.path
      · unfold getItem
        rw [List.find?_cons_of_pos _ (by simp [hq])]
        simp [hq]
      · unfold getItem
        rw [List.find?_cons_of_neg _ (by simp; exact fun hc => hq hc.symm),
            if_neg hq]
        rw [List.find?_cons_of_neg _
          (by simp; intro hc; exact hq (by rw [← hc, ho]))]
    · simp only [putItem, if_neg ho]
      by_cases hoq : o.path = q
      · have hq : ¬ q = it.path := fun hc => ho (by rw [hoq, hc])
        unfold getItem
        rw [List.find?_cons_of_pos _ (by simp [hoq]), if_neg hq]
        rw [List.find?_cons_of_pos _ (by simp [hoq])]
      · unfold getItem at ih ⊢
        rw [List.find?_cons_of_neg _ (by simp [hoq]), ih]
        by_cases hq : q = it.path
        · simp [hq]
        · rw [if_neg hq, if_neg hq]
          rw [List.find?_cons_of_neg _ (by simp [hoq])]

theorem getItem_deleteKey (s : Store) (p q : Str) :
    getItem (deleteKey s p) q = if q = p then none else getItem s q := by
  unfold getItem deleteKey
  rw [List.find?_filter]
  induction s with
  | nil => by_cases hq : q = p <;> simp [List.find?, hq]
  | cons o rest ih =>
    by_cases hop : o.path = p
    · rw [List.find?_cons_of_neg _ (by simp [hop]), ih]
      by_cases hq : q = p
      · simp [hq]
      · rw [if_neg hq, if_neg hq]
        rw [List.find?_cons_of_neg _
          (by simp; intro hc; exact absurd (hc ▸ hop) hq)]
    · by_cases hoq : o.path = q
      · have hq : ¬ q = p := fun hc => hop (by rw [hoq, hc])
        rw [List.find?_cons_of_pos _ (by simp [hop, hoq, hq]), if_neg hq]
        rw [List.find?_cons_of_pos _ (by simp [hoq])]
      · rw [List.find?_cons_of_neg _ (by simp [hop, hoq]), ih]
        by_cases hq : q = p
        · simp [hq]
        · rw [if_neg hq, if_neg hq]
          rw [List.find?_cons_of_neg _ (by simp [hoq])]

theorem mem_putItem {s : Store} {it a : FileSystemItem}
    (h : a ∈ putItem s it) : a = it ∨ a ∈ s := by
  induction s with
  | nil => simp [putItem] at h; exact Or.inl h
  | cons o rest ih =>
    by_cases ho : o.path = it.path
    · simp only [putItem, if_pos ho] at h
      rcases List.mem_cons.1 h with h1 | h1
      · exact Or.inl h1
      · exact Or.inr (List.mem_cons_of_mem _ h1)
    · simp only [putItem, if_neg ho] at h
      rcases List.mem_cons.1 h with h1 | h1
      · exact Or.inr (h1 ▸ List.mem_cons_self _ _)
      · rcases ih h1 with h2 | h2
        · exact Or.inl h2
        · exact Or.inr (List.mem_cons_of_mem _ h2)

theorem mem_putItem_of_mem {s : Store} {it a : FileSystemItem}
    (h : a ∈ s) (hne : ¬ a.path = it.path) : a ∈ putItem s it := by
  induction s with
  | nil => cases h
  | cons o rest ih =>
    by_cases ho : o.path = it.path
    · simp only [putItem, if_pos ho]
      rcases List.mem_cons.1 h with h1 | h1
      · exact absurd (h1 ▸ ho) hne
      · exact List.mem_cons_of_mem _ h1
    · simp only [putItem, if_neg ho]
      rcases List.mem_cons.1 h with h1 | h1
      · exact h1 ▸ List.mem_cons_self _ _
      · exact List.mem_cons_of_mem _ (ih h1)

theorem self_mem_putItem (s : Store) (it : FileSystemItem) :
    it ∈ putItem s it := by
  induction s with
  | nil => simp [putItem]
  | cons o rest ih =>
    by_cases ho : o.path = it.path
    · simp [putItem, if_pos ho]
    · simp only [putItem, if_neg ho]
      exact List.mem_cons_of_mem _ ih

theorem paths_mem_putItem {s : Store} {it : FileSystemItem} {q : Str}
    (h : q ∈ (putItem s it).map (fun x => x.path)) :
    q = it.path ∨ q ∈ s.map (fun x => x.path) := by
  rcases List.mem_map.1 h with ⟨a, ha, rfl⟩
  rcases mem_putItem ha with h1 | h1
  · exact Or.inl (by rw [h1])
  · exact Or.inr (List.mem_map_of_mem _ h1)

theorem pathsNodup_putItem {s : Store} (it : FileSystemItem)
    (h : pathsNodup s) : pathsNodup (putItem s it) := by
  induction s with
  | nil => simp [putItem, pathsNodup]
  | cons o rest ih =>
    have hn := (List.nodup_cons.1 h).1
    have ht := (List.nodup_cons.1 h).2
    by_cases ho : o.path = it.path
    · simp only [putItem, if_pos ho]
      refine List.nodup_cons.2 ⟨?_, ht⟩
      simpa only [← ho] using hn
    · simp only [putItem, if_neg ho]
      refine List.nodup_cons.2 ⟨?_, ih ht⟩
      intro hc
      rcases paths_mem_putItem hc with h1 | h1
      · exact ho h1
      · exact hn h1

theorem mem_deleteKey {s : Store} {p : Str} {a : FileSystemItem} :
    a ∈ deleteKey s p ↔ a ∈ s ∧ ¬ a.path = p := by
  simp [deleteKey, List.mem_filter]

theorem pathsNodup_deleteKey {s : Store} (p : Str)
    (h : pathsNodup s) : pathsNodup (deleteKey s p) := by
  exact List.Sublist.nodup (List.Sublist.map _ (List.filter_sublist s)) h

theorem getItem_of_mem {s : Store} {a : FileSystemItem}
    (hnd : pathsNodup s) (h : a ∈ s) : getItem s a.path = some a := by
  induction s with
  | nil => cases h
  | cons o rest ih =>
    rcases List.mem_cons.1 h with h1 | h1
    · subst h1
      unfold getItem
      rw [List.find?_cons_of_pos _ (by simp)]
    · have hn := (List.nodup_cons.1 hnd).1
      have ho : ¬ o.path = a.path := by
        intro hc
        apply hn
        have := List.mem_map_of_mem (fun it => it.path) h1
        simpa only [hc] using this
      unfold getItem
      rw [List.find?_cons_of_neg _ (by simp [ho])]
      exact ih (List.nodup_cons.1 hnd).2 h1

theorem eq_of_mem_of_path_eq {s : Store} {a b : FileSystemItem}
    (hnd : pathsNodup s) (ha : a ∈ s) (hb : b ∈ s)
    (hp : a.path = b.path) : a = b := by
  have h1 := getItem_of_mem hnd ha
  have h2 := getItem_of_mem hnd hb
  rw [hp] at h1
  rw [h1] at h2
  exact Option.some_inj.1 h2

theorem takeWhile_all_append {p : Char → Bool} {x y : Str}
    (h : ∀ c ∈ x, p c = true) :
    (x ++ y).takeWhile p = x ++ y.takeWhile p := by
  induction x with
  | nil => simp
  | cons c rest ih =>
    have hc : p c = true := h c (List.mem_cons_self _ _)
    simp only [List.cons_append, List.takeWhile_cons, hc]
    rw [ih (fun d hd => h d (List.mem_cons_of_mem _ hd))]
    simp

theorem dropWhile_all_append {p : Char → Bool} {x y : Str}
    (h : ∀ c ∈ x, p c = true) :
    (x ++ y).dropWhile p = y.dropWhile p := by
  induction x with
  | nil => simp
  | cons c rest ih =>
    have hc : p c = true := h c (List.mem_cons_self _ _)
    simp only [List.cons_append, List.dropWhile_cons, hc]
    exact ih (fun d hd => h d (List.mem_cons_of_mem _ hd))

theorem upToLastSlash_append_sf {p n : Str} (hn : ¬ slashChar ∈ n) :
    upToLastSlash (p ++ [slashChar] ++ n) = p := by
  unfold upToLastSlash
  rw [List.reverse_append, List.reverse_append]
  have hall : ∀ c ∈ n.reverse, (fun c => decide (¬ c = slashChar)) c = true := by
    intro c hc
    simp only [decide_eq_true_eq]
    intro he
    exact hn (he ▸ List.mem_reverse.1 hc)
  rw [show [slashChar].reverse ++ p.reverse = [slashChar] ++ p.reverse by simp]
  rw [← List.append_assoc, List.append_assoc, dropWhile_all_append hall]
  simp [List.dropWhile_cons_of_neg]

theorem lastSegment_append_sf {p n : Str} (hn : ¬ slashChar ∈ n) :
    lastSegment (p ++ [slashChar] ++ n) = n := by
  unfold lastSegment
  rw [List.reverse_append, List.reverse_append]
  have hall : ∀ c ∈ n.reverse, (fun c => decide (¬ c = slashChar)) c = true := by
    intro c hc
    simp only [decide_eq_true_eq]
    intro he
    exact hn (he ▸ List.mem_reverse.1 hc)
  rw [show [slashChar].reverse ++ p.reverse = [slashChar] ++ p.reverse by simp]
  rw [← List.append_assoc, List.append_assoc, takeWhile_all_append hall]
  simp [List.takeWhile_cons_of_neg]

theorem upToLastSlash_append_mem {f t : Str} (ht : slashChar ∈ t) :
    upToLastSlash (f ++ t) = f ++ upToLastSlash t := by
  unfold upToLastSlash
  rw [List.reverse_append]
  have hne : ¬ t.reverse.dropWhile (fun c => decide (¬ c = slashChar)) = [] := by
    rw [List.dropWhile_eq_nil_iff]
    intro hall
    have := hall slashChar (List.mem_reverse.2 ht)
    simp at this
  rw [List.dropWhile_append]
  rw [if_neg (by simpa [List.isEmpty_iff] using hne)]
  cases hd : t.reverse.dropWhile (fun c => decide (¬ c = slashChar)) with
  | nil => exact absurd hd hne
  | cons a l =>
    simp [List.reverse_append]

theorem lastSegment_sf (f : Str) : ¬ slashChar ∈ lastSegment f := by
  unfold lastSegment
  intro h
  have h2 := List.mem_reverse.1 h
  have h3 := List.mem_takeWhile_imp h2
  simp at h3

theorem lastSegment_of_no_slash {f : Str} (h : ¬ slashChar ∈ f) :
    lastSegment f = f := by
  unfold lastSegment
  have : f.reverse.takeWhile (fun c => decide (¬ c = slashChar)) = f.reverse := by
    rw [List.takeWhile_eq_self_iff]
    intro c hc
    simp only [decide_eq_true_eq]
    intro he
    exact h (he ▸ List.mem_reverse.1 hc)
  rw [this, List.reverse_reverse]

theorem upToLastSlash_of_no_slash {f : Str} (h : ¬ slashChar ∈ f) :
    upToLastSlash f = [] := by
  unfold upToLastSlash
  have : f.reverse.dropWhile (fun c => decide (¬ c = slashChar)) = [] := by
    rw [List.dropWhile_eq_nil_iff]
    intro c hc
    simp only [decide_eq_true_eq]
    intro he
    exact h (he ▸ List.mem_reverse.1 hc)
  rw [this]
  simp

theorem joinPath_eq_append (p n : Str) :
    joinPath p n = (if p = rootPath then [] else p) ++ [slashChar] ++ n := by
  unfold joinPath
  by_cases hp : p = rootPath
  · simp [hp, rootPath]
  · simp [hp]

theorem slash_mem_joinPath (p n : Str) : slashChar ∈ joinPath p n := by
  rw [joinPath_eq_append]
  exact List.mem_append.2 (Or.inl (List.mem_append.2 (Or.inr (List.mem_singleton.2 rfl))))

theorem joinPath_ne_nil (p n : Str) : ¬ joinPath p n = [] := by
  rw [joinPath_eq_append]
  intro h
  have := congrArg List.length h
  simp at this

theorem joinPath_ne_root {p n : Str} (hn : ¬ n = []) :
    ¬ joinPath p n = rootPath := by
  rw [joinPath_eq_append]
  intro h
  have hl := congrArg List.length h
  simp only [List.length_append, List.length_singleton, rootPath] at hl
  have hnn : 0 < n.length :=
    List.length_pos.2 (by intro hc; exact hn hc)
  omega

theorem prefix_of_prefix_concat {l m : Str} {a : Char}
    (h : l <+: m ++ [a]) (hl : l.length ≤ m.length) : l <+: m := by
  rcases List.prefix_concat_iff.1 h with h1 | h1
  · have := congrArg List.length h1
    simp at this
    omega
  · exact h1

theorem prefix_trichotomy {p px n : Str}
    (hpre : (p ++ [slashChar]) <+: (px ++ [slashChar] ++ n))
    (hn : ¬ slashChar ∈ n) : p = px ∨ (p ++ [slashChar]) <+: px := by
  rcases Nat.lt_trichotomy p.length px.length with hlt | heq | hgt
  · right
    have h2 : (px ++ [slashChar]) <+: (px ++ [slashChar] ++ n) :=
      List.prefix_append _ _
    have h3 : (p ++ [slashChar]) <+: (px ++ [slashChar]) :=
      List.prefix_of_prefix_length_le hpre h2 (by simp; omega)
    exact prefix_of_prefix_concat h3 (by simp; omega)
  · left
    have h2 : (px ++ [slashChar]) <+: (px ++ [slashChar] ++ n) :=
      List.prefix_append _ _
    have h3 : (p ++ [slashChar]) <+: (px ++ [slashChar]) :=
      List.prefix_of_prefix_length_le hpre h2 (by simp; omega)
    have h4 : p ++ [slashChar] = px ++ [slashChar] :=
      List.IsPrefix.eq_of_length h3 (by simp; omega)
    exact List.append_cancel_right h4
  · exfalso
    have h2 : (px ++ [slashChar]) <+: (p ++ [slashChar]) := by
      refine List.prefix_of_prefix_length_le (List.prefix_append _ _) hpre ?_
      simp; omega
    have h3 : (px ++ [slashChar]) <+: p :=
      prefix_of_prefix_concat h2 (by simp; omega)
    rcases h3 with ⟨r, hr⟩
    have hpre2 : (px ++ [slashChar]) ++ (r ++ [slashChar]) <+:
        (px ++ [slashChar]) ++ n := by
      rw [← List.append_assoc, hr]
      exact hpre
    have h6 : (r ++ [slashChar]) <+: n :=
      (List.prefix_append_right_inj (px ++ [slashChar])).1 hpre2
    have h7 : slashChar ∈ n :=
      List.IsPrefix.subset h6 (List.mem_append.2 (Or.inr (by simp)))
    exact hn h7

theorem prefix_root_absurd {p n : Str}
    (hpre : (p ++ [slashChar]) <+: (rootPath ++ n))
    (hn : ¬ slashChar ∈ n) (hp : slashChar ∈ p) : False := by
  cases p with
  | nil => cases hp
  | cons c rest =>
    rcases hpre with ⟨t, ht⟩
    simp only [rootPath, List.cons_append, List.singleton_append,
      List.append_assoc] at ht
    injection ht with h1 h2
    simp only [List.nil_append] at h2
    apply hn
    rw [← h2]
    exact List.mem_append.2 (Or.inr (by simp))

theorem drop_of_prefix {src q : Str} (h : (src ++ [slashChar]) <+: q) :
    src ++ q.drop src.length = q := by
  rcases h with ⟨t, ht⟩
  subst ht
  rw [List.append_assoc, List.drop_left]

theorem drop_head_slash {src q : Str} (h : (src ++ [slashChar]) <+: q) :
    q.drop src.length = slashChar :: q.drop (src.length + 1) := by
  rcases h with ⟨t, ht⟩
  subst ht
  rw [List.append_assoc, List.drop_left]
  have h2 : src.length + 1 = (src ++ [slashChar]).length := by simp
  rw [h2, ← List.append_assoc, List.drop_left]
  simp

theorem subtree_prefix_trans {a b q : Str}
    (h1 : (a ++ [slashChar]) <+: b) (h2 : (b ++ [slashChar]) <+: q) :
    (a ++ [slashChar]) <+: q := by
  have hb : b <+: b ++ [slashChar] := List.prefix_append _ _
  exact (h1.trans hb).trans h2

theorem not_prefix_of_root {p : Str} (hp : ¬ p = []) :
    ¬ (p ++ [slashChar]) <+: rootPath := by
  intro h
  have hle := h.length_le
  simp only [List.length_append, List.length_singleton, rootPath] at hle
  have h0 : p.length = 0 := by omega
  exact hp (List.length_eq_zero.1 h0)

theorem newKey_ne_oldKey {f src c1p c2p : Str}
    (h1 : (src ++ [slashChar]) <+: c1p) (h2 : (src ++ [slashChar]) <+: c2p)
    (hC : ¬ f = src) (hA : ¬ (src ++ [slashChar]) <+: f)
    (hB : ¬ (f ++ [slashChar]) <+: src) :
    ¬ c2p = f ++ c1p.drop src.length := by
  intro he
  have hd := drop_head_slash h1
  rw [hd] at he
  have he2 : c2p = (f ++ [slashChar]) ++ c1p.drop (src.length + 1) := by
    rw [he]; simp
  rcases Nat.lt_trichotomy f.length src.length with hlt | heq | hgt
  · apply hB
    have hfp : (f ++ [slashChar]) <+: c2p := by
      rw [he2]; exact List.prefix_append _ _
    have h3 : (f ++ [slashChar]) <+: (src ++ [slashChar]) :=
      List.prefix_of_prefix_length_le hfp h2 (by simp; omega)
    exact prefix_of_prefix_concat h3 (by simp; omega)
  · apply hC
    have hfp : (f ++ [slashChar]) <+: c2p := by
      rw [he2]; exact List.prefix_append _ _
    have h3 : (f ++ [slashChar]) <+: (src ++ [slashChar]) :=
      List.prefix_of_prefix_length_le hfp h2 (by simp; omega)
    have h4 : f ++ [slashChar] = src ++ [slashChar] :=
      List.IsPrefix.eq_of_length h3 (by simp; omega)
    exact List.append_cancel_right h4
  · apply hA
    have hfp : f <+: c2p := by
      rw [he2, List.append_assoc]
      exact List.prefix_append _ _
    exact List.prefix_of_prefix_length_le h2 hfp (by simp; omega)

theorem newKey_ne_src {f src c1p : Str}
    (h1 : (src ++ [slashChar]) <+: c1p)
    (hB : ¬ (f ++ [slashChar]) <+: src) :
    ¬ src = f ++ c1p.drop src.length := by
  intro he
  have hd := drop_head_slash h1
  rw [hd] at he
  apply hB
  rw [he]
  refine ⟨c1p.drop (src.length + 1), ?_⟩
  simp

theorem newKey_inj {f src c1p c2p : Str}
    (h1 : (src ++ [slashChar]) <+: c1p) (h2 : (src ++ [slashChar]) <+: c2p)
    (he : f ++ c1p.drop src.length = f ++ c2p.drop src.length) :
    c1p = c2p := by
  have hd := List.append_cancel_left he
  have hq1 := drop_of_prefix h1
  have hq2 := drop_of_prefix h2
  rw [← hq1, ← hq2, hd]

theorem newKey_ne_f {f src c1p : Str}
    (h1 : (src ++ [slashChar]) <+: c1p) :
    ¬ f = f ++ c1p.drop src.length := by
  intro he
  have hd := drop_head_slash h1
  rw [hd] at he
  have := congrArg List.length he
  simp at this

theorem moveChildren_getItem (f src : Str) (now : Nat) :
    ∀ (cs : List FileSystemItem) (s0 : Store) (q : Str),
    (∀ c ∈ cs, (src ++ [slashChar]) <+: c.path) →
    (cs.map (fun c => c.path)).Nodup →
    ¬ f = src → ¬ (src ++ [slashChar]) <+: f → ¬ (f ++ [slashChar]) <+: src →
    getItem (moveChildren f src now cs s0) q =
      (match cs.find? (fun c => f ++ c.path.drop src.length = q) with
       | some c =>
         some { c with
                 path := f ++ c.path.drop src.length,
                 parentPath :=
                   orRoot (upToLastSlash (f ++ c.path.drop src.length)),
                 updatedAt := now }
       | none =>
         if cs.any (fun c => c.path = q) then none else getItem s0 q) := by
  intro cs
  induction cs with
  | nil => intro s0 q _ _ _ _ _; simp [moveChildren]
  | cons c cs ih =>
    intro s0 q hpre hnd hC hA hB
    have hcpre : (src ++ [slashChar]) <+: c.path :=
      hpre c (List.mem_cons_self _ _)
    have hprecs : ∀ c2 ∈ cs, (src ++ [slashChar]) <+: c2.path :=
      fun c2 h2 => hpre c2 (List.mem_cons_of_mem _ h2)
    have hndcs : (cs.map (fun x => x.path)).Nodup :=
      (List.nodup_cons.1 hnd).2
    have hhead : c.path ∉ cs.map (fun x => x.path) :=
      (List.nodup_cons.1 hnd).1
    simp only [moveChildren]
    rw [ih _ q hprecs hndcs hC hA hB]
    by_cases hqc : f ++ c.path.drop src.length = q
    · rw [List.find?_cons_of_pos _ (by simp [hqc])]
      have hfind : cs.find? (fun c2 => f ++ c2.path.drop src.length = q) = none := by
        rw [List.find?_eq_none]
        intro c2 h2
        simp only [decide_eq_true_eq]
        intro hc2
        have heq : f ++ c2.path.drop src.length = f ++ c.path.drop src.length := by
          rw [hc2, hqc]
        have := newKey_inj (hprecs c2 h2) hcpre heq
        exact hhead (this ▸ List.mem_map_of_mem _ h2)
      rw [hfind]
      have hany : cs.any (fun c2 => c2.path = q) = false := by
        rw [List.any_eq_false]
        intro c2 h2
        simp only [decide_eq_true_eq]
        intro hc2
        exact newKey_ne_oldKey hcpre (hprecs c2 h2) hC hA hB (hc2 ▸ hqc.symm)
      rw [hany]
      simp only [Bool.false_eq_true, if_false]
      have hqnotold : ¬ q = c.path := by
        intro hc
        exact newKey_ne_oldKey hcpre hcpre hC hA hB (hc ▸ hqc.symm)
      rw [getItem_deleteKey, if_neg hqnotold, getItem_putItem]
      rw [if_pos (by simp [hqc.symm])]
    · rw [List.find?_cons_of_neg _ (by simp [hqc])]
      cases hfind : cs.find? (fun c2 => f ++ c2.path.drop src.length = q) with
      | some c2 => rfl
      | none =>
        by_cases hanycs : cs.any (fun c2 => c2.path = q) = true
        · rw [hanycs]
          have : (c :: cs).any (fun c2 => c2.path = q) = true := by
            simp only [List.any_cons, Bool.or_eq_true]
            exact Or.inr hanycs
          rw [this]
          simp
        · rw [Bool.not_eq_true] at hanycs
          rw [hanycs]
          simp only [Bool.false_eq_true, if_false]
          by_cases hqc2 : c.path = q
          · have : (c :: cs).any (fun c2 => c2.path = q) = true := by
              simp only [List.any_cons, Bool.or_eq_true]
              exact Or.inl (by simp [hqc2])
            rw [this]
            rw [getItem_deleteKey, if_pos hqc2.symm]
            simp
          · have : (c :: cs).any (fun c2 => c2.path = q) = false := by
              simp only [List.any_cons, Bool.or_eq_false_iff]
              exact ⟨by simp [hqc2], hanycs⟩
            rw [this]
            simp only [Bool.false_eq_true, if_false]
            rw [getItem_deleteKey, if_neg (fun hc => hqc2 hc.symm),
                getItem_putItem]
            rw [if_neg (by simp; intro hc; exact hqc hc.symm)]

theorem copyChildren_getItem (f src : Str) (now : Nat) :
    ∀ (cs : List FileSystemItem) (s0 : Store) (q : Str),
    (∀ c ∈ cs, (src ++ [slashChar]) <+: c.path) →
    (cs.map (fun c => c.path)).Nodup →
    getItem (copyChildren f src now cs s0) q =
      (match cs.find? (fun c => f ++ c.path.drop src.length = q) with
       | some c =>
         some { c with
                 path := f ++ c.path.drop src.length,
                 parentPath :=
                   orRoot (upToLastSlash (f ++ c.path.drop src.length)),
                 createdAt := now, updatedAt := now }
       | none => getItem s0 q) := by
  intro cs
  induction cs with
  | nil => intro s0 q _ _; simp [copyChildren]
  | cons c cs ih =>
    intro s0 q hpre hnd
    have hcpre : (src ++ [slashChar]) <+: c.path :=
      hpre c (List.mem_cons_self _ _)
    have hprecs : ∀ c2 ∈ cs, (src ++ [slashChar]) <+: c2.path :=
      fun c2 h2 => hpre c2 (List.mem_cons_of_mem _ h2)
    have hndcs : (cs.map (fun x => x.path)).Nodup :=
      (List.nodup_cons.1 hnd).2
    have hhead : c.path ∉ cs.map (fun x => x.path) :=
      (List.nodup_cons.1 hnd).1
    simp only [copyChildren]
    rw [ih _ q hprecs hndcs]
    by_cases hqc : f ++ c.path.drop src.length = q
    · rw [List.find?_cons_of_pos _ (by simp [hqc])]
      have hfind : cs.find? (fun c2 => f ++ c2.path.drop src.length = q) = none := by
        rw [List.find?_eq_none]
        intro c2 h2
        simp only [decide_eq_true_eq]
        intro hc2
        have heq : f ++ c2.path.drop src.length = f ++ c.path.drop src.length := by
          rw [hc2, hqc]
        have := newKey_inj (hprecs c2 h2) hcpre heq
        exact hhead (this ▸ List.mem_map_of_mem _ h2)
      rw [hfind, getItem_putItem, if_pos (by simp [hqc.symm])]
    · rw [List.find?_cons_of_neg _ (by simp [hqc])]
      cases hfind : cs.find? (fun c2 => f ++ c2.path.drop src.length = q) with
      | some c2 => rfl
      | none =>
        rw [getItem_putItem, if_neg (by simp; intro hc; exact hqc hc.symm)]

theorem find?_eq_some_unique {p : FileSystemItem → Bool}
    {l : List FileSystemItem} {d : FileSystemItem}
    (hd : d ∈ l) (hp : p d = true)
    (huniq : ∀ c ∈ l, p c = true → c = d) :
    l.find? p = some d := by
  induction l with
  | nil => cases hd
  | cons o rest ih =>
    by_cases ho : p o = true
    · rw [List.find?_cons_of_pos _ ho]
      rw [huniq o (List.mem_cons_self _ _) ho]
    · rw [List.find?_cons_of_neg _ ho]
      rcases List.mem_cons.1 hd with h1 | h1
      · exact absurd (h1 ▸ hp) ho
      · exact ih h1 (fun c hc hpc => huniq c (List.mem_cons_of_mem _ hc) hpc)

theorem pathsNodup_filter {s : Store} (pred : FileSystemItem → Bool)
    (h : pathsNodup s) : pathsNodup (s.filter pred) :=
  List.Sublist.nodup (List.Sublist.map _ (List.filter_sublist s)) h

theorem strict_prefix_ne {p q : Str} (h : (p ++ [slashChar]) <+: q) :
    ¬ q = p := by
  intro he
  have := h.length_le
  rw [he] at this
  simp at this

theorem circularCheck_false_parts {source : FileSystemItem} {src f : Str}
    (hfold : source.type = ItemType.folder)
    (h : circularCheck source src f = false) :
    ¬ f = src ∧ ¬ (src ++ [slashChar]) <+: f := by
  unfold circularCheck at h
  simp only [hfold, true_and, decide_eq_false_iff_not, not_or] at h
  exact h

theorem moveResolved_not_error {s : Store} {source : FileSystemItem}
    {src f : Str} {now : Nat} {s2 : Store}
    (hok : moveItem.moveResolved s source src f now = .ok s2) :
    circularCheck source src f = false := by
  cases hc : circularCheck source src f with
  | false => rfl
  | true =>
    unfold moveItem.moveResolved at hok
    rw [hc] at hok
    simp at hok

theorem moveResolved_ok_eq {s : Store} {source : FileSystemItem}
    {src f : Str} {now : Nat} {s2 : Store}
    (hok : moveItem.moveResolved s source src f now = .ok s2) :
    s2 =
      deleteKey
        (if source.type = ItemType.folder then
          moveChildren f src now
            ((putItem s
              { source with
                  path := f
                  parentPath := orRoot (upToLastSlash f)
                  name := orElse (lastSegment f) source.name
                  updatedAt := now }).filter
              (fun it => (src ++ [slashChar]) <+: it.path))
            (putItem s
              { source with
                  path := f
                  parentPath := orRoot (upToLastSlash f)
                  name := orElse (lastSegment f) source.name
                  updatedAt := now })
        else
          putItem s
            { source with
                path := f
                parentPath := orRoot (upToLastSlash f)
                name := orElse (lastSegment f) source.name
                updatedAt := now })
        src := by
  have hc := moveResolved_not_error hok
  unfold moveItem.moveResolved at hok
  rw [hc] at hok
  simp only [Bool.false_eq_true, if_false, getAllItems] at hok
  exact Except.ok.inj hok.symm

theorem copyResolved_not_error {s : Store} {source : FileSystemItem}
    {src f : Str} {now : Nat} {s2 : Store}
    (hok : copyItem.copyResolved s source src f now = .ok s2) :
    circularCheck source src f = false := by
  cases hc : circularCheck source src f with
  | false => rfl
  | true =>
    unfold copyItem.copyResolved at hok
    rw [hc] at hok
    simp at hok

theorem copyResolved_ok_eq {s : Store} {source : FileSystemItem}
    {src f : Str} {now : Nat} {s2 : Store}
    (hok : copyItem.copyResolved s source src f now = .ok s2) :
    s2 =
      (if source.type = ItemType.folder then
        copyChildren f src now
          ((putItem s
            { source with
                path := f
                parentPath := orRoot (upToLastSlash f)
                name := orElse (lastSegment f) source.name
                createdAt := now
                updatedAt := now }).filter
            (fun it => (src ++ [slashChar]) <+: it.path))
          (putItem s
            { source with
                path := f
                parentPath := orRoot (upToLastSlash f)
                name := orElse (lastSegment f) source.name
                createdAt := now
                updatedAt := now })
      else
        putItem s
          { source with
              path := f
              parentPath := orRoot (upToLastSlash f)
              name := orElse (lastSegment f) source.name
              createdAt := now
              updatedAt := now }) := by
  have hc := copyResolved_not_error hok
  unfold copyItem.copyResolved at hok
  rw [hc] at hok
  simp only [Bool.false_eq_true, if_false, getAllItems] at hok
  by_cases ht : source.type = ItemType.folder
  · rw [if_pos ht]
    rw [if_pos ht] at hok
    exact Except.ok.inj hok.symm
  · rw [if_neg ht]
    rw [if_neg ht] at hok
    exact Except.ok.inj hok.symm

theorem inSubtreeB_iff {p q : Str} :
    inSubtreeB p q = true ↔ (q = p ∨ (p ++ [slashChar]) <+: q) := by
  simp [inSubtreeB]

theorem moveResolved_folder_spec {s : Store} {source : FileSystemItem}
    {src f : Str} {now : Nat} {s2 : Store}
    (hnd : pathsNodup s)
    (hfold : source.type = ItemType.folder)
    (hB : ¬ (f ++ [slashChar]) <+: src)
    (hok : moveItem.moveResolved s source src f now = .ok s2) :
    getItem s2 src = none ∧
    getItem s2 f =
      some { source with
              path := f
              parentPath := orRoot (upToLastSlash f)
              name := orElse (lastSegment f) source.name
              updatedAt := now } ∧
    (∀ d ∈ s, (src ++ [slashChar]) <+: d.path →
      getItem s2 (f ++ d.path.drop src.length) =
        some { d with
                path := f ++ d.path.drop src.length
                parentPath :=
                  orRoot (upToLastSlash (f ++ d.path.drop src.length))
                updatedAt := now } ∧
      getItem s2 d.path = none) := by
  obtain ⟨hC, hA⟩ :=
    circularCheck_false_parts hfold (moveResolved_not_error hok)
  have hs2 := moveResolved_ok_eq hok
  rw [if_pos hfold] at hs2
  have hnd1 : pathsNodup (putItem s
      { source with
          path := f
          parentPath := orRoot (upToLastSlash f)
          name := orElse (lastSegment f) source.name
          updatedAt := now }) := pathsNodup_putItem _ hnd
  have hchpre : ∀ c ∈ (putItem s
      { source with
          path := f
          parentPath := orRoot (upToLastSlash f)
          name := orElse (lastSegment f) source.name
          updatedAt := now }).filter
        (fun it => (src ++ [slashChar]) <+: it.path),
      (src ++ [slashChar]) <+: c.path := by
    intro c hc
    have := (List.mem_filter.1 hc).2
    exact of_decide_eq_true this
  have hchnd : (((putItem s
      { source with
          path := f
          parentPath := orRoot (upToLastSlash f)
          name := orElse (lastSegment f) source.name
          updatedAt := now }).filter
        (fun it => (src ++ [slashChar]) <+: it.path)).map
          (fun c => c.path)).Nodup := pathsNodup_filter _ hnd1
  refine ⟨?_, ?_, ?_⟩
  · rw [hs2, getItem_deleteKey, if_pos rfl]
  · rw [hs2, getItem_deleteKey, if_neg hC]
    rw [moveChildren_getItem f src now _ _ f hchpre hchnd hC hA hB]
    have hfind : List.find?
        (fun c => f ++ c.path.drop src.length = f)
        ((putItem s
          { source with
              path := f
              parentPath := orRoot (upToLastSlash f)
              name := orElse (lastSegment f) source.name
              updatedAt := now }).filter
          (fun it => (src ++ [slashChar]) <+: it.path)) = none := by
      rw [List.find?_eq_none]
      intro c hc
      simp only [decide_eq_true_eq]
      intro he
      exact newKey_ne_f (hchpre c hc) he.symm
    rw [hfind]
    have hany : ((putItem s
        { source with
            path := f
            parentPath := orRoot (upToLastSlash f)
            name := orElse (lastSegment f) source.name
            updatedAt := now }).filter
          (fun it => (src ++ [slashChar]) <+: it.path)).any
        (fun c => c.path = f) = false := by
      rw [List.any_eq_false]
      intro c hc
      simp only [decide_eq_true_eq]
      intro he
      exact hA (he ▸ hchpre c hc)
    rw [hany]
    simp only [Bool.false_eq_true, if_false]
    rw [getItem_putItem, if_pos rfl]
  · intro d hd hdpre
    have hdne_f : ¬ d.path = f := fun hc => hA (hc ▸ hdpre)
    have hd1 : d ∈ putItem s
        { source with
            path := f
            parentPath := orRoot (upToLastSlash f)
            name := orElse (lastSegment f) source.name
            updatedAt := now } := mem_putItem_of_mem hd hdne_f
    have hdch : d ∈ (putItem s
        { source with
            path := f
            parentPath := orRoot (upToLastSlash f)
            name := orElse (lastSegment f) source.name
            updatedAt := now }).filter
          (fun it => (src ++ [slashChar]) <+: it.path) :=
      List.mem_filter.2 ⟨hd1, decide_eq_true hdpre⟩
    constructor
    · rw [hs2, getItem_deleteKey,
        if_neg (fun hc => (newKey_ne_src hdpre hB) hc.symm)]
      rw [moveChildren_getItem f src now _ _ _ hchpre hchnd hC hA hB]
      have hfind := find?_eq_some_unique (p := fun c =>
          decide (f ++ c.path.drop src.length = f ++ d.path.drop src.length))
        hdch (by simp)
        (by
          intro c hc hpc
          have he := of_decide_eq_true hpc
          have hpe := newKey_inj (hchpre c hc) hdpre he
          exact eq_of_mem_of_path_eq hnd1 (List.mem_filter.1 hc).1 hd1 hpe)
      rw [hfind]
    · rw [hs2, getItem_deleteKey, if_neg (strict_prefix_ne hdpre)]
      rw [moveChildren_getItem f src now _ _ _ hchpre hchnd hC hA hB]
      have hfind : List.find?
          (fun c => f ++ c.path.drop src.length = d.path)
          ((putItem s
            { source with
                path := f
                parentPath := orRoot (upToLastSlash f)
                name := orElse (lastSegment f) source.name
                updatedAt := now }).filter
            (fun it => (src ++ [slashChar]) <+: it.path)) = none := by
        rw [List.find?_eq_none]
        intro c hc
        simp only [decide_eq_true_eq]
        intro he
        exact newKey_ne_oldKey (hchpre c hc) hdpre hC hA hB he.symm
      rw [hfind]
      have hany : ((putItem s
          { source with
              path := f
              parentPath := orRoot (upToLastSlash f)
              name := orElse (lastSegment f) source.name
              updatedAt := now }).filter
            (fun it => (src ++ [slashChar]) <+: it.path)).any
          (fun c => c.path = d.path) = true := by
        rw [List.any_eq_true]
        exact ⟨d, hdch, by simp⟩
      rw [hany]
      simp

theorem moveResolved_file_spec {s : Store} {source : FileSystemItem}
    {src f : Str} {now : Nat} {s2 : Store}
    (hfile : source.type = ItemType.file)
    (hC : ¬ f = src)
    (hok : moveItem.moveResolved s source src f now = .ok s2) :
    getItem s2 src = none ∧
    getItem s2 f =
      some { source with
              path := f
              parentPath := orRoot (upToLastSlash f)
              name := orElse (lastSegment f) source.name
              updatedAt := now } := by
  have hs2 := moveResolved_ok_eq hok
  rw [if_neg (by rw [hfile]; intro hc; cases hc)] at hs2
  constructor
  · rw [hs2, getItem_deleteKey, if_pos rfl]
  · rw [hs2, getItem_deleteKey, if_neg hC, getItem_putItem, if_pos rfl]

theorem copyResolved_spec {s : Store} {source : FileSystemItem}
    {src f : Str} {now : Nat} {s2 : Store}
    (hnd : pathsNodup s)
    (hC : ¬ f = src) (hA : ¬ (src ++ [slashChar]) <+: f)
    (hB : ¬ (f ++ [slashChar]) <+: src)
    (hok : copyItem.copyResolved s source src f now = .ok s2) :
    (∀ q, inSubtreeB src q = true → getItem s2 q = getItem s q) ∧
    getItem s2 f =
      some { source with
              path := f
              parentPath := orRoot (upToLastSlash f)
              name := orElse (lastSegment f) source.name
              createdAt := now
              updatedAt := now } ∧
    (source.type = ItemType.folder →
      ∀ d ∈ s, (src ++ [slashChar]) <+: d.path →
        getItem s2 (f ++ d.path.drop src.length) =
          some { d with
                  path := f ++ d.path.drop src.length
                  parentPath :=
                    orRoot (upToLastSlash (f ++ d.path.drop src.length))
                  createdAt := now
                  updatedAt := now }) := by
  have hs2 := copyResolved_ok_eq hok
  have hnd1 : pathsNodup (putItem s
      { source with
          path := f
          parentPath := orRoot (upToLastSlash f)
          name := orElse (lastSegment f) source.name
          createdAt := now
          updatedAt := now }) := pathsNodup_putItem _ hnd
  by_cases htype : source.type = ItemType.folder
  · rw [if_pos htype] at hs2
    have hchpre : ∀ c ∈ (putItem s
        { source with
            path := f
            parentPath := orRoot (upToLastSlash f)
            name := orElse (lastSegment f) source.name
            createdAt := now
            updatedAt := now }).filter
          (fun it => (src ++ [slashChar]) <+: it.path),
        (src ++ [slashChar]) <+: c.path := by
      intro c hc
      exact of_decide_eq_true (List.mem_filter.1 hc).2
    have hchnd : (((putItem s
        { source with
            path := f
            parentPath := orRoot (upToLastSlash f)
            name := orElse (lastSegment f) source.name
            createdAt := now
            updatedAt := now }).filter
          (fun it => (src ++ [slashChar]) <+: it.path)).map
            (fun c => c.path)).Nodup := pathsNodup_filter _ hnd1
    refine ⟨?_, ?_, ?_⟩
    · intro q hq
      rcases inSubtreeB_iff.1 hq with hq1 | hq1
      · rw [hs2, copyChildren_getItem f src now _ _ _ hchpre hchnd]
        have hfind : List.find?
            (fun c => f ++ c.path.drop src.length = q)
            ((putItem s
              { source with
                  path := f
                  parentPath := orRoot (upToLastSlash f)
                  name := orElse (lastSegment f) source.name
                  createdAt := now
                  updatedAt := now }).filter
              (fun it => (src ++ [slashChar]) <+: it.path)) = none := by
          rw [List.find?_eq_none]
          intro c hc
          simp only [decide_eq_true_eq]
          intro he
          exact newKey_ne_src (hchpre c hc) hB (hq1 ▸ he.symm)
        rw [hfind, getItem_putItem,
          if_neg (by simp; rw [hq1]; exact fun hc => hC hc.symm)]
      · rw [hs2, copyChildren_getItem f src now _ _ _ hchpre hchnd]
        have hfind : List.find?
            (fun c => f ++ c.path.drop src.length = q)
            ((putItem s
              { source with
                  path := f
                  parentPath := orRoot (upToLastSlash f)
                  name := orElse (lastSegment f) source.name
                  createdAt := now
                  updatedAt := now }).filter
              (fun it => (src ++ [slashChar]) <+: it.path)) = none := by
          rw [List.find?_eq_none]
          intro c hc
          simp only [decide_eq_true_eq]
          intro he
          exact newKey_ne_oldKey (hchpre c hc) hq1 hC hA hB he.symm
        rw [hfind, getItem_putItem,
          if_neg (by simp; intro hc; exact hA (hc ▸ hq1))]
    · rw [hs2, copyChildren_getItem f src now _ _ _ hchpre hchnd]
      have hfind : List.find?
          (fun c => f ++ c.path.drop src.length = f)
          ((putItem s
            { source with
                path := f
                parentPath := orRoot (upToLastSlash f)
                name := orElse (lastSegment f) source.name
                createdAt := now
                updatedAt := now }).filter
            (fun it => (src ++ [slashChar]) <+: it.path)) = none := by
        rw [List.find?_eq_none]
        intro c hc
        simp only [decide_eq_true_eq]
        intro he
        exact newKey_ne_f (hchpre c hc) he.symm
      rw [hfind, getItem_putItem, if_pos rfl]
    · intro _ d hd hdpre
      have hdne_f : ¬ d.path = f := fun hc => hA (hc ▸ hdpre)
      have hd1 : d ∈ putItem s
          { source with
              path := f
              parentPath := orRoot (upToLastSlash f)
              name := orElse (lastSegment f) source.name
              createdAt := now
              updatedAt := now } := mem_putItem_of_mem hd hdne_f
      have hdch : d ∈ (putItem s
          { source with
              path := f
              parentPath := orRoot (upToLastSlash f)
              name := orElse (lastSegment f) source.name
              createdAt := now
              updatedAt := now }).filter
            (fun it => (src ++ [slashChar]) <+: it.path) :=
        List.mem_filter.2 ⟨hd1, decide_eq_true hdpre⟩
      rw [hs2, copyChildren_getItem f src now _ _ _ hchpre hchnd]
      have hfind := find?_eq_some_unique (p := fun c =>
          decide (f ++ c.path.drop src.length = f ++ d.path.drop src.length))
        hdch (by simp)
        (by
          intro c hc hpc
          have he := of_decide_eq_true hpc
          have hpe := newKey_inj (hchpre c hc) hdpre he
          exact eq_of_mem_of_path_eq hnd1 (List.mem_filter.1 hc).1 hd1 hpe)
      rw [hfind]
  · rw [if_neg htype] at hs2
    refine ⟨?_, ?_, fun hc => absurd hc htype⟩
    · intro q hq
      rcases inSubtreeB_iff.1 hq with hq1 | hq1
      · rw [hs2, getItem_putItem,
          if_neg (by simp; rw [hq1]; exact fun hc => hC hc.symm)]
      · rw [hs2, getItem_putItem,
          if_neg (by simp; intro hc; exact hA (hc ▸ hq1))]
    · rw [hs2, getItem_putItem, if_pos rfl]

theorem moveItem_eq_resolved {s : Store} {source : FileSystemItem}
    {src dst : Str} {now : Nat}
    (hsrc : getItem s src = some source) (hroot : ¬ src = rootPath)
    (hdst : ∀ d, getItem s dst = some d → d.type = ItemType.folder) :
    moveItem s src dst now =
      moveItem.moveResolved s source src (finalDestOf s source dst) now := by
  cases hd : getItem s dst with
  | none => simp [moveItem, finalDestOf, hsrc, hd, hroot]
  | some d =>
    have hfold := hdst d hd
    simp [moveItem, finalDestOf, hsrc, hd, hroot, hfold]

theorem moveItem_destFile {s : Store} {source d : FileSystemItem}
    {src dst : Str} {now : Nat}
    (hsrc : getItem s src = some source) (hroot : ¬ src = rootPath)
    (hd : getItem s dst = some d) (hfile : ¬ d.type = ItemType.folder) :
    moveItem s src dst now = .error .alreadyExists := by
  simp [moveItem, hsrc, hroot, hd, hfile]

theorem moveItem_ok_parts {s : Store} {src dst : Str} {now : Nat}
    {s2 : Store} (hok : moveItem s src dst now = .ok s2) :
    ∃ source, getItem s src = some source ∧ ¬ src = rootPath ∧
      (∀ d, getItem s dst = some d → d.type = ItemType.folder) ∧
      moveItem.moveResolved s source src (finalDestOf s source dst) now =
        .ok s2 := by
  cases hsrc : getItem s src with
  | none => rw [moveItem] at hok; rw [hsrc] at hok; cases hok
  | some source =>
    refine ⟨source, rfl, ?_, ?_, ?_⟩
    · intro hroot
      rw [moveItem, hroot] at hok
      rw [hroot] at hsrc
      simp [hsrc] at hok
    · intro d hd
      by_cases hroot : src = rootPath
      · rw [moveItem, hroot] at hok
        rw [hroot] at hsrc
        simp [hsrc] at hok
      · by_contra hfold
        rw [moveItem_destFile hsrc hroot hd hfold] at hok
        cases hok
    · by_cases hroot : src = rootPath
      · rw [moveItem, hroot] at hok
        rw [hroot] at hsrc
        simp [hsrc] at hok
      · rw [← hok]
        refine (moveItem_eq_resolved hsrc hroot ?_).symm
        intro d hd
        by_cases hfold : d.type = ItemType.folder
        · exact hfold
        · rw [moveItem_destFile hsrc hroot hd hfold] at hok
          cases hok

theorem copyItem_eq_resolved {s : Store} {source : FileSystemItem}
    {src dst : Str} {now : Nat}
    (hsrc : getItem s src = some source) (hroot : ¬ src = rootPath)
    (hdst : ∀ d, getItem s dst = some d → d.type = ItemType.folder) :
    copyItem s src dst now =
      copyItem.copyResolved s source src (finalDestOf s source dst) now := by
  cases hd : getItem s dst with
  | none => simp [copyItem, finalDestOf, hsrc, hd, hroot]
  | some d =>
    have hfold := hdst d hd
    simp [copyItem, finalDestOf, hsrc, hd, hroot, hfold]

theorem copyItem_destFile {s : Store} {source d : FileSystemItem}
    {src dst : Str} {now : Nat}
    (hsrc : getItem s src = some source) (hroot : ¬ src = rootPath)
    (hd : getItem s dst = some d) (hfile : ¬ d.type = ItemType.folder) :
    copyItem s src dst now = .error .alreadyExists := by
  simp [copyItem, hsrc, hroot, hd, hfile]

theorem copyItem_ok_parts {s : Store} {src dst : Str} {now : Nat}
    {s2 : Store} (hok : copyItem s src dst now = .ok s2) :
    ∃ source, getItem s src = some source ∧ ¬ src = rootPath ∧
      (∀ d, getItem s dst = some d → d.type = ItemType.folder) ∧
      copyItem.copyResolved s source src (finalDestOf s source dst) now =
        .ok s2 := by
  cases hsrc : getItem s src with
  | none => rw [copyItem] at hok; rw [hsrc] at hok; cases hok
  | some source =>
    refine ⟨source, rfl, ?_, ?_, ?_⟩
    · intro hroot
      rw [copyItem, hroot] at hok
      rw [hroot] at hsrc
      simp [hsrc] at hok
    · intro d hd
      by_cases hroot : src = rootPath
      · rw [copyItem, hroot] at hok
        rw [hroot] at hsrc
        simp [hsrc] at hok
      · by_contra hfold
        rw [copyItem_destFile hsrc hroot hd hfold] at hok
        cases hok
    · by_cases hroot : src = rootPath
      · rw [copyItem, hroot] at hok
        rw [hroot] at hsrc
        simp [hsrc] at hok
      · rw [← hok]
        refine (copyItem_eq_resolved hsrc hroot ?_).symm
        intro d hd
        by_cases hfold : d.type = ItemType.folder
        · exact hfold
        · rw [copyItem_destFile hsrc hroot hd hfold] at hok
          cases hok

/-- C9: there is a reachable store state in which `move` (and likewise
`copy`) succeeds without raising `AlreadyExists` and yet replaces an
existing node: `/dst` is a folder already containing a child named `a`,
and moving (or copying) `/a` into `/dst` silently overwrites `/dst/a`. -/
theorem c9_silent_overwrite :
    Reachable overwriteStore ∧
    getItem overwriteStore (str "/dst/a") = some dstOld ∧
    dstOld.content = str "old" ∧
    moveItem overwriteStore (str "/a") (str "/dst") 4 =
      .ok overwriteMoveResult ∧
    getItem overwriteMoveResult (str "/dst/a") = some movedNew ∧
    movedNew.content = str "new" ∧
    copyItem overwriteStore (str "/a") (str "/dst") 4 =
      .ok overwriteCopyResult ∧
    getItem overwriteCopyResult (str "/dst/a") = some copiedNew ∧
    copiedNew.content = str "new" := by
  have e1 : createFolder (initStore 0) (str "/") (str "dst") 1 =
      .ok (dstFolder, [rootItem 0, dstFolder]) := by decide
  have e2 : createFile [rootItem 0, dstFolder] (str "/dst") (str "a")
      (str "old") 2 = .ok (dstOld, [rootItem 0, dstFolder, dstOld]) := by
    decide
  have e3 : createFile [rootItem 0, dstFolder, dstOld] (str "/") (str "a")
      (str "new") 3 = .ok (srcNew, overwriteStore) := by decide
  exact ⟨Reachable.createFileStep (Reachable.createFileStep
      (Reachable.createFolderStep (Reachable.init 0) e1) e2) e3,
    by decide, by decide, by decide, by decide, by decide, by decide,
    by decide, by decide⟩

/-- C6: `updateContent(path, newContent)` fails with `NotFound` when the
path is absent, fails with `InvalidTarget` when it holds a directory,
and otherwise stores exactly the old record with `content` replaced and
`updatedAt` bumped — `path`, `name`, `kind`, `parentPath` and
`createdAt` unchanged. -/
theorem c6_updateContent (s : Store) (p nc : Str) (now : Nat) :
    (getItem s p = none → updateFile s p nc now = .error .notFound) ∧
    (∀ it, getItem s p = some it → it.type = ItemType.folder →
      updateFile s p nc now = .error .invalidTarget) ∧
    (∀ it, getItem s p = some it → it.type = ItemType.file →
      updateFile s p nc now =
        .ok ({ it with content := nc, updatedAt := now },
          putItem s { it with content := nc, updatedAt := now }) ∧
      getItem (putItem s { it with content := nc, updatedAt := now }) p =
        some { it with content := nc, updatedAt := now }) := by
  refine ⟨?_, ?_, ?_⟩
  · intro h
    simp [updateFile, h]
  · intro it hit hfold
    simp only [updateFile, hit]
    rw [if_neg (by rw [hfold]; intro hc; cases hc)]
  · intro it hit hfile
    constructor
    · simp [updateFile, hit, hfile]
    · rw [getItem_putItem]
      have hp := (getItem_eq_some hit).2
      rw [if_pos (by simpa using hp.symm)]

/-- C6 witness: on the concrete store holding `/docs/a.md`, the update
succeeds with only `content` and `updatedAt` changed, and the error
cases fire for a missing path and for a directory. -/
theorem c6_updateContent_witness :
    updateFile docsNoteStore (str "/nope") (str "yo") 5 =
      .error .notFound ∧
    updateFile docsNoteStore (str "/docs") (str "yo") 5 =
      .error .invalidTarget ∧
    updateFile docsNoteStore (str "/docs/a.md") (str "yo") 5 =
      .ok ({ docsNote with content := str "yo", updatedAt := 5 },
        putItem docsNoteStore
          { docsNote with content := str "yo", updatedAt := 5 }) ∧
    getItem (putItem docsNoteStore
        { docsNote with content := str "yo", updatedAt := 5 })
      (str "/docs/a.md") =
      some { docsNote with content := str "yo", updatedAt := 5 } := by
  have h1 := (c6_updateContent docsNoteStore (str "/nope")
    (str "yo") 5).1 (by decide)
  have h2 := (c6_updateContent docsNoteStore (str "/docs")
    (str "yo") 5).2.1 docsFolder (by decide) (by decide)
  have h3 := (c6_updateContent docsNoteStore (str "/docs/a.md")
    (str "yo") 5).2.2 docsNote (by decide) (by decide)
  exact ⟨h1, h2, h3.1, h3.2⟩

theorem circularCheck_eq_true_iff {source : FileSystemItem} {src f : Str} :
    circularCheck source src f = true ↔
      (source.type = ItemType.folder ∧
        (f = src ∨ (src ++ [slashChar]) <+: f)) := by
  simp [circularCheck]

/-- C4: for a move with an existing non-root source, a Directory at the
destination makes the final path `destPath/<source.name>` (with the root
special case), a File at the destination raises `AlreadyExists`, an
absent destination makes the final path `destPath` itself, and — among
runs that pass destination resolution — `InvalidTarget` is raised
exactly when the source is a Directory and the final path is the source
path or nested under it. -/
theorem c4_move_destination (s : Store) (src dst : Str) (now : Nat)
    (source : FileSystemItem)
    (hsrc : getItem s src = some source) (hroot : ¬ src = rootPath) :
    (∀ d, getItem s dst = some d → d.type = ItemType.folder →
      finalDestOf s source dst = joinPath dst source.name) ∧
    (∀ d, getItem s dst = some d → d.type = ItemType.file →
      moveItem s src dst now = .error .alreadyExists) ∧
    (getItem s dst = none → finalDestOf s source dst = dst) ∧
    ((∀ d, getItem s dst = some d → d.type = ItemType.folder) →
      (moveItem s src dst now = .error .invalidTarget ↔
        (source.type = ItemType.folder ∧
          (finalDestOf s source dst = src ∨
            (src ++ [slashChar]) <+: finalDestOf s source dst)))) := by
  refine ⟨?_, ?_, ?_, ?_⟩
  · intro d hd hfold
    simp [finalDestOf, hd, hfold]
  · intro d hd hfile
    exact moveItem_destFile hsrc hroot hd
      (by rw [hfile]; intro hc; cases hc)
  · intro h
    simp [finalDestOf, h]
  · intro hdst
    rw [moveItem_eq_resolved hsrc hroot hdst]
    rw [← circularCheck_eq_true_iff]
    constructor
    · intro herr
      cases hcirc : circularCheck source src (finalDestOf s source dst) with
      | true => rfl
      | false =>
        unfold moveItem.moveResolved at herr
        rw [hcirc] at herr
        simp at herr
    · intro hcirc
      unfold moveItem.moveResolved
      rw [hcirc]
      simp

/-- C4 witness: on the concrete overwrite store with source file `/a`,
the folder destination `/dst` resolves to `/dst/a`, the file destination
`/dst/a` raises `AlreadyExists`, the absent destination `/none` resolves
to itself, and `InvalidTarget` does not fire for the file source. -/
theorem c4_move_destination_witness :
    finalDestOf overwriteStore srcNew (str "/dst") = str "/dst/a" ∧
    moveItem overwriteStore (str "/a") (str "/dst/a") 4 =
      .error .alreadyExists ∧
    finalDestOf overwriteStore srcNew (str "/none") = str "/none" ∧
    (moveItem overwriteStore (str "/a") (str "/dst") 4 =
        .error .invalidTarget ↔
      (srcNew.type = ItemType.folder ∧
        (finalDestOf overwriteStore srcNew (str "/dst") = str "/a" ∨
          (str "/a" ++ [slashChar]) <+:
            finalDestOf overwriteStore srcNew (str "/dst")))) := by
  have hsrc : getItem overwriteStore (str "/a") = some srcNew := by decide
  have hroot : ¬ str "/a" = rootPath := by decide
  have h1 := c4_move_destination overwriteStore (str "/a") (str "/dst") 4
    srcNew hsrc hroot
  have h2 := c4_move_destination overwriteStore (str "/a") (str "/dst/a") 4
    srcNew hsrc hroot
  have h3 := c4_move_destination overwriteStore (str "/a") (str "/none") 4
    srcNew hsrc hroot
  refine ⟨?_, ?_, ?_, ?_⟩
  · rw [h1.1 dstFolder (by decide) (by decide)]
    decide
  · exact h2.2.1 dstOld (by decide) (by decide)
  · exact h3.2.2.1 (by decide)
  · exact h1.2.2.2 (by
      intro d hd
      have he : d = dstFolder := by
        rw [(by decide : getItem overwriteStore (str "/dst") =
          some dstFolder)] at hd
        exact (Option.some_inj.1 hd).symm
      rw [he]
      decide)

/-- C10 counterexample: moving the file `/a/x` into its own parent
folder `/a` succeeds, but instead of preserving the node it deletes it —
the write lands on the source's own key and the final
`delete(sourcePath)` then removes it.  No node with the file's content
survives. -/
theorem c10_counterexample :
    Reachable selfParentStore ∧
    getItem selfParentStore (str "/a/x") = some xFile ∧
    moveItem selfParentStore (str "/a/x") (str "/a") 9 =
      .ok selfMoveStore ∧
    getItem selfMoveStore (str "/a/x") = none ∧
    (∀ it ∈ selfMoveStore, ¬ it.content = xFile.content) := by
  have e1 : createFolder (initStore 0) (str "/") (str "a") 1 =
      .ok (aFolder, [rootItem 0, aFolder]) := by decide
  have e2 : createFile [rootItem 0, aFolder] (str "/a") (str "x")
      (str "hi") 2 = .ok (xFile, selfParentStore) := by decide
  exact ⟨Reachable.createFileStep
      (Reachable.createFolderStep (Reachable.init 0) e1) e2,
    by decide, by decide, by decide, by decide⟩

/-- C10 amended: a successful `move(sourcePath, destPath)` whose final
destination path differs from `sourcePath` (and, for directory sources,
is not a strict slash-boundary prefix of it) re-keys the source node and
every descendant with `content`, `kind` and `createdAt` preserved; only
`path`, `parentPath`, `name` and `updatedAt` are recomputed.  Key
uniqueness (`pathsNodup`) is the representation invariant of the
underlying object store. -/
theorem c10_move_preserves (s : Store) (src dst : Str) (now : Nat)
    (source : FileSystemItem) (s2 : Store)
    (hnd : pathsNodup s)
    (hsrc : getItem s src = some source)
    (hok : moveItem s src dst now = .ok s2)
    (hC : ¬ finalDestOf s source dst = src)
    (hB : source.type = ItemType.folder →
      ¬ (finalDestOf s source dst ++ [slashChar]) <+: src) :
    getItem s2 src = none ∧
    getItem s2 (finalDestOf s source dst) =
      some { source with
              path := finalDestOf s source dst
              parentPath :=
                orRoot (upToLastSlash (finalDestOf s source dst))
              name :=
                orElse (lastSegment (finalDestOf s source dst)) source.name
              updatedAt := now } ∧
    (source.type = ItemType.folder →
      ∀ d ∈ s, (src ++ [slashChar]) <+: d.path →
        getItem s2 (finalDestOf s source dst ++ d.path.drop src.length) =
          some { d with
                  path :=
                    finalDestOf s source dst ++ d.path.drop src.length
                  parentPath :=
                    orRoot (upToLastSlash
                      (finalDestOf s source dst ++ d.path.drop src.length))
                  updatedAt := now } ∧
        getItem s2 d.path = none) := by
  obtain ⟨source2, hsrc2, hroot, hdst, hres⟩ := moveItem_ok_parts hok
  have hse : source2 = source := by
    rw [hsrc] at hsrc2
    exact (Option.some_inj.1 hsrc2).symm
  subst hse
  by_cases htype : source2.type = ItemType.folder
  · obtain ⟨h1, h2, h3⟩ :=
      moveResolved_folder_spec hnd htype (hB htype) hres
    exact ⟨h1, h2, fun _ => h3⟩
  · have hfile : source2.type = ItemType.file := by
      cases hty : source2.type with
      | file => rfl
      | folder => exact absurd hty htype
    obtain ⟨h1, h2⟩ := moveResolved_file_spec hfile hC hres
    exact ⟨h1, h2, fun hfold => absurd hfold htype⟩

/-- C10 witness: moving `/docs` to `/archive` on the concrete store
preserves content, kind and createdAt of the folder and of its
descendant `/docs/a.md`. -/
theorem c10_move_preserves_witness :
    getItem archiveStore (str "/docs") = none ∧
    getItem archiveStore
        (finalDestOf docsNoteStore docsFolder (str "/archive")) =
      some { docsFolder with
              path := finalDestOf docsNoteStore docsFolder (str "/archive")
              parentPath :=
                orRoot (upToLastSlash
                  (finalDestOf docsNoteStore docsFolder (str "/archive")))
              name :=
                orElse
                  (lastSegment
                    (finalDestOf docsNoteStore docsFolder (str "/archive")))
                  docsFolder.name
              updatedAt := 3 } ∧
    getItem archiveStore
        (finalDestOf docsNoteStore docsFolder (str "/archive") ++
          (docsNote.path.drop (str "/docs").length)) =
      some { docsNote with
              path :=
                finalDestOf docsNoteStore docsFolder (str "/archive") ++
                  (docsNote.path.drop (str "/docs").length)
              parentPath :=
                orRoot (upToLastSlash
                  (finalDestOf docsNoteStore docsFolder (str "/archive") ++
                    (docsNote.path.drop (str "/docs").length)))
              updatedAt := 3 } ∧
    getItem archiveStore docsNote.path = none := by
  have h := c10_move_preserves docsNoteStore (str "/docs") (str "/archive")
    3 docsFolder archiveStore (by decide) (by decide) (by decide)
    (by decide) (by intro hfold; decide)
  obtain ⟨h1, h2, h3⟩ := h
  have hd := h3 (by decide) docsNote (by decide) (by decide)
  exact ⟨h1, h2, hd.1, hd.2⟩

/-- C5 counterexample: copying the file `/a/x` into its own parent
folder `/a` succeeds but does not leave the source unchanged — the
duplicate is written onto the source's own key, replacing its
`createdAt`/`updatedAt` (2 becomes 9). -/
theorem c5_counterexample :
    Reachable selfParentStore ∧
    getItem selfParentStore (str "/a/x") = some xFile ∧
    xFile.createdAt = 2 ∧
    copyItem selfParentStore (str "/a/x") (str "/a") 9 =
      .ok selfCopyStore ∧
    getItem selfCopyStore (str "/a/x") = some xFileCopied ∧
    ¬ xFileCopied = xFile ∧ xFileCopied.createdAt = 9 := by
  have e1 : createFolder (initStore 0) (str "/") (str "a") 1 =
      .ok (aFolder, [rootItem 0, aFolder]) := by decide
  have e2 : createFile [rootItem 0, aFolder] (str "/a") (str "x")
      (str "hi") 2 = .ok (xFile, selfParentStore) := by decide
  exact ⟨Reachable.createFileStep
      (Reachable.createFolderStep (Reachable.init 0) e1) e2,
    by decide, by decide, by decide, by decide, by decide, by decide⟩

/-- C5 amended: a successful `copy(sourcePath, destPath)` whose final
destination path is neither `sourcePath` itself nor related to it by a
strict slash-boundary prefix in either direction leaves the node at
`sourcePath` and every key below it unchanged, while creating at the
final destination prefix a duplicate of the source (and, for
directories, of each descendant) with content preserved verbatim and
`createdAt`/`updatedAt` freshly set. -/
theorem c5_copy_frame (s : Store) (src dst : Str) (now : Nat)
    (source : FileSystemItem) (s2 : Store)
    (hnd : pathsNodup s)
    (hsrc : getItem s src = some source)
    (hok : copyItem s src dst now = .ok s2)
    (hC : ¬ finalDestOf s source dst = src)
    (hA : ¬ (src ++ [slashChar]) <+: finalDestOf s source dst)
    (hB : ¬ (finalDestOf s source dst ++ [slashChar]) <+: src) :
    (∀ q, inSubtreeB src q = true → getItem s2 q = getItem s q) ∧
    getItem s2 (finalDestOf s source dst) =
      some { source with
              path := finalDestOf s source dst
              parentPath :=
                orRoot (upToLastSlash (finalDestOf s source dst))
              name :=
                orElse (lastSegment (finalDestOf s source dst)) source.name
              createdAt := now
              updatedAt := now } ∧
    (source.type = ItemType.folder →
      ∀ d ∈ s, (src ++ [slashChar]) <+: d.path →
        getItem s2 (finalDestOf s source dst ++ d.path.drop src.length) =
          some { d with
                  path :=
                    finalDestOf s source dst ++ d.path.drop src.length
                  parentPath :=
                    orRoot (upToLastSlash
                      (finalDestOf s source dst ++ d.path.drop src.length))
                  createdAt := now
                  updatedAt := now }) := by
  obtain ⟨source2, hsrc2, hroot, hdst, hres⟩ := copyItem_ok_parts hok
  have hse : source2 = source := by
    rw [hsrc] at hsrc2
    exact (Option.some_inj.1 hsrc2).symm
  subst hse
  exact copyResolved_spec hnd hC hA hB hres

/-- C5 witness: `copy("/docs", "/backup")` on the concrete store leaves
`/docs` and `/docs/a.md` untouched and creates fresh-timestamped
duplicates under `/backup`. -/
theorem c5_copy_frame_witness :
    getItem backupStore (str "/docs") = getItem docsNoteStore (str "/docs") ∧
    getItem backupStore (str "/docs/a.md") =
      getItem docsNoteStore (str "/docs/a.md") ∧
    getItem backupStore (finalDestOf docsNoteStore docsFolder (str "/backup")) =
      some { docsFolder with
              path := finalDestOf docsNoteStore docsFolder (str "/backup")
              parentPath :=
                orRoot (upToLastSlash
                  (finalDestOf docsNoteStore docsFolder (str "/backup")))
              name :=
                orElse
                  (lastSegment
                    (finalDestOf docsNoteStore docsFolder (str "/backup")))
                  docsFolder.name
              createdAt := 7
              updatedAt := 7 } ∧
    getItem backupStore
        (finalDestOf docsNoteStore docsFolder (str "/backup") ++
          (docsNote.path.drop (str "/docs").length)) =
      some { docsNote with
              path :=
                finalDestOf docsNoteStore docsFolder (str "/backup") ++
                  (docsNote.path.drop (str "/docs").length)
              parentPath :=
                orRoot (upToLastSlash
                  (finalDestOf docsNoteStore docsFolder (str "/backup") ++
                    (docsNote.path.drop (str "/docs").length)))
              createdAt := 7
              updatedAt := 7 } := by
  have h := c5_copy_frame docsNoteStore (str "/docs") (str "/backup") 7
    docsFolder backupStore (by decide) (by decide) (by decide)
    (by decide) (by decide) (by decide)
  obtain ⟨h1, h2, h3⟩ := h
  exact ⟨h1 (str "/docs") (by decide), h1 (str "/docs/a.md") (by decide),
    h2, h3 (by decide) docsNote (by decide) (by decide)⟩

theorem newParent_eq_prefix_replace {s : Store} {source d : FileSystemItem}
    {src f : Str}
    (hwf : Wf s) (hsrcmem : source ∈ s) (hsp : source.path = src)
    (hroot : ¬ src = rootPath)
    (hd : d ∈ s) (hdpre : (src ++ [slashChar]) <+: d.path) :
    src <+: d.parentPath ∧
    orRoot (upToLastSlash (f ++ d.path.drop src.length)) =
      orRoot (f ++ d.parentPath.drop src.length) := by
  have hwsrc := hwf.2.1 source hsrcmem
  rcases hwsrc with hsr | ⟨hsn, hss, hsj⟩
  · exact absurd (hsp ▸ hsr) hroot
  have hslash : slashChar ∈ src := by
    rw [← hsp, hsj]
    exact slash_mem_joinPath _ _
  have hsnil : ¬ src = [] := by
    intro hc
    rw [hc] at hslash
    cases hslash
  have hdroot : ¬ d.path = rootPath := by
    intro hc
    exact not_prefix_of_root hsnil (hc ▸ hdpre)
  have hwd := hwf.2.1 d hd
  rcases hwd with hdr | ⟨hdn, hds, hdj⟩
  · exact absurd hdr hdroot
  replace hdj : d.path = joinPath d.parentPath d.name := hdj
  rw [joinPath_eq_append] at hdj
  by_cases hpp : d.parentPath = rootPath
  · exfalso
    rw [if_pos hpp] at hdj
    rw [hdj] at hdpre
    exact prefix_root_absurd (by simpa [rootPath] using hdpre) hds hslash
  · rw [if_neg hpp] at hdj
    have htr := prefix_trichotomy (hdj ▸ hdpre) hds
    rcases htr with heq | hpre2
    · have hdrop : d.path.drop src.length = [slashChar] ++ d.name := by
        rw [hdj, ← heq, List.append_assoc, List.drop_left]
      have hpdrop : d.parentPath.drop src.length = [] := by
        rw [← heq]
        simp
      refine ⟨heq ▸ List.prefix_refl _, ?_⟩
      rw [hdrop, hpdrop, List.append_nil]
      rw [show f ++ ([slashChar] ++ d.name) = f ++ [slashChar] ++ d.name by
        rw [List.append_assoc]]
      rw [upToLastSlash_append_sf hds]
    · have hppdec := drop_of_prefix hpre2
      have hdrop : d.path.drop src.length =
          d.parentPath.drop src.length ++ [slashChar] ++ d.name := by
        have : d.path = src ++ (d.parentPath.drop src.length ++
            [slashChar] ++ d.name) := by
          rw [hdj, ← hppdec]
          simp [List.append_assoc]
        rw [this, List.drop_left]
      have hppne : ¬ d.parentPath.drop src.length = [] := by
        intro hc
        have := drop_head_slash hpre2
        rw [hc] at this
        cases this
      refine ⟨?_, ?_⟩
      · rw [← hppdec]
        exact List.prefix_append _ _
      rw [hdrop]
      rw [show f ++ (d.parentPath.drop src.length ++ [slashChar] ++ d.name) =
          (f ++ d.parentPath.drop src.length) ++ [slashChar] ++ d.name by
        simp [List.append_assoc]]
      rw [upToLastSlash_append_sf hds]

/-- C2 counterexample: (i) moving the folder `/a/b` to its missing
ancestor path `/a` succeeds, yet the descendant `/a/b/b` is not re-keyed
to `/a/b` — the final `delete(sourcePath)` erases the re-keyed record,
and no record with the descendant's `createdAt` survives at all; (ii)
after moving `/a` to `/b`, the slash-named descendant `/a/x/y` gets
parent key `/b/x`, which is not obtained by replacing the `/a` prefix of
its old parent key `/`. . . so neither half of the claimed re-keying
description holds on every reachable store. -/
theorem c2_counterexample :
    Reachable orphanStore ∧
    getItem orphanStore (str "/a/b") = some orphanChild ∧
    orphanChild.type = ItemType.folder ∧
    (str "/a/b" ++ [slashChar]) <+: orphanGrand.path ∧
    finalDestOf orphanStore orphanChild (str "/a") = str "/a" ∧
    moveItem orphanStore (str "/a/b") (str "/a") 3 = .ok orphanMovedStore ∧
    getItem orphanMovedStore
      (str "/a" ++ orphanGrand.path.drop (str "/a/b").length) = none ∧
    getItem orphanMovedStore orphanGrand.path = none ∧
    (∀ it ∈ orphanMovedStore, ¬ it.createdAt = orphanGrand.createdAt) ∧
    Reachable slashedStore ∧
    moveItem slashedStore (str "/a") (str "/b") 3 = .ok slashedMovedStore ∧
    getItem slashedMovedStore
        (str "/b" ++ slashedFile.path.drop (str "/a").length) =
      some slashedMoved ∧
    ¬ slashedMoved.parentPath =
      str "/b" ++ slashedFile.parentPath.drop (str "/a").length := by
  have e1 : createFolder (initStore 0) (str "/a") (str "b") 1 =
      .ok (orphanChild, [rootItem 0, orphanChild]) := by decide
  have e2 : createFolder [rootItem 0, orphanChild] (str "/a/b") (str "b") 2 =
      .ok (orphanGrand, orphanStore) := by decide
  have e3 : createFolder (initStore 0) (str "/") (str "a") 1 =
      .ok (aFolder, [rootItem 0, aFolder]) := by decide
  have e4 : createFile [rootItem 0, aFolder] (str "/a") (str "x/y") [] 2 =
      .ok (slashedFile, slashedStore) := by decide
  exact ⟨Reachable.createFolderStep
      (Reachable.createFolderStep (Reachable.init 0) e1) e2,
    by decide, by decide, by decide, by decide, by decide, by decide,
    by decide, by decide,
    Reachable.createFileStep
      (Reachable.createFolderStep (Reachable.init 0) e3) e4,
    by decide, by decide, by decide⟩

/-- C2 amended: in a structurally well-formed store (unique keys,
slash-free nonempty names, `path = join(parentPath, name)`), a
successful directory move whose final path is not a strict
slash-boundary prefix of `sourcePath` re-keys the source and every
descendant: each descendant's new path replaces the `sourcePath` prefix
of its path with the final path, its parent key is recomputed by the
same prefix replacement (with the `|| '/'` root fallback), its new key
is written and its old key removed; the source's old key is removed
last.  In particular the `/docs` → `/archive` example behaves as the
specification states (see the witness). -/
theorem c2_move_rekeys (s : Store) (src dst : Str) (now : Nat)
    (source : FileSystemItem) (s2 : Store)
    (hwf : Wf s)
    (hsrc : getItem s src = some source)
    (hfold : source.type = ItemType.folder)
    (hok : moveItem s src dst now = .ok s2)
    (hB : ¬ (finalDestOf s source dst ++ [slashChar]) <+: src) :
    getItem s2 src = none ∧
    getItem s2 (finalDestOf s source dst) =
      some { source with
              path := finalDestOf s source dst
              parentPath :=
                orRoot (upToLastSlash (finalDestOf s source dst))
              name :=
                orElse (lastSegment (finalDestOf s source dst)) source.name
              updatedAt := now } ∧
    ∀ d ∈ s, (src ++ [slashChar]) <+: d.path →
      src <+: d.parentPath ∧
      getItem s2 (finalDestOf s source dst ++ d.path.drop src.length) =
        some { d with
                path := finalDestOf s source dst ++ d.path.drop src.length
                parentPath :=
                  orRoot (finalDestOf s source dst ++
                    d.parentPath.drop src.length)
                updatedAt := now } ∧
      getItem s2 d.path = none := by
  obtain ⟨source2, hsrc2, hroot, hdst, hres⟩ := moveItem_ok_parts hok
  have hse : source2 = source := by
    rw [hsrc] at hsrc2
    exact (Option.some_inj.1 hsrc2).symm
  subst hse
  obtain ⟨h1, h2, h3⟩ := moveResolved_folder_spec hwf.1 hfold hB hres
  refine ⟨h1, h2, ?_⟩
  intro d hd hdpre
  obtain ⟨hpp, hrepl⟩ := newParent_eq_prefix_replace
    (f := finalDestOf s source2 dst) hwf (getItem_eq_some hsrc).1
    (getItem_eq_some hsrc).2 hroot hd hdpre
  obtain ⟨h4, h5⟩ := h3 d hd hdpre
  refine ⟨hpp, ?_, h5⟩
  rw [h4, hrepl]

/-- C2 witness: the specification's own example.  Starting from the
store holding `/docs` and `/docs/a.md` (content `"hi"`), moving
`/docs` to `/archive` leaves `/archive/a.md` with content `"hi"` and
removes both `/docs` and `/docs/a.md`. -/
theorem c2_move_rekeys_witness :
    moveItem docsNoteStore (str "/docs") (str "/archive") 3 =
      .ok archiveStore ∧
    getItem archiveStore (str "/archive/a.md") = some archiveNote ∧
    archiveNote.content = str "hi" ∧
    getItem archiveStore (str "/docs") = none ∧
    getItem archiveStore (str "/docs/a.md") = none := by
  have h := c2_move_rekeys docsNoteStore (str "/docs") (str "/archive") 3
    docsFolder archiveStore (by decide) (by decide) (by decide)
    (by decide) (by decide)
  obtain ⟨h1, h2, h3⟩ := h
  obtain ⟨hpp, h4, h5⟩ := h3 docsNote (by decide) (by decide)
  refine ⟨by decide, ?_, by decide, h1, ?_⟩
  · have : str "/archive/a.md" =
        finalDestOf docsNoteStore docsFolder (str "/archive") ++
          docsNote.path.drop (str "/docs").length := by decide
    rw [this, h4]
    decide
  · have : str "/docs/a.md" = docsNote.path := by decide
    rw [this, h5]

theorem cmpN_eq_iff : ∀ {a b : List Nat}, cmpN a b = .eq ↔ a = b := by
  intro a
  induction a with
  | nil => intro b; cases b <;> simp [cmpN]
  | cons x as ih =>
    intro b
    cases b with
    | nil => simp [cmpN]
    | cons y bs =>
      simp only [cmpN]
      by_cases hxy : x < y
      · simp [hxy]
        omega
      · by_cases hyx : y < x
        · simp [hxy, hyx]
          omega
        · have hxe : x = y := by omega
          simp [hxy, hyx, hxe, ih]

theorem cmpN_swap : ∀ {a b : List Nat}, cmpN b a = (cmpN a b).swap := by
  intro a
  induction a with
  | nil => intro b; cases b <;> simp [cmpN, Ordering.swap]
  | cons x as ih =>
    intro b
    cases b with
    | nil => simp [cmpN, Ordering.swap]
    | cons y bs =>
      simp only [cmpN]
      by_cases hxy : x < y
      · have hyx : ¬ y < x := by omega
        simp [hxy, hyx, Ordering.swap]
      · by_cases hyx : y < x
        · simp [hxy, hyx, Ordering.swap]
        · simp [hxy, hyx, ih]

theorem cmpN_lt_trans : ∀ {a b c : List Nat},
    cmpN a b = .lt → cmpN b c = .lt → cmpN a c = .lt := by
  intro a
  induction a with
  | nil =>
    intro b c hab hbc
    cases b with
    | nil => exact hbc
    | cons y bs =>
      cases c with
      | nil => simp [cmpN] at hbc
      | cons z cs => simp [cmpN]
  | cons x as ih =>
    intro b c hab hbc
    cases b with
    | nil => simp [cmpN] at hab
    | cons y bs =>
      cases c with
      | nil => simp [cmpN] at hbc
      | cons z cs =>
        simp only [cmpN] at hab hbc ⊢
        by_cases hxy : x < y
        · by_cases hyz : y < z
          · simp [show x < z by omega]
          · by_cases hzy : z < y
            · simp [hyz, hzy] at hbc
            · have : y = z := by omega
              simp [show x < z by omega]
        · by_cases hyx : y < x
          · simp [hxy, hyx] at hab
          · have hxe : x = y := by omega
            by_cases hyz : y < z
            · simp [show x < z by omega]
            · by_cases hzy : z < y
              · simp [hyz, hzy] at hbc
              · have hye : y = z := by omega
                have hxz1 : ¬ x < z := by omega
                have hxz2 : ¬ z < x := by omega
                simp [hxy, hyx, hyz, hzy, hxz1, hxz2] at hab hbc ⊢
                exact ih hab hbc

theorem ordering_isLE_iff {o : Ordering} :
    o.isLE = true ↔ (o = .lt ∨ o = .eq) := by
  cases o <;> simp [Ordering.isLE]

theorem cmpN_isLE_trans {a b c : List Nat}
    (hab : (cmpN a b).isLE = true) (hbc : (cmpN b c).isLE = true) :
    (cmpN a c).isLE = true := by
  rcases ordering_isLE_iff.1 hab with h1 | h1 <;>
    rcases ordering_isLE_iff.1 hbc with h2 | h2
  · exact ordering_isLE_iff.2 (Or.inl (cmpN_lt_trans h1 h2))
  · rw [cmpN_eq_iff.1 h2] at h1
    exact ordering_isLE_iff.2 (Or.inl h1)
  · rw [← cmpN_eq_iff.1 h1] at h2
    exact ordering_isLE_iff.2 (Or.inl h2)
  · rw [cmpN_eq_iff.1 h1, cmpN_eq_iff.1 h2]
    exact ordering_isLE_iff.2 (Or.inr (cmpN_eq_iff.2 rfl))

theorem cmpN_isLE_total (a b : List Nat) :
    (cmpN a b).isLE = true ∨ (cmpN b a).isLE = true := by
  cases h : cmpN a b with
  | lt => exact Or.inl (by simp [Ordering.isLE])
  | eq => exact Or.inl (by simp [Ordering.isLE])
  | gt =>
    right
    rw [cmpN_swap, h]
    simp [Ordering.swap, Ordering.isLE]

theorem localeCompare_isLE_char {x y : Str} :
    (localeCompare x y).isLE = true ↔
      (cmpN (x.map primaryWeight) (y.map primaryWeight) = .lt ∨
        (x.map primaryWeight = y.map primaryWeight ∧
          (cmpN (x.map caseWeight) (y.map caseWeight)).isLE = true)) := by
  unfold localeCompare
  cases h : cmpN (x.map primaryWeight) (y.map primaryWeight) with
  | lt => simp [Ordering.isLE]
  | eq =>
    have hm := cmpN_eq_iff.1 h
    simp [hm]
  | gt =>
    constructor
    · intro hc
      simp [Ordering.isLE] at hc
    · rintro (hc | ⟨hc, -⟩)
      · cases hc
      · have h2 := cmpN_eq_iff.2 hc
        rw [h] at h2
        cases h2

theorem localeCompare_isLE_trans {a b c : Str}
    (hab : (localeCompare a b).isLE = true)
    (hbc : (localeCompare b c).isLE = true) :
    (localeCompare a c).isLE = true := by
  rcases localeCompare_isLE_char.1 hab with h1 | ⟨h1, h1c⟩ <;>
    rcases localeCompare_isLE_char.1 hbc with h2 | ⟨h2, h2c⟩
  · exact localeCompare_isLE_char.2 (Or.inl (cmpN_lt_trans h1 h2))
  · exact localeCompare_isLE_char.2 (Or.inl (h2 ▸ h1))
  · exact localeCompare_isLE_char.2 (Or.inl (h1 ▸ h2))
  · exact localeCompare_isLE_char.2
      (Or.inr ⟨h1.trans h2, cmpN_isLE_trans h1c h2c⟩)

theorem localeCompare_isLE_total (a b : Str) :
    (localeCompare a b).isLE = true ∨ (localeCompare b a).isLE = true := by
  cases h : cmpN (a.map primaryWeight) (b.map primaryWeight) with
  | lt => exact Or.inl (localeCompare_isLE_char.2 (Or.inl h))
  | gt =>
    refine Or.inr (localeCompare_isLE_char.2 (Or.inl ?_))
    rw [cmpN_swap, h]
    rfl
  | eq =>
    have hm := cmpN_eq_iff.1 h
    rcases cmpN_isLE_total (a.map caseWeight) (b.map caseWeight) with hc | hc
    · exact Or.inl (localeCompare_isLE_char.2 (Or.inr ⟨hm, hc⟩))
    · exact Or.inr (localeCompare_isLE_char.2 (Or.inr ⟨hm.symm, hc⟩))

theorem itemLe_trans (a b c : FileSystemItem)
    (hab : itemLe a b = true) (hbc : itemLe b c = true) :
    itemLe a c = true := by
  unfold itemLe at hab hbc ⊢
  cases ha : a.type <;> cases hb : b.type <;> cases hc : c.type <;>
    simp_all
  · exact localeCompare_isLE_trans hab hbc
  · exact localeCompare_isLE_trans hab hbc

theorem itemLe_total (a b : FileSystemItem) :
    (itemLe a b || itemLe b a) = true := by
  unfold itemLe
  cases ha : a.type <;> cases hb : b.type <;> simp_all
  · rcases localeCompare_isLE_total a.name b.name with h | h <;> simp [h]
  · rcases localeCompare_isLE_total a.name b.name with h | h <;> simp [h]

theorem insertSorted_perm (le : FileSystemItem → FileSystemItem → Bool)
    (a : FileSystemItem) :
    ∀ l : List FileSystemItem, (insertSorted le a l).Perm (a :: l) := by
  intro l
  induction l with
  | nil => simp [insertSorted]
  | cons b rest ih =>
    unfold insertSorted
    by_cases h : le a b = true
    · rw [if_pos h]
    · rw [if_neg h]
      exact (List.Perm.cons b ih).trans (List.Perm.swap a b rest)

theorem sortByLe_perm (le : FileSystemItem → FileSystemItem → Bool) :
    ∀ l : List FileSystemItem, (sortByLe le l).Perm l := by
  intro l
  induction l with
  | nil => simp [sortByLe]
  | cons a rest ih =>
    unfold sortByLe
    exact (insertSorted_perm le a (sortByLe le rest)).trans
      (List.Perm.cons a ih)

theorem insertSorted_pairwise
    {le : FileSystemItem → FileSystemItem → Bool}
    (htotal : ∀ x y, (le x y || le y x) = true)
    (htrans : ∀ x y z, le x y = true → le y z = true → le x z = true)
    (a : FileSystemItem) :
    ∀ l : List FileSystemItem,
    List.Pairwise (fun x y => le x y = true) l →
    List.Pairwise (fun x y => le x y = true) (insertSorted le a l) := by
  intro l
  induction l with
  | nil => intro _; simp [insertSorted]
  | cons b rest ih =>
    intro hp
    have hb := (List.pairwise_cons.1 hp).1
    have hrest := (List.pairwise_cons.1 hp).2
    unfold insertSorted
    by_cases h : le a b = true
    · rw [if_pos h]
      refine List.pairwise_cons.2 ⟨?_, hp⟩
      intro x hx
      rcases List.mem_cons.1 hx with h1 | h1
      · rw [h1]; exact h
      · exact htrans a b x h (hb x h1)
    · rw [if_neg h]
      refine List.pairwise_cons.2 ⟨?_, ih hrest⟩
      intro x hx
      have hx2 := (insertSorted_perm le a rest).mem_iff.1 hx
      rcases List.mem_cons.1 hx2 with h1 | h1
      · rw [h1]
        rcases Bool.or_eq_true_iff.1 (htotal a b) with h2 | h2
        · exact absurd h2 h
        · exact h2
      · exact hb x h1

theorem sortByLe_pairwise
    {le : FileSystemItem → FileSystemItem → Bool}
    (htotal : ∀ x y, (le x y || le y x) = true)
    (htrans : ∀ x y z, le x y = true → le y z = true → le x z = true) :
    ∀ l : List FileSystemItem,
    List.Pairwise (fun x y => le x y = true) (sortByLe le l) := by
  intro l
  induction l with
  | nil => simp [sortByLe]
  | cons a rest ih =>
    unfold sortByLe
    exact insertSorted_pairwise htotal htrans a _ ih

/-- C1 counterexample: the code sorts names with `localeCompare`, not
the code-unit order.  In a reachable store whose root holds the files
`/B` and `/a`, the listing comes back `[a, B]` (collation order), so it
is not sorted by case-sensitive lexicographic (code-unit) name order,
under which `"B" < "a"`. -/
theorem c1_counterexample :
    Reachable twoFilesStore ∧
    listDirectory twoFilesStore rootPath = [fileLowerA, fileUpperB] ∧
    ¬ List.Pairwise specListingOrder (listDirectory twoFilesStore rootPath) := by
  have e1 : createFile (initStore 0) (str "/") (str "B") [] 1 =
      .ok (fileUpperB, [rootItem 0, fileUpperB]) := by decide
  have e2 : createFile [rootItem 0, fileUpperB] (str "/") (str "a") [] 2 =
      .ok (fileLowerA, twoFilesStore) := by decide
  exact ⟨Reachable.createFileStep
      (Reachable.createFileStep (Reachable.init 0) e1) e2,
    by decide, by decide⟩

/-- C1 amended: for every store and directory path, `listDirectory`
returns exactly the records whose `parentPath` equals the path, ordered
with all Directory records before all File records and ties within a
kind broken by the `localeCompare` collation on names (case-insensitive
at the primary level, lowercase before uppercase on primary ties) — not
by code-unit order. -/
theorem c1_listDirectory_order (s : Store) (p : Str) :
    (listDirectory s p).Perm (s.filter (fun it => it.parentPath = p)) ∧
    List.Pairwise codeListingOrder (listDirectory s p) := by
  constructor
  · exact sortByLe_perm itemLe _
  · have hp := @sortByLe_pairwise itemLe itemLe_total itemLe_trans
      (s.filter (fun it => it.parentPath = p))
    refine hp.imp ?_
    intro a b hab
    unfold itemLe at hab
    by_cases ht : a.type = b.type
    · rw [if_pos ht] at hab
      exact Or.inr ⟨ht, hab⟩
    · rw [if_neg ht] at hab
      have ha : a.type = ItemType.folder := by
        cases hx : a.type
        · rw [hx] at hab; cases hab
        · rfl
      refine Or.inl ⟨ha, ?_⟩
      cases hx : b.type
      · rfl
      · rw [ha, hx] at ht
        exact absurd rfl ht

theorem splitSegments_nil : splitSegments [] = [] := by
  rw [splitSegments.eq_def]

theorem splitSegments_slash (rest : Str) :
    splitSegments (slashChar :: rest) = splitSegments rest := by
  rw [splitSegments.eq_def]
  simp

theorem splitSegments_one {c : Char} (hc : ¬ c = slashChar) :
    splitSegments [c] = [[c]] := by
  rw [splitSegments.eq_def]
  simp [hc]

theorem splitSegments_two_slash {c : Char} (hc : ¬ c = slashChar)
    (rest : Str) :
    splitSegments (c :: slashChar :: rest) =
      [c] :: splitSegments (slashChar :: rest) := by
  rw [splitSegments.eq_def]
  simp [hc]

theorem splitSegments_two_nil {c d : Char} (hc : ¬ c = slashChar)
    (hd : ¬ d = slashChar) {rest : Str}
    (h : splitSegments (d :: rest) = []) :
    splitSegments (c :: d :: rest) = [[c]] := by
  rw [splitSegments.eq_def]
  simp [hc, hd, h]

theorem splitSegments_two_cons {c d : Char} (hc : ¬ c = slashChar)
    (hd : ¬ d = slashChar) {rest : Str} {seg : Str} {segs : List Str}
    (h : splitSegments (d :: rest) = seg :: segs) :
    splitSegments (c :: d :: rest) = (c :: seg) :: segs := by
  rw [splitSegments.eq_def]
  simp [hc, hd, h]

theorem splitSegments_spec :
    ∀ l : Str, ∀ g ∈ splitSegments l, ¬ g = [] ∧ ¬ slashChar ∈ g := by
  intro l
  induction l with
  | nil => intro g hg; rw [splitSegments_nil] at hg; cases hg
  | cons c rest ih =>
    intro g hg
    by_cases hc : c = slashChar
    · subst hc
      rw [splitSegments_slash] at hg
      exact ih g hg
    · cases rest with
      | nil =>
        rw [splitSegments_one hc] at hg
        simp only [List.mem_singleton] at hg
        subst hg
        exact ⟨by simp, by simpa using fun h => hc h.symm⟩
      | cons d rest2 =>
        by_cases hd : d = slashChar
        · subst hd
          rw [splitSegments_two_slash hc] at hg
          rcases List.mem_cons.1 hg with h1 | h1
          · subst h1
            exact ⟨by simp, by simpa using fun h => hc h.symm⟩
          · exact ih g h1
        · cases hsplit : splitSegments (d :: rest2) with
          | nil =>
            rw [splitSegments_two_nil hc hd hsplit] at hg
            simp only [List.mem_singleton] at hg
            subst hg
            exact ⟨by simp, by simpa using fun h => hc h.symm⟩
          | cons seg segs =>
            rw [splitSegments_two_cons hc hd hsplit] at hg
            rcases List.mem_cons.1 hg with h1 | h1
            · subst h1
              have hseg := ih seg (hsplit ▸ List.mem_cons_self _ _)
              refine ⟨by simp, ?_⟩
              intro hmem
              rcases List.mem_cons.1 hmem with h2 | h2
              · exact hc h2.symm
              · exact hseg.2 h2
            · exact ih g (hsplit ▸ List.mem_cons_of_mem _ h1)

theorem splitSegments_single {a : Str} (hne : ¬ a = [])
    (hsf : ¬ slashChar ∈ a) : splitSegments a = [a] := by
  induction a with
  | nil => exact absurd rfl hne
  | cons c rest ih =>
    have hc : ¬ c = slashChar := by
      intro hc
      exact hsf (hc ▸ List.mem_cons_self _ _)
    cases rest with
    | nil => exact splitSegments_one hc
    | cons d rest2 =>
      have hd : ¬ d = slashChar := by
        intro hd
        exact hsf (List.mem_cons_of_mem _ (hd ▸ List.mem_cons_self _ _))
      have hrest := ih (by simp)
        (fun hm => hsf (List.mem_cons_of_mem _ hm))
      exact splitSegments_two_cons hc hd hrest

theorem splitSegments_chunk {a : Str} (hne : ¬ a = [])
    (hsf : ¬ slashChar ∈ a) (t : Str) :
    splitSegments (a ++ [slashChar] ++ t) = a :: splitSegments t := by
  induction a with
  | nil => exact absurd rfl hne
  | cons c rest ih =>
    have hc : ¬ c = slashChar := by
      intro hc
      exact hsf (hc ▸ List.mem_cons_self _ _)
    cases rest with
    | nil =>
      show splitSegments (c :: slashChar :: t) = [c] :: splitSegments t
      rw [splitSegments_two_slash hc, splitSegments_slash]
    | cons d rest2 =>
      have hd : ¬ d = slashChar := by
        intro hd
        exact hsf (List.mem_cons_of_mem _ (hd ▸ List.mem_cons_self _ _))
      have hih : splitSegments (d :: (rest2 ++ [slashChar] ++ t)) =
          (d :: rest2) :: splitSegments t := by
        have := ih (by simp) (fun hm => hsf (List.mem_cons_of_mem _ hm))
        simpa using this
      show splitSegments (c :: d :: (rest2 ++ [slashChar] ++ t)) =
        (c :: d :: rest2) :: splitSegments t
      exact splitSegments_two_cons hc hd hih

theorem splitSegments_intercalate :
    ∀ parts : List Str,
    (∀ g ∈ parts, ¬ g = [] ∧ ¬ slashChar ∈ g) →
    splitSegments (List.intercalate [slashChar] parts) = parts := by
  intro parts
  induction parts with
  | nil =>
    intro _
    rw [show List.intercalate [slashChar] ([] : List Str) = [] by
      simp [List.intercalate, List.intersperse]]
    exact splitSegments_nil
  | cons a rest ih =>
    intro h
    have ha := h a (List.mem_cons_self _ _)
    cases rest with
    | nil =>
      rw [show List.intercalate [slashChar] [a] = a by
        simp [List.intercalate, List.intersperse]]
      exact splitSegments_single ha.1 ha.2
    | cons b rest2 =>
      rw [show List.intercalate [slashChar] (a :: b :: rest2) =
          a ++ [slashChar] ++ List.intercalate [slashChar] (b :: rest2) by
        simp [List.intercalate, List.intersperse]]
      rw [splitSegments_chunk ha.1 ha.2]
      rw [ih (fun g hg => h g (List.mem_cons_of_mem _ hg))]

theorem splitSegments_joinAbsolute {parts : List Str}
    (h : ∀ g ∈ parts, ¬ g = [] ∧ ¬ slashChar ∈ g) :
    splitSegments (joinAbsolute parts) = parts := by
  unfold joinAbsolute
  rw [show ([slashChar] ++ List.intercalate [slashChar] parts) =
      slashChar :: List.intercalate [slashChar] parts by simp]
  rw [splitSegments_slash]
  exact splitSegments_intercalate parts h

theorem processSegments_no_dots :
    ∀ (parts : List Str) (acc : List Str),
    (∀ g ∈ parts, ¬ g = str ".." ∧ ¬ g = str ".") →
    processSegments acc parts = acc ++ parts := by
  intro parts
  induction parts with
  | nil => intro acc _; simp [processSegments]
  | cons a rest ih =>
    intro acc h
    have ha := h a (List.mem_cons_self _ _)
    rw [processSegments, if_neg ha.1, if_neg ha.2]
    rw [ih _ (fun g hg => h g (List.mem_cons_of_mem _ hg))]
    simp

theorem processSegments_result_no_dots :
    ∀ (parts : List Str) (acc : List Str),
    (∀ g ∈ acc, ¬ g = str ".." ∧ ¬ g = str ".") →
    ∀ g ∈ processSegments acc parts, ¬ g = str ".." ∧ ¬ g = str "." := by
  intro parts
  induction parts with
  | nil => intro acc hacc g hg; exact hacc g hg
  | cons a rest ih =>
    intro acc hacc g hg
    by_cases h1 : a = str ".."
    · rw [processSegments, if_pos h1] at hg
      exact ih _ (fun x hx => hacc x (List.mem_of_mem_dropLast hx)) g hg
    · by_cases h2 : a = str "."
      · rw [processSegments, if_neg h1, if_pos h2] at hg
        exact ih _ hacc g hg
      · rw [processSegments, if_neg h1, if_neg h2] at hg
        refine ih _ ?_ g hg
        intro x hx
        rcases List.mem_append.1 hx with h3 | h3
        · exact hacc x h3
        · rw [List.mem_singleton.1 h3]
          exact ⟨h1, h2⟩

theorem processSegments_mem :
    ∀ (parts : List Str) (acc : List Str) (g : Str),
    g ∈ processSegments acc parts → g ∈ acc ∨ g ∈ parts := by
  intro parts
  induction parts with
  | nil => intro acc g hg; exact Or.inl hg
  | cons a rest ih =>
    intro acc g hg
    by_cases h1 : a = str ".."
    · rw [processSegments, if_pos h1] at hg
      rcases ih _ g hg with h | h
      · exact Or.inl (List.mem_of_mem_dropLast h)
      · exact Or.inr (List.mem_cons_of_mem _ h)
    · by_cases h2 : a = str "."
      · rw [processSegments, if_neg h1, if_pos h2] at hg
        rcases ih _ g hg with h | h
        · exact Or.inl h
        · exact Or.inr (List.mem_cons_of_mem _ h)
      · rw [processSegments, if_neg h1, if_neg h2] at hg
        rcases ih _ g hg with h | h
        · rcases List.mem_append.1 h with h3 | h3
          · exact Or.inl h3
          · exact Or.inr (List.mem_singleton.1 h3 ▸ List.mem_cons_self _ _)
        · exact Or.inr (List.mem_cons_of_mem _ h)

theorem normalizePath_idem (p : Str) :
    normalizePath (normalizePath p) = normalizePath p := by
  unfold normalizePath
  have hmem : ∀ g ∈ processSegments [] (splitSegments p),
      ¬ g = [] ∧ ¬ slashChar ∈ g := by
    intro g hg
    rcases processSegments_mem _ _ _ hg with h | h
    · cases h
    · exact splitSegments_spec p g h
  rw [splitSegments_joinAbsolute hmem]
  rw [processSegments_no_dots _ _
    (processSegments_result_no_dots _ _ (by intro g hg; cases hg))]
  simp

/-- C8: for every current directory and every absolute target path,
`resolvePath` is idempotent: resolving an already-resolved path changes
nothing. -/
theorem c8_resolve_idempotent (cwd p : Str) (h : [slashChar] <+: p) :
    resolvePath cwd (resolvePath cwd p) = resolvePath cwd p := by
  have h1 : resolvePath cwd p = normalizePath p := by
    unfold resolvePath
    rw [if_pos h]
  have h2 : [slashChar] <+: normalizePath p := by
    unfold normalizePath joinAbsolute
    exact List.prefix_append _ _
  rw [h1]
  unfold resolvePath
  rw [if_pos h2]
  exact normalizePath_idem p

/-- C8 witness: resolving the already-absolute `/a/../b` twice from the
working directory `/x` yields `/b` both times. -/
theorem c8_resolve_idempotent_witness :
    resolvePath (str "/x") (resolvePath (str "/x") (str "/a/../b")) =
      resolvePath (str "/x") (str "/a/../b") ∧
    resolvePath (str "/x") (str "/a/../b") = str "/b" := by
  exact ⟨c8_resolve_idempotent (str "/x") (str "/a/../b") (by decide),
    by decide⟩

theorem filter_sublist_of_imp {α : Type} (l : List α) (f g : α → Bool)
    (h : ∀ x ∈ l, f x = true → g x = true) :
    List.Sublist (l.filter f) (l.filter g) := by
  induction l with
  | nil => simp
  | cons a rest ih =>
    have ht := ih (fun x hx => h x (List.mem_cons_of_mem _ hx))
    cases hf : f a with
    | true =>
      rw [List.filter_cons_of_pos hf,
        List.filter_cons_of_pos (h a (List.mem_cons_self _ _) hf)]
      exact ht.cons₂ a
    | false =>
      rw [List.filter_cons_of_neg (by simp [hf])]
      cases hg : g a with
      | true =>
        rw [List.filter_cons_of_pos hg]
        exact ht.cons a
      | false =>
        rw [List.filter_cons_of_neg (by simp [hg])]
        exact ht

theorem length_filter_lt_of_witness {α : Type} (l : List α) (f g : α → Bool)
    (h : ∀ x ∈ l, f x = true → g x = true) (a : α) (ha : a ∈ l)
    (haf : f a = false) (hag : g a = true) :
    (l.filter f).length < (l.filter g).length := by
  have hsub := filter_sublist_of_imp l f g h
  have hle := hsub.length_le
  rcases Nat.lt_or_ge (l.filter f).length (l.filter g).length with hlt | hge
  · exact hlt
  · exfalso
    have heq : (l.filter f).length = (l.filter g).length := by omega
    have hll := hsub.eq_of_length heq
    have hmem : a ∈ l.filter g := List.mem_filter.2 ⟨ha, hag⟩
    rw [← hll] at hmem
    have := (List.mem_filter.1 hmem).2
    rw [haf] at this
    cases this

theorem inSubtreeB_self (q : Str) : inSubtreeB q q = true := by
  simp [inSubtreeB]

theorem inSubtreeB_root_false {a : Str} (ha1 : ¬ a = rootPath)
    (ha2 : ¬ a = []) : inSubtreeB a rootPath = false := by
  cases hb : inSubtreeB a rootPath with
  | false => rfl
  | true =>
    exfalso
    rcases inSubtreeB_iff.1 hb with h1 | h1
    · exact ha1 h1.symm
    · exact not_prefix_of_root ha2 h1

theorem inSubtreeB_extend {a q n : Str} (ha1 : ¬ a = rootPath)
    (ha2 : ¬ a = []) (h : inSubtreeB a q = true) :
    inSubtreeB a (joinPath q n) = true := by
  have hq : ¬ q = rootPath := by
    intro he
    rw [he] at h
    rw [inSubtreeB_root_false ha1 ha2] at h
    cases h
  rw [joinPath, if_neg hq]
  rcases inSubtreeB_iff.1 h with h1 | h1
  · subst h1
    exact inSubtreeB_iff.2 (Or.inr (List.prefix_append _ _))
  · refine inSubtreeB_iff.2 (Or.inr ?_)
    exact (h1.trans (List.prefix_append q [slashChar])).trans
      (List.prefix_append _ _)

theorem wf_path_of_parent {s : Store} (hw : Wf s) {c : FileSystemItem}
    (hc : c ∈ s) {q : Str} (hq : ¬ q = []) (hcp : c.parentPath = q) :
    c.path = joinPath q c.name ∧ ¬ c.name = [] ∧ ¬ slashChar ∈ c.name ∧
      ¬ c.path = rootPath := by
  rcases hw.2.1 c hc with hr | ⟨hn1, hn2, hco⟩
  · exfalso
    rcases hw.2.2 with ⟨r, hrs, hrp, _, hrpp⟩
    have hcr : c = r := eq_of_mem_of_path_eq hw.1 hc hrs (by rw [hr, hrp])
    rw [hcr, hrpp] at hcp
    exact hq hcp.symm
  · have hpath : c.path = joinPath q c.name := by rw [← hcp]; exact hco
    refine ⟨hpath, hn1, hn2, ?_⟩
    intro hcr
    rcases hw.2.2 with ⟨r, hrs, hrp, _, hrpp⟩
    have hcreq : c = r := eq_of_mem_of_path_eq hw.1 hc hrs (by rw [hcr, hrp])
    rw [hcreq, hrpp] at hcp
    exact hq hcp.symm

theorem descendant_coverage {s : Store} (hw : Wf s) (hpc : ParentClosed s)
    {p : Str} (hps : slashChar ∈ p) :
    ∀ x ∈ s, (p ++ [slashChar]) <+: x.path →
    ∃ c ∈ s, c.parentPath = p ∧ inSubtreeB c.path x.path = true := by
  have hpnil : ¬ p = [] := by
    intro he; rw [he] at hps; cases hps
  have main : ∀ L : Nat, ∀ x ∈ s, x.path.length ≤ L →
      (p ++ [slashChar]) <+: x.path →
      ∃ c ∈ s, c.parentPath = p ∧ inSubtreeB c.path x.path = true := by
    intro L
    induction L with
    | zero =>
      intro x _ hlen hpre
      exfalso
      have := hpre.length_le
      simp only [List.length_append, List.length_singleton] at this
      omega
    | succ L ih =>
      intro x hx hlen hpre
      have hxroot : ¬ x.path = rootPath := by
        intro he
        rw [he] at hpre
        exact not_prefix_of_root hpnil hpre
      rcases hw.2.1 x hx with hr | ⟨hn1, hn2, hco⟩
      · exact absurd hr hxroot
      by_cases hproot : x.parentPath = rootPath
      · exfalso
        have hxp : x.path = rootPath ++ x.name := by
          rw [hco, joinPath, if_pos hproot]
        rw [hxp] at hpre
        exact prefix_root_absurd hpre hn2 hps
      · have hxp : x.path = x.parentPath ++ [slashChar] ++ x.name := by
          rw [hco, joinPath, if_neg hproot]
        rw [hxp] at hpre
        rcases prefix_trichotomy hpre hn2 with heq | hlt
        · exact ⟨x, hx, heq.symm, inSubtreeB_self _⟩
        · rcases hpc x hx hxroot with ⟨pr, hprs, hprp, _⟩
          have hlen2 : pr.path.length ≤ L := by
            have := congrArg List.length hxp
            simp only [List.length_append, List.length_singleton] at this
            have hn0 : 0 < x.name.length :=
              List.length_pos.2 (by intro hc; exact hn1 hc)
            rw [hprp]
            omega
          have hpre2 : (p ++ [slashChar]) <+: pr.path := by
            rw [hprp]; exact hlt
          rcases ih pr hprs hlen2 hpre2 with ⟨c, hcs, hcp, hcsub⟩
          refine ⟨c, hcs, hcp, ?_⟩
          rcases inSubtreeB_iff.1 hcsub with h1 | h1
          · refine inSubtreeB_iff.2 (Or.inr ?_)
            have hcx : c.path = x.parentPath := by rw [← h1, hprp]
            rw [hxp, ← hcx]
            exact List.prefix_append _ _
          · refine inSubtreeB_iff.2 (Or.inr ?_)
            rw [hprp] at h1
            refine h1.trans ?_
            rw [hxp]
            exact (List.prefix_append x.parentPath [slashChar]).trans
              (List.prefix_append _ _)
  intro x hx hpre
  exact main x.path.length x hx le_rfl hpre

theorem children_not_nested {s : Store} (hw : Wf s) {p : Str}
    (hproot : ¬ p = rootPath) (hpnil : ¬ p = [])
    {c d : FileSystemItem} (hc : c ∈ s) (hd : d ∈ s)
    (hcp : c.parentPath = p) (hdp : d.parentPath = p)
    (hne : ¬ c.path = d.path) : inSubtreeB c.path d.path = false := by
  cases hb : inSubtreeB c.path d.path with
  | false => rfl
  | true =>
    exfalso
    rcases wf_path_of_parent hw hc hpnil hcp with ⟨hcpath, _, _, _⟩
    rcases wf_path_of_parent hw hd hpnil hdp with ⟨hdpath, _, hdn2, _⟩
    rcases inSubtreeB_iff.1 hb with h1 | h1
    · exact hne h1.symm
    · rw [hcpath, hdpath, joinPath, if_neg hproot, joinPath,
        if_neg hproot] at h1
      have h2 : (p ++ [slashChar]) ++ (c.name ++ [slashChar]) <+:
          (p ++ [slashChar]) ++ d.name := by
        rw [← List.append_assoc]
        exact h1
      have h3 : (c.name ++ [slashChar]) <+: d.name :=
        (List.prefix_append_right_inj (p ++ [slashChar])).1 h2
      exact hdn2 (h3.subset (List.mem_append.2 (Or.inr (by simp))))

theorem no_strict_descendant_of_file {s : Store} (hw : Wf s)
    (hpc : ParentClosed s) {p : Str} {item : FileSystemItem}
    (hit : getItem s p = some item) (hroot : ¬ p = rootPath)
    (hfile : ¬ item.type = ItemType.folder) :
    ∀ x ∈ s, ¬ (p ++ [slashChar]) <+: x.path := by
  intro x hx hpre
  have hm := getItem_eq_some hit
  rcases hw.2.1 item hm.1 with hr | ⟨_, _, hco⟩
  · exact hroot (hm.2 ▸ hr)
  have hps : slashChar ∈ p := by
    rw [← hm.2, hco]
    exact slash_mem_joinPath _ _
  have hpnil : ¬ p = [] := by
    intro he; rw [he] at hps; cases hps
  rcases descendant_coverage hw hpc hps x hx hpre with ⟨c, hcs, hcp, _⟩
  rcases wf_path_of_parent hw hcs hpnil hcp with ⟨_, _, _, hcroot⟩
  rcases hpc c hcs hcroot with ⟨pr, hprs, hprp, hprf⟩
  have hpritem : pr = item := by
    refine eq_of_mem_of_path_eq hw.1 hprs hm.1 ?_
    rw [hprp, hcp, hm.2]
  rw [hpritem] at hprf
  exact hfile hprf

theorem deleteChildren_nil (next : Str → Store → Option (Store × Option FsError))
    (s : Store) : deleteChildren next [] s = some (s, none) := rfl

theorem deleteChildren_cons_ok
    (next : Str → Store → Option (Store × Option FsError))
    (c : FileSystemItem) (cs : List FileSystemItem) (s s1 : Store)
    (h : next c.path s = some (s1, none)) :
    deleteChildren next (c :: cs) s = deleteChildren next cs s1 := by
  show (match next c.path s with
    | none => none
    | some (s2, some e) => some (s2, some e)
    | some (s2, none) => deleteChildren next cs s2) =
    deleteChildren next cs s1
  rw [h]

theorem deleteLevel_some
    (next : Str → Store → Option (Store × Option FsError))
    (p : Str) (s : Store) (item : FileSystemItem)
    (hget : getItem s p = some item) (hroot : ¬ p = rootPath) :
    deleteLevel next p s =
      match (if item.type = ItemType.folder
          then deleteChildren next (listDirectory s p) s
          else some (s, none)) with
      | none => none
      | some (s1, some e) => some (s1, some e)
      | some (s1, none) => some (deleteKey s1 p, none) := by
  unfold deleteLevel
  rw [hget]
  show (if p = rootPath then some (s, some FsError.forbidden)
    else
      match (if item.type = ItemType.folder
          then deleteChildren next (listDirectory s p) s
          else some (s, none)) with
      | none => none
      | some (s1, some e) => some (s1, some e)
      | some (s1, none) => some (deleteKey s1 p, none)) = _
  rw [if_neg hroot]

theorem deleteChildren_subtrees (fuel : Nat)
    (ih : ∀ (q : Str) (s : Store) (item : FileSystemItem),
      Wf s → ParentClosed s → getItem s q = some item → ¬ q = rootPath →
      (s.filter (fun it => inSubtreeB q it.path)).length ≤ fuel →
      deleteItemFuel fuel q s =
        some (s.filter (fun it => ! inSubtreeB q it.path), none)) :
    ∀ (cs : List FileSystemItem) (s : Store),
    Wf s → ParentClosed s →
    (∀ c ∈ cs, c ∈ s ∧ ¬ c.path = rootPath ∧ ¬ c.path = []) →
    List.Pairwise (fun c d => inSubtreeB c.path d.path = false ∧
      inSubtreeB d.path c.path = false) cs →
    (s.filter (fun it =>
      cs.any (fun c => inSubtreeB c.path it.path))).length ≤ fuel →
    deleteChildren (deleteItemFuel fuel) cs s =
      some (s.filter (fun it =>
        ! cs.any (fun c => inSubtreeB c.path it.path)), none) := by
  intro cs
  induction cs with
  | nil =>
    intro s _ _ _ _ _
    rw [deleteChildren_nil]
    simp
  | cons c cs ihl =>
    intro s hw hpc hmem hpw hcount
    have hc := hmem c (List.mem_cons_self _ _)
    have hget : getItem s c.path = some c := getItem_of_mem hw.1 hc.1
    have hcnt1 : (s.filter
        (fun it => inSubtreeB c.path it.path)).length ≤ fuel := by
      refine le_trans (List.Sublist.length_le
        (filter_sublist_of_imp _ _ _ ?_)) hcount
      intro x _ hfx
      simp [List.any_cons, hfx]
    have hdel := ih c.path s c hw hpc hget hc.2.1 hcnt1
    rw [deleteChildren_cons_ok _ _ _ _ _ hdel]
    set s1 := s.filter (fun it => ! inSubtreeB c.path it.path) with hs1
    have hs1mem : ∀ a : FileSystemItem, a ∈ s1 ↔
        a ∈ s ∧ inSubtreeB c.path a.path = false := by
      intro a
      rw [hs1, List.mem_filter]
      constructor
      · rintro ⟨h1, h2⟩
        refine ⟨h1, ?_⟩
        cases hb : inSubtreeB c.path a.path with
        | false => rfl
        | true => rw [hb] at h2; simp at h2
      · rintro ⟨h1, h2⟩
        exact ⟨h1, by rw [h2]; rfl⟩
    have hw1 : Wf s1 := by
      refine ⟨pathsNodup_filter _ hw.1, ?_, ?_⟩
      · intro it hit
        exact hw.2.1 it ((hs1mem it).1 hit).1
      · rcases hw.2.2 with ⟨r, hrs, hrp, hrt, hrpp⟩
        refine ⟨r, ?_, hrp, hrt, hrpp⟩
        refine (hs1mem r).2 ⟨hrs, ?_⟩
        rw [hrp]
        exact inSubtreeB_root_false hc.2.1 hc.2.2
    have hpc1 : ParentClosed s1 := by
      intro it hit hitroot
      rcases (hs1mem it).1 hit with ⟨hits, hitf⟩
      rcases hpc it hits hitroot with ⟨pr, hprs, hprp, hprf⟩
      refine ⟨pr, ?_, hprp, hprf⟩
      refine (hs1mem pr).2 ⟨hprs, ?_⟩
      cases hb : inSubtreeB c.path pr.path with
      | false => rfl
      | true =>
        exfalso
        rcases hw.2.1 it hits with hr | ⟨_, _, hco⟩
        · exact hitroot hr
        have hup : inSubtreeB c.path it.path = true := by
          rw [hco]
          exact inSubtreeB_extend hc.2.1 hc.2.2 (hprp ▸ hb)
        rw [hup] at hitf
        cases hitf
    have hmem1 : ∀ d ∈ cs, d ∈ s1 ∧ ¬ d.path = rootPath ∧
        ¬ d.path = [] := by
      intro d hd
      have hdm := hmem d (List.mem_cons_of_mem _ hd)
      have hpair := (List.pairwise_cons.1 hpw).1 d hd
      exact ⟨(hs1mem d).2 ⟨hdm.1, hpair.1⟩, hdm.2.1, hdm.2.2⟩
    have hpw1 := (List.pairwise_cons.1 hpw).2
    have hcount1 : (s1.filter (fun it =>
        cs.any (fun c2 => inSubtreeB c2.path it.path))).length ≤ fuel := by
      refine le_trans (List.Sublist.length_le ?_) hcount
      have hsub0 : List.Sublist s1 s := by
        rw [hs1]; exact List.filter_sublist s
      refine List.Sublist.trans (hsub0.filter _) ?_
      refine filter_sublist_of_imp _ _ _ ?_
      intro x _ hx
      simp [List.any_cons, hx]
    rw [ihl s1 hw1 hpc1 hmem1 hpw1 hcount1]
    have hfe : s1.filter (fun it =>
        ! cs.any (fun c2 => inSubtreeB c2.path it.path)) =
        s.filter (fun it =>
          ! (c :: cs).any (fun c2 => inSubtreeB c2.path it.path)) := by
      rw [hs1, List.filter_filter]
      refine List.filter_congr ?_
      intro x _
      simp [List.any_cons, Bool.not_or, Bool.and_comm]
    rw [hfe]

theorem deleteItemFuel_subtree :
    ∀ (fuel : Nat) (q : Str) (s : Store) (item : FileSystemItem),
    Wf s → ParentClosed s → getItem s q = some item → ¬ q = rootPath →
    (s.filter (fun it => inSubtreeB q it.path)).length ≤ fuel →
    deleteItemFuel fuel q s =
      some (s.filter (fun it => ! inSubtreeB q it.path), none) := by
  intro fuel
  induction fuel with
  | zero =>
    intro q s item _ _ hget _ hcount
    exfalso
    have hm := getItem_eq_some hget
    have hmem : item ∈ s.filter (fun it => inSubtreeB q it.path) :=
      List.mem_filter.2 ⟨hm.1, by rw [hm.2]; exact inSubtreeB_self q⟩
    have hpos : 0 < (s.filter (fun it => inSubtreeB q it.path)).length :=
      List.length_pos.2 (by intro hnil; rw [hnil] at hmem; cases hmem)
    omega
  | succ fuel ih =>
    intro q s item hw hpc hget hroot hcount
    have hm := getItem_eq_some hget
    have hco : item.path = joinPath item.parentPath item.name := by
      rcases hw.2.1 item hm.1 with hr | ⟨_, _, hc2⟩
      · exact absurd (hm.2.symm.trans hr) hroot
      · exact hc2
    have hqslash : slashChar ∈ q := by
      rw [← hm.2, hco]
      exact slash_mem_joinPath _ _
    have hqnil : ¬ q = [] := by
      intro he
      rw [he] at hqslash
      cases hqslash
    have hcs_mem : ∀ c : FileSystemItem,
        c ∈ listDirectory s q ↔ c ∈ s ∧ c.parentPath = q := by
      intro c
      unfold listDirectory
      rw [(sortByLe_perm itemLe _).mem_iff]
      simp [List.mem_filter]
    have hanyiff : ∀ x ∈ s,
        ((listDirectory s q).any
          (fun c => inSubtreeB c.path x.path) = true ↔
          (q ++ [slashChar]) <+: x.path) := by
      intro x hx
      constructor
      · intro hb
        rcases List.any_eq_true.1 hb with ⟨c, hcmem, hcsub⟩
        rcases (hcs_mem c).1 hcmem with ⟨hcs2, hcp2⟩
        rcases wf_path_of_parent hw hcs2 hqnil hcp2 with ⟨hcpath, _, _, _⟩
        have hqc : (q ++ [slashChar]) <+: c.path := by
          rw [hcpath, joinPath, if_neg hroot]
          exact List.prefix_append _ _
        rcases inSubtreeB_iff.1 hcsub with h1 | h1
        · rw [h1]; exact hqc
        · exact hqc.trans ((List.prefix_append c.path [slashChar]).trans h1)
      · intro hpre
        rcases descendant_coverage hw hpc hqslash x hx hpre with
          ⟨c, hcs2, hcp2, hcsub⟩
        refine List.any_eq_true.2 ⟨c, ?_, hcsub⟩
        exact (hcs_mem c).2 ⟨hcs2, hcp2⟩
    show deleteLevel (deleteItemFuel fuel) q s = _
    rw [deleteLevel_some _ q s item hget hroot]
    by_cases hfold : item.type = ItemType.folder
    · rw [if_pos hfold]
      have hmemcs : ∀ c ∈ listDirectory s q,
          c ∈ s ∧ ¬ c.path = rootPath ∧ ¬ c.path = [] := by
        intro c hc2
        rcases (hcs_mem c).1 hc2 with ⟨hcs2, hcp2⟩
        rcases wf_path_of_parent hw hcs2 hqnil hcp2 with
          ⟨hcpath, _, _, hcroot⟩
        refine ⟨hcs2, hcroot, ?_⟩
        rw [hcpath]
        exact joinPath_ne_nil _ _
      have hpwcs : List.Pairwise
          (fun c d => inSubtreeB c.path d.path = false ∧
            inSubtreeB d.path c.path = false) (listDirectory s q) := by
        have h0 : List.Pairwise (fun a b => ¬ a.path = b.path) s :=
          List.pairwise_map.1 hw.1
        have h1 : List.Pairwise (fun a b => ¬ a.path = b.path)
            (s.filter (fun it => it.parentPath = q)) :=
          h0.sublist (List.filter_sublist s)
        have h2 : List.Pairwise
            (fun c d => inSubtreeB c.path d.path = false ∧
              inSubtreeB d.path c.path = false)
            (s.filter (fun it => it.parentPath = q)) := by
          refine h1.imp_of_mem ?_
          intro a b ha hb hne
          have hap := of_decide_eq_true (List.mem_filter.1 ha).2
          have hbp := of_decide_eq_true (List.mem_filter.1 hb).2
          have has := (List.mem_filter.1 ha).1
          have hbs := (List.mem_filter.1 hb).1
          exact ⟨children_not_nested hw hroot hqnil has hbs hap hbp hne,
            children_not_nested hw hroot hqnil hbs has hbp hap
              (fun he => hne he.symm)⟩
        unfold listDirectory
        exact ((sortByLe_perm itemLe _).pairwise_iff
          (fun {a b} hab => ⟨hab.2, hab.1⟩)).2 h2
      have hltcnt : (s.filter (fun it => (listDirectory s q).any
          (fun c => inSubtreeB c.path it.path))).length ≤ fuel := by
        have hlt : (s.filter (fun it => (listDirectory s q).any
            (fun c => inSubtreeB c.path it.path))).length <
            (s.filter (fun it => inSubtreeB q it.path)).length := by
          refine length_filter_lt_of_witness s _ _ ?_ item hm.1 ?_ ?_
          · intro x hx hax
            exact inSubtreeB_iff.2 (Or.inr ((hanyiff x hx).1 hax))
          · cases hb : (listDirectory s q).any
                (fun c => inSubtreeB c.path item.path) with
            | false => rfl
            | true =>
              exfalso
              have hpre := (hanyiff item hm.1).1 hb
              rw [hm.2] at hpre
              exact strict_prefix_ne hpre rfl
          · rw [hm.2]; exact inSubtreeB_self q
        omega
      rw [deleteChildren_subtrees fuel ih (listDirectory s q) s hw hpc
        hmemcs hpwcs hltcnt]
      show some (deleteKey (s.filter (fun it =>
        ! (listDirectory s q).any (fun c => inSubtreeB c.path it.path)))
        q, none) = _
      have hkey : deleteKey (s.filter (fun it =>
          ! (listDirectory s q).any
            (fun c => inSubtreeB c.path it.path))) q =
          s.filter (fun it => ! inSubtreeB q it.path) := by
        unfold deleteKey
        rw [List.filter_filter]
        refine List.filter_congr ?_
        intro x hx
        by_cases hxq : x.path = q
        · have hin : inSubtreeB q x.path = true :=
            inSubtreeB_iff.2 (Or.inl hxq)
          rw [hin]
          simp [hxq]
        · by_cases hpre : (q ++ [slashChar]) <+: x.path
          · have hany := (hanyiff x hx).2 hpre
            have hin : inSubtreeB q x.path = true :=
              inSubtreeB_iff.2 (Or.inr hpre)
            rw [hin, hany]
            simp
          · have hany : (listDirectory s q).any
                (fun c => inSubtreeB c.path x.path) = false := by
              cases hb : (listDirectory s q).any
                  (fun c => inSubtreeB c.path x.path) with
              | false => rfl
              | true => exact absurd ((hanyiff x hx).1 hb) hpre
            have hin : inSubtreeB q x.path = false := by
              cases hb2 : inSubtreeB q x.path with
              | false => rfl
              | true =>
                exfalso
                rcases inSubtreeB_iff.1 hb2 with h | h
                · exact hxq h
                · exact hpre h
            rw [hin, hany]
            simp [hxq]
      rw [hkey]
    · rw [if_neg hfold]
      show some (deleteKey s q, none) = _
      have hkey : deleteKey s q =
          s.filter (fun it => ! inSubtreeB q it.path) := by
        unfold deleteKey
        refine List.filter_congr ?_
        intro x hx
        have hnd : ¬ (q ++ [slashChar]) <+: x.path :=
          no_strict_descendant_of_file hw hpc hget hroot hfold x hx
        by_cases hxq : x.path = q
        · have hin : inSubtreeB q x.path = true :=
            inSubtreeB_iff.2 (Or.inl hxq)
          rw [hin]
          simp [hxq]
        · have hin : inSubtreeB q x.path = false := by
            cases hb2 : inSubtreeB q x.path with
            | false => rfl
            | true =>
              exfalso
              rcases inSubtreeB_iff.1 hb2 with h | h
              · exact hxq h
              · exact hnd h
          rw [hin]
          simp [hxq]
      rw [hkey]

theorem deleteLevel_root
    (next : Str → Store → Option (Store × Option FsError))
    (s : Store) (r : FileSystemItem)
    (hg : getItem s rootPath = some r) :
    deleteLevel next rootPath s = some (s, some FsError.forbidden) := by
  unfold deleteLevel
  rw [hg]
  show (if rootPath = rootPath then some (s, some FsError.forbidden)
    else
      match (if r.type = ItemType.folder
          then deleteChildren next (listDirectory s rootPath) s
          else some (s, none)) with
      | none => none
      | some (s1, some e) => some (s1, some e)
      | some (s1, none) => some (deleteKey s1 rootPath, none)) = _
  rw [if_pos rfl]

/-- C3 counterexample: deleting an existing non-root path does NOT always
remove every node whose path starts with `p + "/"`.  In the reachable
store holding the orphan `/docs/a/b` (created while `/docs/a` is
absent), `delete("/docs")` succeeds but leaves `/docs/a/b` behind,
because the recursion only follows the `parentPath` index; likewise a
file created with the slash-containing name `"a/b"` survives
`delete("/a")`. -/
theorem c3_counterexample :
    (Reachable delOrphanStore ∧
      deleteItem delOrphanStore (str "/docs") =
        some ([rootItem 0, delOrphan], none) ∧
      (str "/docs" ++ [slashChar]) <+: delOrphan.path) ∧
    (Reachable delSlashStore ∧
      deleteItem delSlashStore (str "/a") =
        some ([rootItem 0, slashNamedFile], none) ∧
      (str "/a" ++ [slashChar]) <+: slashNamedFile.path) := by
  have e1 : createFolder (initStore 0) (str "/") (str "docs") 1 =
      .ok (docsFolder, docsStore) := by decide
  have e2 : createFolder docsStore (str "/docs/a") (str "b") 2 =
      .ok (delOrphan, delOrphanStore) := by decide
  have e3 : createFolder (initStore 0) (str "/") (str "a") 1 =
      .ok (aFolder, [rootItem 0, aFolder]) := by decide
  have e4 : createFile [rootItem 0, aFolder] (str "/") (str "a/b") [] 2 =
      .ok (slashNamedFile, delSlashStore) := by decide
  exact ⟨⟨Reachable.createFolderStep
      (Reachable.createFolderStep (Reachable.init 0) e1) e2,
    by decide, by decide⟩,
    ⟨Reachable.createFileStep
      (Reachable.createFolderStep (Reachable.init 0) e3) e4,
    by decide, by decide⟩⟩

/-- C3 amended: in a structurally well-formed store in which every
non-root record has an existing folder parent, deleting an existing
non-root path `p` succeeds and removes exactly the records of the
subtree rooted at `p` (the record at `p` and every record whose path
starts with `p + "/"`), leaving all others in place; and deleting `"/"`
always fails with `Forbidden`. -/
theorem c3_delete_subtree (s : Store) (p : Str) (item : FileSystemItem)
    (hw : Wf s) (hpc : ParentClosed s)
    (hget : getItem s p = some item) (hroot : ¬ p = rootPath) :
    deleteItem s p =
      some (s.filter (fun it => ! inSubtreeB p it.path), none) ∧
    deleteItem s rootPath = some (s, some FsError.forbidden) := by
  constructor
  · refine deleteItemFuel_subtree (s.length + 1) p s item hw hpc hget
      hroot ?_
    have := s.length_filter_le (fun it => inSubtreeB p it.path)
    omega
  · rcases hw.2.2 with ⟨r, hrs, hrp, _, _⟩
    have hg : getItem s rootPath = some r := by
      rw [← hrp]
      exact getItem_of_mem hw.1 hrs
    show deleteLevel (deleteItemFuel s.length) rootPath s = _
    exact deleteLevel_root _ s r hg

/-- C3 witness: deleting `/docs` in the two-level store removes the
whole `/docs` subtree and nothing else, and deleting the root fails
with `Forbidden`. -/
theorem c3_delete_subtree_witness :
    Wf deepStore ∧ ParentClosed deepStore ∧
    getItem deepStore (str "/docs") = some docsFolder ∧
    deleteItem deepStore (str "/docs") = some ([rootItem 0], none) ∧
    deleteItem deepStore rootPath =
      some (deepStore, some FsError.forbidden) := by
  have h := c3_delete_subtree deepStore (str "/docs") docsFolder
    (by decide) (by decide) (by decide) (by decide)
  refine ⟨by decide, by decide, by decide, ?_, h.2⟩
  rw [h.1]
  decide

theorem intercalate_cons2 (sep a c : Str) (t : List Str) :
    List.intercalate sep (a :: c :: t) =
      a ++ sep ++ List.intercalate sep (c :: t) := by
  simp [List.intercalate, List.intersperse]

theorem intercalate_one (sep a : Str) : List.intercalate sep [a] = a := by
  simp [List.intercalate, List.intersperse]

theorem intercalate_ne_nil {sep a : Str} {rest : List Str}
    (ha : ¬ a = []) : ¬ List.intercalate sep (a :: rest) = [] := by
  cases rest with
  | nil => rw [intercalate_one]; exact ha
  | cons c t =>
    rw [intercalate_cons2]
    intro h
    rcases List.append_eq_nil.1 (List.append_eq_nil.1 h).1 with ⟨h1, _⟩
    exact ha h1

theorem intercalate_concat (sep : Str) :
    ∀ (as : List Str) (b : Str), ¬ as = [] →
    List.intercalate sep (as ++ [b]) =
      List.intercalate sep as ++ sep ++ b := by
  intro as
  induction as with
  | nil => intro b h; exact absurd rfl h
  | cons a rest ih =>
    intro b _
    cases rest with
    | nil =>
      show List.intercalate sep (a :: [b]) = _
      rw [intercalate_cons2, intercalate_one, intercalate_one]
    | cons c rest2 =>
      show List.intercalate sep (a :: (c :: (rest2 ++ [b]))) = _
      rw [intercalate_cons2]
      rw [show (c :: (rest2 ++ [b]) : List Str) = (c :: rest2) ++ [b]
        from rfl]
      rw [ih b (by simp), intercalate_cons2]
      simp [List.append_assoc]

theorem joinAbsolute_nil : joinAbsolute [] = rootPath := by
  simp [joinAbsolute, rootPath, List.intercalate, List.intersperse]

theorem joinAbsolute_ne_nil (parts : List Str) :
    ¬ joinAbsolute parts = [] := by
  simp [joinAbsolute]

theorem joinAbsolute_cons_ne_root {a : Str} {rest : List Str}
    (ha : ¬ a = []) : ¬ joinAbsolute (a :: rest) = rootPath := by
  unfold joinAbsolute
  intro h
  have h2 : List.intercalate [slashChar] (a :: rest) = [] := by
    have hl := congrArg List.length h
    simp only [List.length_append, List.length_singleton, rootPath] at hl
    exact List.length_eq_zero.1 (by omega)
  exact intercalate_ne_nil ha h2

theorem joinAbsolute_concat {as : List Str} (b : Str)
    (has : ∀ g ∈ as, ¬ g = []) :
    joinAbsolute (as ++ [b]) = joinPath (joinAbsolute as) b := by
  cases as with
  | nil =>
    rw [show (([] : List Str) ++ [b]) = [b] from rfl]
    rw [joinAbsolute_nil, joinPath, if_pos rfl]
    unfold joinAbsolute
    rw [intercalate_one]
    rfl
  | cons a rest =>
    have ha := has a (List.mem_cons_self _ _)
    rw [joinPath, if_neg (joinAbsolute_cons_ne_root ha)]
    unfold joinAbsolute
    rw [show ((a :: rest) ++ [b]) = a :: (rest ++ [b]) from rfl]
    rw [show (a :: (rest ++ [b])) = (a :: rest) ++ [b] from rfl]
    rw [intercalate_concat [slashChar] (a :: rest) b (by simp)]
    simp [List.append_assoc]

theorem normalizedAbs_join {dst n : Str} (h : NormalizedAbs dst)
    (hn1 : ¬ n = []) (hn2 : ¬ slashChar ∈ n) :
    NormalizedAbs (joinPath dst n) := by
  rcases h with ⟨segs, hsegs, rfl⟩
  refine ⟨segs ++ [n], ?_, ?_⟩
  · intro g hg
    rcases List.mem_append.1 hg with h1 | h1
    · exact hsegs g h1
    · rw [List.mem_singleton.1 h1]
      exact ⟨hn1, hn2⟩
  · exact (joinAbsolute_concat n (fun g hg => (hsegs g hg).1)).symm

theorem normalizedAbs_parts {f : Str} (h : NormalizedAbs f)
    (hroot : ¬ f = rootPath) :
    ¬ f = [] ∧ ¬ lastSegment f = [] ∧
      f = joinPath (orRoot (upToLastSlash f)) (lastSegment f) := by
  rcases h with ⟨segs, hsegs, rfl⟩
  refine ⟨joinAbsolute_ne_nil segs, ?_⟩
  rcases List.eq_nil_or_concat segs with rfl | ⟨as, b, rfl⟩
  · exact absurd joinAbsolute_nil hroot
  rw [List.concat_eq_append] at *
  have hb := hsegs b (List.mem_append.2 (Or.inr (List.mem_singleton.2 rfl)))
  have hja := joinAbsolute_concat b
    (fun g hg => (hsegs g (List.mem_append.2 (Or.inl hg))).1)
  rw [hja]
  rw [joinPath_eq_append]
  rw [lastSegment_append_sf hb.2, upToLastSlash_append_sf hb.2]
  refine ⟨hb.1, ?_⟩
  by_cases hr : joinAbsolute as = rootPath
  · rw [if_pos hr] at *
    rw [joinPath, if_pos (show orRoot [] = rootPath from rfl)]
    simp [rootPath]
  · rw [if_neg hr]
    have hne : ¬ joinAbsolute as = [] := joinAbsolute_ne_nil as
    rw [joinPath, if_neg (by rw [orRoot, if_neg hne]; exact hr)]
    rw [orRoot, if_neg hne]

theorem rekey_wf {s : Store} (hw : Wf s) {src f : Str}
    (hsroot : ¬ src = rootPath) (hsslash : slashChar ∈ src)
    (hfnil : ¬ f = []) (hfroot : ¬ f = rootPath)
    {c : FileSystemItem} (hc : c ∈ s)
    (hpre : (src ++ [slashChar]) <+: c.path) :
    ¬ c.name = [] ∧ ¬ slashChar ∈ c.name ∧
      f ++ c.path.drop src.length =
        joinPath (orRoot (upToLastSlash (f ++ c.path.drop src.length)))
          c.name := by
  have hsnil : ¬ src = [] := by
    intro he; rw [he] at hsslash; cases hsslash
  have hcroot : ¬ c.path = rootPath := by
    intro he
    rw [he] at hpre
    exact not_prefix_of_root hsnil hpre
  rcases hw.2.1 c hc with hr | ⟨hn1, hn2, hco⟩
  · exact absurd hr hcroot
  refine ⟨hn1, hn2, ?_⟩
  by_cases hpp : c.parentPath = rootPath
  · exfalso
    have hxp : c.path = rootPath ++ c.name := by
      rw [hco, joinPath, if_pos hpp]
    rw [hxp] at hpre
    exact prefix_root_absurd hpre hn2 hsslash
  · have hxp : c.path = c.parentPath ++ [slashChar] ++ c.name := by
      rw [hco, joinPath, if_neg hpp]
    rw [hxp] at hpre
    rcases prefix_trichotomy hpre hn2 with heq | hlt
    · have hdrop : c.path.drop src.length = [slashChar] ++ c.name := by
        rw [hxp, ← heq, List.append_assoc, List.drop_left]
      rw [hdrop]
      rw [show f ++ ([slashChar] ++ c.name) = f ++ [slashChar] ++ c.name
        from (List.append_assoc f [slashChar] c.name).symm]
      rw [upToLastSlash_append_sf hn2]
      rw [orRoot, if_neg hfnil]
      rw [joinPath, if_neg hfroot]
    · have hle : src.length ≤ c.parentPath.length := by
        have := hlt.length_le
        simp only [List.length_append, List.length_singleton] at this
        omega
      have hdrop : c.path.drop src.length =
          c.parentPath.drop src.length ++ [slashChar] ++ c.name := by
        rw [hxp, List.drop_append_of_le_length
          (by simp only [List.length_append, List.length_singleton]; omega),
          List.drop_append_of_le_length hle]
      have hhead := drop_head_slash hlt
      rw [hdrop]
      rw [show f ++ (c.parentPath.drop src.length ++ [slashChar] ++ c.name)
          = (f ++ c.parentPath.drop src.length) ++ [slashChar] ++ c.name
        by simp [List.append_assoc]]
      rw [upToLastSlash_append_sf hn2]
      have hne : ¬ f ++ c.parentPath.drop src.length = [] := by
        intro he
        rcases List.append_eq_nil.1 he with ⟨h1, _⟩
        exact hfnil h1
      rw [orRoot, if_neg hne]
      rw [joinPath, if_neg ?hroot2]
      case hroot2 =>
        intro he
        rw [hhead] at he
        have hl := congrArg List.length he
        rw [List.length_append, List.length_cons,
          show rootPath.length = 1 from rfl] at hl
        have hfl : 0 < f.length := List.length_pos.2 hfnil
        omega

theorem moveChildren_mem (f src : Str) (now : Nat) :
    ∀ (cs : List FileSystemItem) (s0 : Store) (a : FileSystemItem),
    a ∈ moveChildren f src now cs s0 →
    a ∈ s0 ∨ ∃ c ∈ cs, a =
      { c with
          path := f ++ c.path.drop src.length
          parentPath :=
            orRoot (upToLastSlash (f ++ c.path.drop src.length))
          updatedAt := now } := by
  intro cs
  induction cs with
  | nil => intro s0 a ha; exact Or.inl ha
  | cons c cs ih =>
    intro s0 a ha
    have ha2 : a ∈ moveChildren f src now cs
        (deleteKey
          (putItem s0
            { c with
                path := f ++ c.path.drop src.length
                parentPath :=
                  orRoot (upToLastSlash (f ++ c.path.drop src.length))
                updatedAt := now })
          c.path) := ha
    rcases ih _ a ha2 with h1 | h1
    · rcases mem_putItem (mem_deleteKey.1 h1).1 with h2 | h2
      · exact Or.inr ⟨c, List.mem_cons_self _ _, h2⟩
      · exact Or.inl h2
    · rcases h1 with ⟨d, hd, he⟩
      exact Or.inr ⟨d, List.mem_cons_of_mem _ hd, he⟩

theorem moveChildren_mem_keep (f src : Str) (now : Nat) :
    ∀ (cs : List FileSystemItem) (s0 : Store) (a : FileSystemItem),
    a ∈ s0 →
    (∀ c ∈ cs, ¬ a.path = c.path ∧
      ¬ a.path = f ++ c.path.drop src.length) →
    a ∈ moveChildren f src now cs s0 := by
  intro cs
  induction cs with
  | nil => intro s0 a ha _; exact ha
  | cons c cs ih =>
    intro s0 a ha hkeep
    have hc := hkeep c (List.mem_cons_self _ _)
    show a ∈ moveChildren f src now cs
      (deleteKey
        (putItem s0
          { c with
              path := f ++ c.path.drop src.length
              parentPath :=
                orRoot (upToLastSlash (f ++ c.path.drop src.length))
              updatedAt := now })
        c.path)
    refine ih _ a ?_ (fun d hd => hkeep d (List.mem_cons_of_mem _ hd))
    exact mem_deleteKey.2 ⟨mem_putItem_of_mem ha hc.2, hc.1⟩

theorem pathsNodup_moveChildren (f src : Str) (now : Nat) :
    ∀ (cs : List FileSystemItem) (s0 : Store),
    pathsNodup s0 → pathsNodup (moveChildren f src now cs s0) := by
  intro cs
  induction cs with
  | nil => intro s0 h; exact h
  | cons c cs ih =>
    intro s0 h
    show pathsNodup (moveChildren f src now cs
      (deleteKey
        (putItem s0
          { c with
              path := f ++ c.path.drop src.length
              parentPath :=
                orRoot (upToLastSlash (f ++ c.path.drop src.length))
              updatedAt := now })
        c.path))
    exact ih _ (pathsNodup_deleteKey _ (pathsNodup_putItem _ h))

theorem copyChildren_mem (f src : Str) (now : Nat) :
    ∀ (cs : List FileSystemItem) (s0 : Store) (a : FileSystemItem),
    a ∈ copyChildren f src now cs s0 →
    a ∈ s0 ∨ ∃ c ∈ cs, a =
      { c with
          path := f ++ c.path.drop src.length
          parentPath :=
            orRoot (upToLastSlash (f ++ c.path.drop src.length))
          createdAt := now
          updatedAt := now } := by
  intro cs
  induction cs with
  | nil => intro s0 a ha; exact Or.inl ha
  | cons c cs ih =>
    intro s0 a ha
    have ha2 : a ∈ copyChildren f src now cs
        (putItem s0
          { c with
              path := f ++ c.path.drop src.length
              parentPath :=
                orRoot (upToLastSlash (f ++ c.path.drop src.length))
              createdAt := now
              updatedAt := now }) := ha
    rcases ih _ a ha2 with h1 | h1
    · rcases mem_putItem h1 with h2 | h2
      · exact Or.inr ⟨c, List.mem_cons_self _ _, h2⟩
      · exact Or.inl h2
    · rcases h1 with ⟨d, hd, he⟩
      exact Or.inr ⟨d, List.mem_cons_of_mem _ hd, he⟩

theorem copyChildren_mem_keep (f src : Str) (now : Nat) :
    ∀ (cs : List FileSystemItem) (s0 : Store) (a : FileSystemItem),
    a ∈ s0 →
    (∀ c ∈ cs, ¬ a.path = f ++ c.path.drop src.length) →
    a ∈ copyChildren f src now cs s0 := by
  intro cs
  induction cs with
  | nil => intro s0 a ha _; exact ha
  | cons c cs ih =>
    intro s0 a ha hkeep
    show a ∈ copyChildren f src now cs
      (putItem s0
        { c with
            path := f ++ c.path.drop src.length
            parentPath :=
              orRoot (upToLastSlash (f ++ c.path.drop src.length))
            createdAt := now
            updatedAt := now })
    refine ih _ a ?_ (fun d hd => hkeep d (List.mem_cons_of_mem _ hd))
    exact mem_putItem_of_mem ha (hkeep c (List.mem_cons_self _ _))

theorem pathsNodup_copyChildren (f src : Str) (now : Nat) :
    ∀ (cs : List FileSystemItem) (s0 : Store),
    pathsNodup s0 → pathsNodup (copyChildren f src now cs s0) := by
  intro cs
  induction cs with
  | nil => intro s0 h; exact h
  | cons c cs ih =>
    intro s0 h
    show pathsNodup (copyChildren f src now cs
      (putItem s0
        { c with
            path := f ++ c.path.drop src.length
            parentPath :=
              orRoot (upToLastSlash (f ++ c.path.drop src.length))
            createdAt := now
            updatedAt := now }))
    exact ih _ (pathsNodup_putItem _ h)

theorem deleteChildren_both
    (next : Str → Store → Option (Store × Option FsError))
    (hnext : ∀ q s s2 e, next q s = some (s2, e) →
      List.Sublist s2 s ∧ (∀ r ∈ s, r.path = rootPath → r ∈ s2)) :
    ∀ (cs : List FileSystemItem) (s s2 : Store) (e : Option FsError),
    deleteChildren next cs s = some (s2, e) →
    List.Sublist s2 s ∧ (∀ r ∈ s, r.path = rootPath → r ∈ s2) := by
  intro cs
  induction cs with
  | nil =>
    intro s s2 e h
    rw [deleteChildren_nil] at h
    have h2 : s = s2 := congrArg Prod.fst (Option.some_inj.1 h)
    rw [← h2]
    exact ⟨List.Sublist.refl s, fun r hr _ => hr⟩
  | cons c cs ih =>
    intro s s2 e h
    have h2 : (match next c.path s with
      | none => none
      | some (s1, some e1) => some (s1, some e1)
      | some (s1, none) => deleteChildren next cs s1) = some (s2, e) := h
    cases hn : next c.path s with
    | none =>
      rw [hn] at h2
      have h3 : (none : Option (Store × Option FsError)) = some (s2, e) := h2
      cases h3
    | some pair =>
      rcases pair with ⟨s1, e1⟩
      have hstep := hnext c.path s s1 e1 hn
      cases e1 with
      | some err =>
        rw [hn] at h2
        have h3 : (some (s1, some err) : Option (Store × Option FsError)) =
            some (s2, e) := h2
        have h4 : s1 = s2 := congrArg Prod.fst (Option.some_inj.1 h3)
        rw [← h4]
        exact hstep
      | none =>
        rw [hn] at h2
        have h3 : deleteChildren next cs s1 = some (s2, e) := h2
        have hrec := ih s1 s2 e h3
        exact ⟨hrec.1.trans hstep.1,
          fun r hr hrp => hrec.2 r (hstep.2 r hr hrp) hrp⟩

theorem deleteLevel_both
    (next : Str → Store → Option (Store × Option FsError))
    (hnext : ∀ q s s2 e, next q s = some (s2, e) →
      List.Sublist s2 s ∧ (∀ r ∈ s, r.path = rootPath → r ∈ s2)) :
    ∀ (q : Str) (s s2 : Store) (e : Option FsError),
    deleteLevel next q s = some (s2, e) →
    List.Sublist s2 s ∧ (∀ r ∈ s, r.path = rootPath → r ∈ s2) := by
  intro q s s2 e h
  cases hg : getItem s q with
  | none =>
    unfold deleteLevel at h
    rw [hg] at h
    have h2 : (some (s, some FsError.notFound) :
        Option (Store × Option FsError)) = some (s2, e) := h
    have h3 : s = s2 := congrArg Prod.fst (Option.some_inj.1 h2)
    rw [← h3]
    exact ⟨List.Sublist.refl s, fun r hr _ => hr⟩
  | some item =>
    by_cases hq : q = rootPath
    · unfold deleteLevel at h
      rw [hg] at h
      have h2 : (if q = rootPath then some (s, some FsError.forbidden)
        else
          match (if item.type = ItemType.folder
              then deleteChildren next (listDirectory s q) s
              else some (s, none)) with
          | none => none
          | some (s1, some e1) => some (s1, some e1)
          | some (s1, none) => some (deleteKey s1 q, none)) =
          some (s2, e) := h
      rw [if_pos hq] at h2
      have h3 : s = s2 := congrArg Prod.fst (Option.some_inj.1 h2)
      rw [← h3]
      exact ⟨List.Sublist.refl s, fun r hr _ => hr⟩
    · rw [deleteLevel_some next q s item hg hq] at h
      by_cases hfold : item.type = ItemType.folder
      · rw [if_pos hfold] at h
        cases hdc : deleteChildren next (listDirectory s q) s with
        | none =>
          rw [hdc] at h
          have h3 : (none : Option (Store × Option FsError)) =
              some (s2, e) := h
          cases h3
        | some pair =>
          rcases pair with ⟨s1, e1⟩
          have hloop := deleteChildren_both next hnext _ s s1 e1 hdc
          cases e1 with
          | some err =>
            rw [hdc] at h
            have h3 : (some (s1, some err) :
                Option (Store × Option FsError)) = some (s2, e) := h
            have h4 : s1 = s2 := congrArg Prod.fst (Option.some_inj.1 h3)
            rw [← h4]
            exact hloop
          | none =>
            rw [hdc] at h
            have h3 : (some (deleteKey s1 q, none) :
                Option (Store × Option FsError)) = some (s2, e) := h
            have h4 : deleteKey s1 q = s2 :=
              congrArg Prod.fst (Option.some_inj.1 h3)
            rw [← h4]
            constructor
            · exact (List.filter_sublist s1).trans hloop.1
            · intro r hr hrp
              refine mem_deleteKey.2 ⟨hloop.2 r hr hrp, ?_⟩
              rw [hrp]
              exact fun hc => hq hc.symm
      · rw [if_neg hfold] at h
        have h3 : (some (deleteKey s q, none) :
            Option (Store × Option FsError)) = some (s2, e) := h
        have h4 : deleteKey s q = s2 :=
          congrArg Prod.fst (Option.some_inj.1 h3)
        rw [← h4]
        constructor
        · exact List.filter_sublist s
        · intro r hr hrp
          refine mem_deleteKey.2 ⟨hr, ?_⟩
          rw [hrp]
          exact fun hc => hq hc.symm

theorem deleteItemFuel_both :
    ∀ (fuel : Nat) (q : Str) (s s2 : Store) (e : Option FsError),
    deleteItemFuel fuel q s = some (s2, e) →
    List.Sublist s2 s ∧ (∀ r ∈ s, r.path = rootPath → r ∈ s2) := by
  intro fuel
  induction fuel with
  | zero =>
    intro q s s2 e h
    cases h
  | succ fuel ih =>
    intro q s s2 e h
    exact deleteLevel_both (deleteItemFuel fuel) ih q s s2 e h

theorem wf_deleteItem {s : Store} {p : Str} {s2 : Store}
    {e : Option FsError} (hw : Wf s)
    (h : deleteItem s p = some (s2, e)) : Wf s2 := by
  have hboth := deleteItemFuel_both (s.length + 1) p s s2 e h
  refine ⟨List.Sublist.nodup (List.Sublist.map _ hboth.1) hw.1, ?_, ?_⟩
  · intro it hit
    exact hw.2.1 it (hboth.1.subset hit)
  · rcases hw.2.2 with ⟨r, hrs, hrp, hrt, hrpp⟩
    exact ⟨r, hboth.2 r hrs hrp, hrp, hrt, hrpp⟩

theorem createFolder_ok_parts {s : Store} {p n : Str} {now : Nat}
    {it : FileSystemItem} {s2 : Store}
    (hok : createFolder s p n now = .ok (it, s2)) :
    it = { path := joinPath p n, name := n, type := ItemType.folder,
           content := [], parentPath := p, createdAt := now,
           updatedAt := now } ∧ s2 = putItem s it := by
  simp only [createFolder] at hok
  cases hg : getItem s (joinPath p n) with
  | some d =>
    rw [hg] at hok
    have h2 : (Except.error FsError.alreadyExists :
        Except FsError (FileSystemItem × Store)) = .ok (it, s2) := hok
    cases h2
  | none =>
    rw [hg] at hok
    have h2 : (Except.ok
        ({ path := joinPath p n, name := n, type := ItemType.folder,
           content := [], parentPath := p, createdAt := now,
           updatedAt := now },
         putItem s
          { path := joinPath p n, name := n, type := ItemType.folder,
            content := [], parentPath := p, createdAt := now,
            updatedAt := now }) :
        Except FsError (FileSystemItem × Store)) = .ok (it, s2) := hok
    have h3 := Except.ok.inj h2
    injection h3 with h4 h5
    refine ⟨h4.symm, ?_⟩
    rw [← h5, h4]

theorem createFile_ok_parts {s : Store} {p n c : Str} {now : Nat}
    {it : FileSystemItem} {s2 : Store}
    (hok : createFile s p n c now = .ok (it, s2)) :
    it = { path := joinPath p n, name := n, type := ItemType.file,
           content := c, parentPath := p, createdAt := now,
           updatedAt := now } ∧ s2 = putItem s it := by
  simp only [createFile] at hok
  cases hg : getItem s (joinPath p n) with
  | some d =>
    rw [hg] at hok
    have h2 : (Except.error FsError.alreadyExists :
        Except FsError (FileSystemItem × Store)) = .ok (it, s2) := hok
    cases h2
  | none =>
    rw [hg] at hok
    have h2 : (Except.ok
        ({ path := joinPath p n, name := n, type := ItemType.file,
           content := c, parentPath := p, createdAt := now,
           updatedAt := now },
         putItem s
          { path := joinPath p n, name := n, type := ItemType.file,
            content := c, parentPath := p, createdAt := now,
            updatedAt := now }) :
        Except FsError (FileSystemItem × Store)) = .ok (it, s2) := hok
    have h3 := Except.ok.inj h2
    injection h3 with h4 h5
    refine ⟨h4.symm, ?_⟩
    rw [← h5, h4]

theorem updateFile_ok_parts {s : Store} {p c : Str} {now : Nat}
    {it : FileSystemItem} {s2 : Store}
    (hok : updateFile s p c now = .ok (it, s2)) :
    ∃ item, getItem s p = some item ∧ item.type = ItemType.file ∧
      it = { item with content := c, updatedAt := now } ∧
      s2 = putItem s it := by
  unfold updateFile at hok
  cases hg : getItem s p with
  | none =>
    rw [hg] at hok
    have h2 : (Except.error FsError.notFound :
        Except FsError (FileSystemItem × Store)) = .ok (it, s2) := hok
    cases h2
  | some item =>
    rw [hg] at hok
    by_cases ht : item.type = ItemType.file
    · refine ⟨item, rfl, ht, ?_⟩
      have h2 : (if item.type = ItemType.file then
          (Except.ok ({ item with content := c, updatedAt := now },
            putItem s { item with content := c, updatedAt := now }) :
            Except FsError (FileSystemItem × Store))
        else .error FsError.invalidTarget) = .ok (it, s2) := hok
      rw [if_pos ht] at h2
      have h3 := Except.ok.inj h2
      injection h3 with h4 h5
      refine ⟨h4.symm, ?_⟩
      rw [← h5, h4]
    · exfalso
      have h2 : (if item.type = ItemType.file then
          (Except.ok ({ item with content := c, updatedAt := now },
            putItem s { item with content := c, updatedAt := now }) :
            Except FsError (FileSystemItem × Store))
        else .error FsError.invalidTarget) = .ok (it, s2) := hok
      rw [if_neg ht] at h2
      cases h2

theorem wf_createFolder {s : Store} {p n : Str} {now : Nat}
    {it : FileSystemItem} {s2 : Store} (hw : Wf s)
    (hn1 : ¬ n = []) (hn2 : ¬ slashChar ∈ n)
    (hok : createFolder s p n now = .ok (it, s2)) : Wf s2 := by
  obtain ⟨hit, hs2⟩ := createFolder_ok_parts hok
  subst hit
  subst hs2
  refine ⟨pathsNodup_putItem _ hw.1, ?_, ?_⟩
  · intro a ha
    rcases mem_putItem ha with h1 | h1
    · subst h1
      exact Or.inr ⟨hn1, hn2, rfl⟩
    · exact hw.2.1 a h1
  · rcases hw.2.2 with ⟨r, hrs, hrp, hrt, hrpp⟩
    refine ⟨r, mem_putItem_of_mem hrs ?_, hrp, hrt, hrpp⟩
    rw [hrp]
    exact fun hc => joinPath_ne_root hn1 hc.symm

theorem wf_createFile {s : Store} {p n c : Str} {now : Nat}
    {it : FileSystemItem} {s2 : Store} (hw : Wf s)
    (hn1 : ¬ n = []) (hn2 : ¬ slashChar ∈ n)
    (hok : createFile s p n c now = .ok (it, s2)) : Wf s2 := by
  obtain ⟨hit, hs2⟩ := createFile_ok_parts hok
  subst hit
  subst hs2
  refine ⟨pathsNodup_putItem _ hw.1, ?_, ?_⟩
  · intro a ha
    rcases mem_putItem ha with h1 | h1
    · subst h1
      exact Or.inr ⟨hn1, hn2, rfl⟩
    · exact hw.2.1 a h1
  · rcases hw.2.2 with ⟨r, hrs, hrp, hrt, hrpp⟩
    refine ⟨r, mem_putItem_of_mem hrs ?_, hrp, hrt, hrpp⟩
    rw [hrp]
    exact fun hc => joinPath_ne_root hn1 hc.symm

theorem wf_updateFile {s : Store} {p c : Str} {now : Nat}
    {it : FileSystemItem} {s2 : Store} (hw : Wf s)
    (hok : updateFile s p c now = .ok (it, s2)) : Wf s2 := by
  obtain ⟨item, hg, ht, hit, hs2⟩ := updateFile_ok_parts hok
  subst hit
  subst hs2
  have hm := getItem_eq_some hg
  refine ⟨pathsNodup_putItem _ hw.1, ?_, ?_⟩
  · intro a ha
    rcases mem_putItem ha with h1 | h1
    · subst h1
      rcases hw.2.1 item hm.1 with hr | ⟨h2, h3, h4⟩
      · exact Or.inl hr
      · exact Or.inr ⟨h2, h3, h4⟩
    · exact hw.2.1 a h1
  · rcases hw.2.2 with ⟨r, hrs, hrp, hrt, hrpp⟩
    refine ⟨r, mem_putItem_of_mem hrs ?_, hrp, hrt, hrpp⟩
    rw [hrp]
    intro hc
    have hreq : r = item :=
      eq_of_mem_of_path_eq hw.1 hrs hm.1 (by rw [hrp, ← hc])
    rw [hreq] at hrt
    rw [hrt] at ht
    cases ht

theorem finalDest_name_facts (sn : Str) {f : Str} (hlsn : ¬ lastSegment f = [])
    (hcoh : f = joinPath (orRoot (upToLastSlash f)) (lastSegment f)) :
    ¬ orElse (lastSegment f) sn = [] ∧
    ¬ slashChar ∈ orElse (lastSegment f) sn ∧
    f = joinPath (orRoot (upToLastSlash f)) (orElse (lastSegment f) sn) := by
  rw [orElse, if_neg hlsn]
  exact ⟨hlsn, lastSegment_sf f, hcoh⟩

theorem wf_moveItem {s : Store} {src dst : Str} {now : Nat} {s2 : Store}
    (hw : Wf s) (hdst : NormalizedAbs dst)
    (hok : moveItem s src dst now = .ok s2) : Wf s2 := by
  obtain ⟨source, hsrc, hroot, hdfold, hres⟩ := moveItem_ok_parts hok
  have hm := getItem_eq_some hsrc
  have hsw : ¬ source.name = [] ∧ ¬ slashChar ∈ source.name ∧
      source.path = joinPath source.parentPath source.name := by
    rcases hw.2.1 source hm.1 with hr | h
    · exact absurd (hm.2.symm.trans hr) hroot
    · exact h
  have hsslash : slashChar ∈ src := by
    rw [← hm.2, hsw.2.2]
    exact slash_mem_joinPath _ _
  have hsnil : ¬ src = [] := by
    intro he
    rw [he] at hsslash
    cases hsslash
  have hfprops : NormalizedAbs (finalDestOf s source dst) ∧
      ¬ finalDestOf s source dst = rootPath := by
    unfold finalDestOf
    cases hd : getItem s dst with
    | some d =>
      show NormalizedAbs (if d.type = ItemType.folder
          then joinPath dst source.name else dst) ∧
        ¬ (if d.type = ItemType.folder
          then joinPath dst source.name else dst) = rootPath
      rw [if_pos (hdfold d hd)]
      exact ⟨normalizedAbs_join hdst hsw.1 hsw.2.1,
        joinPath_ne_root hsw.1⟩
    | none =>
      show NormalizedAbs dst ∧ ¬ dst = rootPath
      refine ⟨hdst, ?_⟩
      intro he
      rcases hw.2.2 with ⟨r, hrs, hrp, _, _⟩
      rw [he, ← hrp, getItem_of_mem hw.1 hrs] at hd
      cases hd
  obtain ⟨f, hfnorm, hfroot2, hres⟩ :
      ∃ f, NormalizedAbs f ∧ ¬ f = rootPath ∧
        moveItem.moveResolved s source src f now = .ok s2 :=
    ⟨finalDestOf s source dst, hfprops.1, hfprops.2, hres⟩
  obtain ⟨hfnil, hlsn, hcoh⟩ := normalizedAbs_parts hfnorm hfroot2
  have hnf := finalDest_name_facts source.name hlsn hcoh
  by_cases hfold : source.type = ItemType.folder
  · have hs2 := moveResolved_ok_eq hres
    rw [if_pos hfold] at hs2
    obtain ⟨hC, hA⟩ :=
      circularCheck_false_parts hfold (moveResolved_not_error hres)
    subst hs2
    refine ⟨?_, ?_, ?_⟩
    · exact pathsNodup_deleteKey _
        (pathsNodup_moveChildren _ _ _ _ _ (pathsNodup_putItem _ hw.1))
    · intro a ha
      have ha2 := (mem_deleteKey.1 ha).1
      rcases moveChildren_mem _ _ _ _ _ a ha2 with h1 | h1
      · rcases mem_putItem h1 with h2 | h2
        · subst h2
          exact Or.inr ⟨hnf.1, hnf.2.1, hnf.2.2⟩
        · exact hw.2.1 a h2
      · rcases h1 with ⟨c, hcmem, he⟩
        subst he
        have hcs1 := (List.mem_filter.1 hcmem).1
        have hcpre := of_decide_eq_true (List.mem_filter.1 hcmem).2
        rcases mem_putItem hcs1 with h3 | h3
        · exfalso
          rw [h3] at hcpre
          exact hA hcpre
        · have hr := rekey_wf hw hroot hsslash hfnil hfroot2 h3 hcpre
          exact Or.inr ⟨hr.1, hr.2.1, hr.2.2⟩
    · rcases hw.2.2 with ⟨r, hrs, hrp, hrt, hrpp⟩
      refine ⟨r, ?_, hrp, hrt, hrpp⟩
      refine mem_deleteKey.2 ⟨?_, by rw [hrp]; exact fun hc => hroot hc.symm⟩
      refine moveChildren_mem_keep _ _ _ _ _ r ?_ ?_
      · exact mem_putItem_of_mem hrs
          (by rw [hrp]; exact fun hc => hfroot2 hc.symm)
      · intro c hcmem
        have hcpre := of_decide_eq_true (List.mem_filter.1 hcmem).2
        constructor
        · rw [hrp]
          intro hc
          exact not_prefix_of_root hsnil (by rw [hc]; exact hcpre)
        · rw [hrp]
          intro hc
          have hd := drop_head_slash hcpre
          rw [hd] at hc
          have hl := congrArg List.length hc
          rw [show rootPath.length = 1 from rfl, List.length_append,
            List.length_cons] at hl
          have hfl : 0 < f.length := List.length_pos.2 hfnil
          omega
  · have hs2 := moveResolved_ok_eq hres
    rw [if_neg hfold] at hs2
    subst hs2
    refine ⟨pathsNodup_deleteKey _ (pathsNodup_putItem _ hw.1), ?_, ?_⟩
    · intro a ha
      have ha2 := (mem_deleteKey.1 ha).1
      rcases mem_putItem ha2 with h1 | h1
      · subst h1
        exact Or.inr ⟨hnf.1, hnf.2.1, hnf.2.2⟩
      · exact hw.2.1 a h1
    · rcases hw.2.2 with ⟨r, hrs, hrp, hrt, hrpp⟩
      refine ⟨r, ?_, hrp, hrt, hrpp⟩
      refine mem_deleteKey.2 ⟨?_, by rw [hrp]; exact fun hc => hroot hc.symm⟩
      exact mem_putItem_of_mem hrs
        (by rw [hrp]; exact fun hc => hfroot2 hc.symm)

theorem wf_copyItem {s : Store} {src dst : Str} {now : Nat} {s2 : Store}
    (hw : Wf s) (hdst : NormalizedAbs dst)
    (hok : copyItem s src dst now = .ok s2) : Wf s2 := by
  obtain ⟨source, hsrc, hroot, hdfold, hres⟩ := copyItem_ok_parts hok
  have hm := getItem_eq_some hsrc
  have hsw : ¬ source.name = [] ∧ ¬ slashChar ∈ source.name ∧
      source.path = joinPath source.parentPath source.name := by
    rcases hw.2.1 source hm.1 with hr | h
    · exact absurd (hm.2.symm.trans hr) hroot
    · exact h
  have hsslash : slashChar ∈ src := by
    rw [← hm.2, hsw.2.2]
    exact slash_mem_joinPath _ _
  have hsnil : ¬ src = [] := by
    intro he
    rw [he] at hsslash
    cases hsslash
  have hfprops : NormalizedAbs (finalDestOf s source dst) ∧
      ¬ finalDestOf s source dst = rootPath := by
    unfold finalDestOf
    cases hd : getItem s dst with
    | some d =>
      show NormalizedAbs (if d.type = ItemType.folder
          then joinPath dst source.name else dst) ∧
        ¬ (if d.type = ItemType.folder
          then joinPath dst source.name else dst) = rootPath
      rw [if_pos (hdfold d hd)]
      exact ⟨normalizedAbs_join hdst hsw.1 hsw.2.1,
        joinPath_ne_root hsw.1⟩
    | none =>
      show NormalizedAbs dst ∧ ¬ dst = rootPath
      refine ⟨hdst, ?_⟩
      intro he
      rcases hw.2.2 with ⟨r, hrs, hrp, _, _⟩
      rw [he, ← hrp, getItem_of_mem hw.1 hrs] at hd
      cases hd
  obtain ⟨f, hfnorm, hfroot2, hres⟩ :
      ∃ f, NormalizedAbs f ∧ ¬ f = rootPath ∧
        copyItem.copyResolved s source src f now = .ok s2 :=
    ⟨finalDestOf s source dst, hfprops.1, hfprops.2, hres⟩
  obtain ⟨hfnil, hlsn, hcoh⟩ := normalizedAbs_parts hfnorm hfroot2
  have hnf := finalDest_name_facts source.name hlsn hcoh
  have hs2 := copyResolved_ok_eq hres
  by_cases hfold : source.type = ItemType.folder
  · rw [if_pos hfold] at hs2
    obtain ⟨hC, hA⟩ :=
      circularCheck_false_parts hfold (copyResolved_not_error hres)
    subst hs2
    refine ⟨?_, ?_, ?_⟩
    · exact pathsNodup_copyChildren _ _ _ _ _ (pathsNodup_putItem _ hw.1)
    · intro a ha
      rcases copyChildren_mem _ _ _ _ _ a ha with h1 | h1
      · rcases mem_putItem h1 with h2 | h2
        · subst h2
          exact Or.inr ⟨hnf.1, hnf.2.1, hnf.2.2⟩
        · exact hw.2.1 a h2
      · rcases h1 with ⟨c, hcmem, he⟩
        subst he
        have hcs1 := (List.mem_filter.1 hcmem).1
        have hcpre := of_decide_eq_true (List.mem_filter.1 hcmem).2
        rcases mem_putItem hcs1 with h3 | h3
        · exfalso
          rw [h3] at hcpre
          exact hA hcpre
        · have hr := rekey_wf hw hroot hsslash hfnil hfroot2 h3 hcpre
          exact Or.inr ⟨hr.1, hr.2.1, hr.2.2⟩
    · rcases hw.2.2 with ⟨r, hrs, hrp, hrt, hrpp⟩
      refine ⟨r, ?_, hrp, hrt, hrpp⟩
      refine copyChildren_mem_keep _ _ _ _ _ r ?_ ?_
      · exact mem_putItem_of_mem hrs
          (by rw [hrp]; exact fun hc => hfroot2 hc.symm)
      · intro c hcmem
        have hcpre := of_decide_eq_true (List.mem_filter.1 hcmem).2
        rw [hrp]
        intro hc
        have hd := drop_head_slash hcpre
        rw [hd] at hc
        have hl := congrArg List.length hc
        rw [show rootPath.length = 1 from rfl, List.length_append,
          List.length_cons] at hl
        have hfl : 0 < f.length := List.length_pos.2 hfnil
        omega
  · rw [if_neg hfold] at hs2
    subst hs2
    refine ⟨pathsNodup_putItem _ hw.1, ?_, ?_⟩
    · intro a ha
      rcases mem_putItem ha with h1 | h1
      · subst h1
        exact Or.inr ⟨hnf.1, hnf.2.1, hnf.2.2⟩
      · exact hw.2.1 a h1
    · rcases hw.2.2 with ⟨r, hrs, hrp, hrt, hrpp⟩
      refine ⟨r, ?_, hrp, hrt, hrpp⟩
      exact mem_putItem_of_mem hrs
        (by rw [hrp]; exact fun hc => hfroot2 hc.symm)

theorem reachableN_wf : ∀ s : Store, ReachableN s → Wf s := by
  intro s h
  induction h with
  | init t =>
    refine ⟨by simp [initStore, rootItem, pathsNodup], ?_, ?_⟩
    · intro it hit
      rw [List.mem_singleton.1 hit]
      exact Or.inl rfl
    · exact ⟨rootItem t, List.mem_singleton.2 rfl, rfl, rfl, rfl⟩
  | createFolderStep _ hn1 hn2 hok ih => exact wf_createFolder ih hn1 hn2 hok
  | createFileStep _ hn1 hn2 hok ih => exact wf_createFile ih hn1 hn2 hok
  | updateFileStep _ hok ih => exact wf_updateFile ih hok
  | deleteStep _ hok ih => exact wf_deleteItem ih hok
  | moveStep _ hnorm hok ih => exact wf_moveItem ih hnorm hok
  | copyStep _ hnorm hok ih => exact wf_copyItem ih hnorm hok

/-- C7 counterexample: the path/parent equation fails in reachable
states.  It fails at the root record itself (parent `""` gives
`"" + "/" + "/" ≠ "/"`); it fails for a non-root record after a move
whose destination is not an absolute path (`move("/docs", "x")` leaves a
record keyed `x`); and it fails for a re-keyed descendant whose name
contains a slash. -/
theorem c7_counterexample :
    (Reachable (initStore 0) ∧ rootItem 0 ∈ initStore 0 ∧
      ¬ pathCoherent (rootItem 0)) ∧
    (Reachable xMovedStore ∧ xFolderMoved ∈ xMovedStore ∧
      ¬ xFolderMoved.path = rootPath ∧ ¬ pathCoherent xFolderMoved) ∧
    (Reachable slashedMovedStore ∧ slashedMoved ∈ slashedMovedStore ∧
      ¬ slashedMoved.path = rootPath ∧ ¬ pathCoherent slashedMoved) := by
  have e1 : createFolder (initStore 0) (str "/") (str "docs") 1 =
      .ok (docsFolder, docsStore) := by decide
  have e2 : moveItem docsStore (str "/docs") (str "x") 2 =
      .ok xMovedStore := by decide
  have e3 : createFolder (initStore 0) (str "/") (str "a") 1 =
      .ok (aFolder, [rootItem 0, aFolder]) := by decide
  have e4 : createFile [rootItem 0, aFolder] (str "/a") (str "x/y") [] 2 =
      .ok (slashedFile, slashedStore) := by decide
  have e5 : moveItem slashedStore (str "/a") (str "/b") 3 =
      .ok slashedMovedStore := by decide
  exact ⟨⟨Reachable.init 0, by decide, by decide⟩,
    ⟨Reachable.moveStep
      (Reachable.createFolderStep (Reachable.init 0) e1) e2,
      by decide, by decide, by decide⟩,
    ⟨Reachable.moveStep (Reachable.createFileStep
        (Reachable.createFolderStep (Reachable.init 0) e3) e4) e5,
      by decide, by decide, by decide⟩⟩

/-- C7 amended: in every state reachable from the initialized store by
the public operations with well-formed arguments (create names nonempty
and slash-free, move/copy destinations normalized absolute paths, as the
terminal layer guarantees via the resolver), every node other than the
root satisfies the path/parent equation
`path = (parentPath == "/" ? "/" + name : parentPath + "/" + name)`.
The root record itself is exempt: its parent is the sentinel `""` and
its path is `"/"`, which the equation does not generate. -/
theorem c7_path_parent (s : Store) (hr : ReachableN s) :
    ∀ it ∈ s, ¬ it.path = rootPath → pathCoherent it := by
  intro it hit hroot
  have hw := reachableN_wf s hr
  rcases hw.2.1 it hit with h | h
  · exact absurd h hroot
  · exact h.2.2

/-- C7 witness: the record created by `createFolder("/", "docs")` in the
freshly initialized store satisfies the path/parent equation. -/
theorem c7_path_parent_witness : pathCoherent docsFolder := by
  have e1 : createFolder (initStore 0) (str "/") (str "docs") 1 =
      .ok (docsFolder, docsStore) := by decide
  have hr : ReachableN docsStore :=
    ReachableN.createFolderStep (ReachableN.init 0)
      (by decide) (by decide) e1
  exact c7_path_parent docsStore hr docsFolder (by decide) (by decide)
